import Mathlib

/-!
# Epson LQ-510 24-pin driver (`devices/gdevlq510.c`): encoder model and properties

A shallow embedding of the page encoder of `gdevlq510.c`.

* Buffers (`in`, `out`, `out_temp`) are `List Nat`, one entry per byte; a
  pointer into a buffer is a `Nat` offset from the start of that buffer, so
  `orig_in` is offset `0`.  A read is `buf.getD i 0`.
* The output stream `prn_stream` is the list of bytes written, in order.
* C `int` values that can be negative (`lnum`, `printer_lnum`, `height`) are
  `Int`; C `/` and `%` on them are `Int.tdiv` and `Int.tmod` (truncation).
  Page heights are far below `2^31`, so no wrap-around is modelled.
* The assertions of the page loop on `lnum` and `printer_lnum` are modelled
  as `Except` failures.  The assertions on buffer bounds hold by the sizes of
  the buffers; the alignment assertions of the segmenters and of
  `dot24_print_block` are proved as theorems for the supported modes.
* Loops are written by structural recursion on a fuel argument that counts
  the remaining iterations; the callers pass a bound that is proved to be
  enough.
-/

namespace Lq510

/-! ## Inner scanning loops -/

/-- The inner loop
`for (i = 0; i < n && p + i < lim; i++) if (p[i] != 0) { zero = false; break; }`
of `dot24_print_line` and `dot24_print_block`: the value of `zero` at its
exit.  The first numeric argument is the number of iterations still allowed
(`n - i`), the second is `i`. -/
def scanZero (buf : List Nat) (p lim : Nat) : Nat → Nat → Bool
  | 0, _ => true
  | k + 1, i =>
    if p + i < lim then
      if buf.getD (p + i) 0 != 0 then false else scanZero buf p lim k (i + 1)
    else true

/-- The inner loop
`for (i = -1; i >= -n && p + i >= lo; i--) if (p[i] != 0) { zero = false; break; }`
of `dot24_print_line_backwards`, with `j = -i`: the value of `zero` at its
exit.  The first numeric argument is the number of iterations still allowed,
the second is `j`. -/
def scanZeroBack (buf : List Nat) (p lo : Nat) : Nat → Nat → Bool
  | 0, _ => true
  | k + 1, j =>
    if lo + j ≤ p then
      if buf.getD (p - j) 0 != 0 then false else scanZeroBack buf p lo k (j + 1)
    else true

/-- The trailing-blank trimming loop shared by both segmenters:
`while (in_end - 3 >= in_start && in_end[-1] == 0 && in_end[-2] == 0 && in_end[-3] == 0) in_end -= 3;`
The first numeric argument is fuel, the second is `in_end`. -/
def trimEnd (buf : List Nat) (in_start : Nat) : Nat → Nat → Nat
  | 0, in_end => in_end
  | f + 1, in_end =>
    if in_start + 3 ≤ in_end ∧ buf.getD (in_end - 1) 0 = 0 ∧ buf.getD (in_end - 2) 0 = 0
        ∧ buf.getD (in_end - 3) 0 = 0 then
      trimEnd buf in_start f (in_end - 3)
    else in_end

/-- The outer scanning loops of `dot24_print_line` and `dot24_print_block`,
all of the shape `for (p = p0; p < lim; p += step) { ...; if (stop) break; }`
where `stop` is decided by an inner zero scan at `p`: the value of `p` at the
exit.  The first numeric argument is fuel, the second is `p`. -/
def scanUp (stop : Nat → Bool) (step lim : Nat) : Nat → Nat → Nat
  | 0, p => p
  | f + 1, p =>
    if p < lim then
      if stop p then p else scanUp stop step lim f (p + step)
    else p

/-! ## `dot24_skip_lines` -/

/-- The value an `int` holds after an arithmetic result `x` was stored in it:
`x` reduced to the 32-bit two's-complement range `[-2^31, 2^31)`. -/
def wrapInt (x : Int) : Int := (x + 2147483648) % 4294967296 - 2147483648

/-- The loop `while ((lines >> 1) > 255) { fputs("\x1bJ\xff"); lines -= 255 * 2; }`
followed by the tail of `dot24_skip_lines`, on the `int` value `lines`:
`lines >> 1` is the arithmetic shift (division by 2 rounding down), `lines & 1`
the low bit, and `%c` writes its `int` argument reduced to a byte.  The first
argument is fuel. -/
def skipLoop : Nat → Int → List Nat
  | 0, _ => []
  | f + 1, lines =>
    if lines / 2 > 255 then
      [27, 74, 255] ++ skipLoop f (lines - 255 * 2)
    else if lines ≠ 0 then
      (if lines / 2 ≠ 0 then [27, 74, ((lines / 2) % 256).toNat] else [])
        ++ (if lines % 2 ≠ 0 then [27, 43, 1, 10, 27, 43, 0] else [])
    else []

/-- Model of `dot24_skip_lines(lines, y_high, prn_stream)` for an argument
`lines >= 0` (its two callers pass `1` and a positive difference): the bytes
written.  The product of `lines *= 2` is stored in the `int` variable, so it
wraps at `2^31`. -/
def dot24_skip_lines (lines : Nat) (y_high : Bool) : List Nat :=
  let lines : Int := if !y_high then wrapInt ((lines : Int) * 2) else (lines : Int)
  skipLoop ((lines / 510).toNat + 1) lines

/-! ## `dot24_output_run` and `dot24_filter_bitmap` -/

/-- Model of `dot24_output_run(data, count, prn_stream)`: `data` is the
`count` bytes at the pointer. -/
def dot24_output_run (data : List Nat) : List Nat :=
  let count := data.length
  let xcount := count / 3
  if count = 0 then []
  else [27, 42, 39, xcount % 256, (xcount / 256) % 256] ++ data

/-- The loop of `dot24_filter_bitmap`:
`for (i = (even ? 0 : 3); i < count; i += 6) { out[(i/6)*3 + 0..2] = data[i + 0..2]; }`.
The output positions `(i / 6) * 3` are consecutive multiples of 3 starting at
0, so the bytes written are the concatenation of the copied groups.  The
first numeric argument is fuel, the second is `i`. -/
def filterLoop (data : List Nat) (count : Nat) : Nat → Nat → List Nat
  | 0, _ => []
  | f + 1, i =>
    if i < count then
      [data.getD i 0, data.getD (i + 1) 0, data.getD (i + 2) 0] ++ filterLoop data count f (i + 6)
    else []

/-- Model of `dot24_filter_bitmap(data, out, count, &output_count, print_even_dots)`,
called with `count % 3 == 0` (its assertion): the first `output_count` bytes
of `out`. -/
def dot24_filter_bitmap (data : List Nat) (print_even_dots : Bool) : List Nat :=
  filterLoop data data.length data.length (if print_even_dots then 0 else 3)

/-! ## `dot24_print_block` -/

/-- The first inner `for` of the segment loop of `dot24_print_block`:
`for (seg_start = blk_start; seg_start < blk_end; seg_start += bytes_per_rel_pos)`,
left by `break` at the first position whose `bytes_per_rel_pos` bytes are not
all zero.  The first numeric argument is fuel, the second `seg_start`. -/
def segStart (buf : List Nat) (brp blk_end : Nat) (fuel seg_start : Nat) : Nat :=
  scanUp (fun p => !scanZero buf p blk_end brp 0) brp blk_end fuel seg_start

/-- The second inner `for` of the segment loop of `dot24_print_block`:
`for (seg_end = seg_start; seg_end < blk_end; seg_end += bytes_per_rel_pos)`,
left by `break` at the first position followed by `seg_gap_len = 4` all-zero
positions.  The first numeric argument is fuel, the second `seg_end`. -/
def segEnd (buf : List Nat) (brp blk_end : Nat) (fuel seg_end : Nat) : Nat :=
  scanUp (fun p => scanZero buf p blk_end (brp * 4) 0) brp blk_end fuel seg_end

/-- The loop `for (; blk_start < blk_end;)` of `dot24_print_block` over the
buffered block `buf = out_temp[0, blk_end)`: the bytes written.  The first
numeric argument is fuel, the second `blk_start`. -/
def segLoop (buf : List Nat) (brp blk_end : Nat) : Nat → Nat → List Nat
  | 0, _ => []
  | f + 1, blk_start =>
    if blk_start < blk_end then
      let seg_start := segStart buf brp blk_end (blk_end - blk_start) blk_start
      if seg_start ≥ blk_end then []
      else
        let seg_end0 := segEnd buf brp blk_end (blk_end - seg_start) seg_start
        let seg_end := if seg_end0 ≥ blk_end then blk_end else seg_end0
        let seg_rel_pos := (seg_start - blk_start) / brp
        (if seg_rel_pos ≠ 0 then [27, 92, seg_rel_pos % 256, (seg_rel_pos / 256) % 256] else [])
          ++ dot24_output_run ((buf.drop seg_start).take (seg_end - seg_start))
          ++ segLoop buf brp blk_end f seg_end
    else []

/-- Model of `dot24_print_block(out_temp, pos, blk_start, blk_end, x_high,
print_even_dots, bytes_per_pos, prn_stream)`: `blk` is the content of
`[blk_start, blk_end)`; the result is the bytes written. -/
def dot24_print_block (pos : Nat) (blk : List Nat) (x_high print_even_dots : Bool)
    (bytes_per_pos : Nat) : List Nat :=
  let bytes_per_rel_pos := (bytes_per_pos / 3) / (if x_high then 2 else 1)
  let out_temp := if x_high then dot24_filter_bitmap blk print_even_dots else blk
  [27, 36, pos % 256, (pos / 256) % 256]
    ++ (if !print_even_dots then [27, 42, 40, 1, 0, 0, 0, 0] else [])
    ++ segLoop out_temp bytes_per_rel_pos out_temp.length out_temp.length 0
    ++ [13]

/-! ## `dot24_print_line` and `dot24_print_line_backwards` -/

/-- One call `dot24_print_block(out_temp, pos, blk_start, blk_end, ...)` made
by a segmenter; offsets are relative to `orig_in`. -/
structure Block where
  pos : Nat
  blk_start : Nat
  blk_end : Nat
  deriving DecidableEq, Repr

/-- The `for (blk_start = in_start; blk_start < in_end; blk_start += bytes_per_pos)`
of `dot24_print_line` that skips to the first position that is not zero.  The
first numeric argument is fuel, the second `blk_start`. -/
def fwdBlkStart (buf : List Nat) (bpp in_end : Nat) (fuel blk_start : Nat) : Nat :=
  scanUp (fun p => !scanZero buf p in_end bpp 0) bpp in_end fuel blk_start

/-- The `for (blk_end = blk_start + bytes_per_pos; blk_end < in_end; blk_end += bytes_per_pos)`
of `dot24_print_line` that seeks a zero gap of at least `(xres * 3) / 2`
bytes.  The first numeric argument is fuel, the second `blk_end`. -/
def fwdBlkEnd (buf : List Nat) (xres bpp in_end : Nat) (fuel blk_end : Nat) : Nat :=
  scanUp (fun p => scanZero buf p in_end ((xres * 3) / 2) 0) bpp in_end fuel blk_end

/-- The loop `for (; in_start < in_end;)` of `dot24_print_line`, after
trimming: the calls of `dot24_print_block` in order.  The first numeric
argument is fuel, the second `in_start`. -/
def fwdLoop (buf : List Nat) (xres bpp in_end : Nat) : Nat → Nat → List Block
  | 0, _ => []
  | f + 1, in_start =>
    if in_start < in_end then
      let blk_start := fwdBlkStart buf bpp in_end (in_end - in_start) in_start
      if blk_start ≥ in_end then []
      else
        let blk_end0 := fwdBlkEnd buf xres bpp in_end (in_end - blk_start) (blk_start + bpp)
        let blk_end := if blk_end0 > in_end then in_end else blk_end0
        ⟨blk_start / bpp, blk_start, blk_end⟩ :: fwdLoop buf xres bpp in_end f blk_end
    else []

/-- The calls of `dot24_print_block` made by
`dot24_print_line(out_temp, in_start, in_end, ...)`, where `band` is the
content of `[in_start, in_end)`. -/
def dot24_print_line_blocks (band : List Nat) (xres bytes_per_pos : Nat) : List Block :=
  let in_end := trimEnd band 0 band.length band.length
  fwdLoop band xres bytes_per_pos in_end in_end 0

/-- The `for` of `dot24_print_line_backwards` that skips to the last position
that is not zero (`in_start` is `orig_in`, offset 0).  The first numeric
argument is fuel, the second `blk_end`. -/
def bwdBlkEnd (buf : List Nat) (bpp : Nat) : Nat → Nat → Nat
  | 0, p => p
  | f + 1, p =>
    if p > 0 then
      if scanZeroBack buf p 0 bpp 1 then
        let p1 := if p % bpp ≠ 0 then p + (bpp - p % bpp) else p
        bwdBlkEnd buf bpp f (p1 - bpp)
      else p
    else p

/-- The `for (; blk_start >= in_start; blk_start -= bytes_per_pos)` of
`dot24_print_line_backwards` that seeks a zero gap of at least
`(xres * 3) / 2` bytes (`in_start` is offset 0, so the loop condition holds
for every offset).  The first numeric argument is fuel, the second
`blk_start`. -/
def bwdBlkStart (buf : List Nat) (xres bpp : Nat) : Nat → Nat → Nat
  | 0, p => p
  | f + 1, p =>
    if scanZeroBack buf p 0 ((xres * 3) / 2) 1 then p
    else bwdBlkStart buf xres bpp f (p - bpp)

/-- The loop `for (; in_start < in_end;)` of `dot24_print_line_backwards`,
after trimming: the calls of `dot24_print_block` in order.  The first numeric
argument is fuel, the second `in_end`. -/
def bwdLoop (buf : List Nat) (xres bpp : Nat) : Nat → Nat → List Block
  | 0, _ => []
  | f + 1, in_end =>
    if 0 < in_end then
      let blk_end := bwdBlkEnd buf bpp (in_end + 1) in_end
      if blk_end ≤ 0 then []
      else
        let blk_start0 := blk_end - blk_end % bpp
        let blk_start1 := if blk_start0 = blk_end then blk_start0 - bpp else blk_start0
        let blk_start := bwdBlkStart buf xres bpp (blk_start1 + 1) blk_start1
        ⟨blk_start / bpp, blk_start, blk_end⟩ :: bwdLoop buf xres bpp f blk_start
    else []

/-- The calls of `dot24_print_block` made by
`dot24_print_line_backwards(out_temp, in_start, in_end, ...)`, where `band` is
the content of `[in_start, in_end)`. -/
def dot24_print_line_backwards_blocks (band : List Nat) (xres bytes_per_pos : Nat) :
    List Block :=
  let in_end := trimEnd band 0 band.length band.length
  bwdLoop band xres bytes_per_pos in_end in_end

/-- The bytes written by the calls of `dot24_print_block` in `blocks`. -/
def emitBlocks (band : List Nat) (x_high print_even_dots : Bool) (bytes_per_pos : Nat)
    (blocks : List Block) : List Nat :=
  blocks.flatMap fun b =>
    dot24_print_block b.pos ((band.drop b.blk_start).take (b.blk_end - b.blk_start))
      x_high print_even_dots bytes_per_pos

/-- Model of `dot24_print_line`: the bytes written. -/
def dot24_print_line (band : List Nat) (x_high print_even_dots : Bool)
    (xres bytes_per_pos : Nat) : List Nat :=
  emitBlocks band x_high print_even_dots bytes_per_pos
    (dot24_print_line_blocks band xres bytes_per_pos)

/-- Model of `dot24_print_line_backwards`: the bytes written. -/
def dot24_print_line_backwards (band : List Nat) (x_high print_even_dots : Bool)
    (xres bytes_per_pos : Nat) : List Nat :=
  emitBlocks band x_high print_even_dots bytes_per_pos
    (dot24_print_line_backwards_blocks band xres bytes_per_pos)

/-! ## `dot24_print_page` -/

/-- Modelled from the spec: `memflip8x8(inp, line_size, outp, dist)` of the
graphics library, which is not part of this file, is the 8x8 bit-matrix
transpose.  `rows` are the 8 input bytes `inp[k * line_size]`; the result is
the 8 output bytes `outp[b * dist]`: bit `k` (most significant first) of
output byte `b` is bit `b` (most significant first) of input byte `k`. -/
def memflip8x8 (rows : List Nat) : List Nat :=
  (List.range 8).map fun b =>
    (List.range 8).foldl (fun acc k => 2 * acc + (rows.getD k 0 / 2 ^ (7 - b)) % 2) 0

/-- The three `memflip8x8` calls of one iteration of the transposition loop of
`dot24_print_page`, for the byte column `c` of the band `inb`: the 24 bytes
written at `out_end`, byte `3 * b + g` being output byte `b` of the flip of
the rows `8 * g .. 8 * g + 7`. -/
def transposeColumn (inb : List Nat) (line_size c : Nat) : List Nat :=
  (List.range 24).map fun j =>
    (memflip8x8 ((List.range 8).map fun k => inb.getD ((8 * (j % 3) + k) * line_size + c) 0)).getD
      (j / 3) 0

/-- The transposition loop `for (; inp < in_end; inp++, out_end += 24)` of
`dot24_print_page`: the content of `[out, out_end)`. -/
def transposeBand (inb : List Nat) (line_size : Nat) : List Nat :=
  (List.range line_size).flatMap fun c => transposeColumn inb line_size c

/-- The scanline source `gdev_prn_copy_scan_lines(pdev, line, inp, line_size)`
of the surrounding device, for a request of one line: `some row` when a line
was copied (non-zero result), `none` when it reports that no line was
copied. -/
abbrev Fetch := Int → Option (List Nat)

/-- The `line_size` bytes a copied scanline leaves in its buffer slot. -/
def fitRow (line_size : Nat) (row : List Nat) : List Nat :=
  (row ++ List.replicate line_size 0).take line_size

/-- One iteration of the scanline copy loops of `dot24_print_page`: the
content of the slot `[inp, inp + line_size)` after
`if (line < 0 || !gdev_prn_copy_scan_lines(...)) memset(inp, 0, line_size);`. -/
def fetchRow (fetch : Fetch) (line_size : Nat) (line : Int) : List Nat :=
  if line < 0 then List.replicate line_size 0
  else
    match fetch line with
    | some row => fitRow line_size row
    | none => List.replicate line_size 0

/-- The band assembly of `dot24_print_page` ("Copy a full block of scan
lines"): the content of `in[0, in_size)`. -/
def assembleBand (fetch : Fetch) (line_size : Nat) (y_high : Bool) (lnum : Int) : List Nat :=
  if y_high then
    ((List.range 24).flatMap fun lcnt => fetchRow fetch line_size (lnum + lcnt * 2))
      ++ ((List.range 24).flatMap fun lcnt => fetchRow fetch line_size (lnum + lcnt * 2 + 1))
  else
    (List.range 24).flatMap fun lcnt => fetchRow fetch line_size (lnum + lcnt)

/-- Value of `!memcmp(buf + a, buf + b, n)`. -/
def memEq (buf : List Nat) (a b n : Nat) : Bool :=
  (buf.drop a).take n == (buf.drop b).take n

/-- The loop
`while (empty_lines < 24 && !memcmp(in, in + line_size * empty_lines, line_size)) empty_lines++;`
of the branch without vertical doubling.  The first numeric argument is fuel,
the second `empty_lines`. -/
def emptyLinesLow (inb : List Nat) (line_size : Nat) : Nat → Nat → Nat
  | 0, e => e
  | f + 1, e =>
    if e < 24 ∧ memEq inb 0 (line_size * e) line_size = true then
      emptyLinesLow inb line_size f (e + 1)
    else e

/-- The loop `for (empty_lines = 0; empty_lines < 48; empty_lines++)` of the
vertical-doubling branch, left by `break` at the first row that differs from
row 0.  The first numeric argument is fuel, the second `empty_lines`. -/
def emptyLinesHigh (inb : List Nat) (line_size : Nat) : Nat → Nat → Nat
  | 0, e => e
  | f + 1, e =>
    if e < 48 then
      if memEq inb 0 (line_size * (e / 2 + (if e % 2 = 0 then 0 else 24))) line_size = true then
        emptyLinesHigh inb line_size f (e + 1)
      else e
    else e

/-- Failures of the page encoder: an `assert` of `dot24_print_page` that does
not hold (named by its condition), or the iteration bound of the page loop
exhausted. -/
inductive PageError where
  | assert_resolution
  | assert_printer_lnum_lt_4
  | assert_parity
  | assert_document_line_parity
  | assert_printhead_lt_real
  | assert_printer_lt_lnum
  | out_of_fuel
  deriving DecidableEq, Repr

/-- `memcpy(in + dst * line_size, in + src * line_size, line_size)`. -/
def copyRow (inb : List Nat) (line_size dst src : Nat) : List Nat :=
  inb.take (dst * line_size) ++ (inb.drop (src * line_size)).take line_size
    ++ inb.drop (dst * line_size + line_size)

/-- `memset(in + k * line_size, 0, line_size)`. -/
def zeroRow (inb : List Nat) (line_size k : Nat) : List Nat :=
  inb.take (k * line_size) ++ List.replicate line_size 0 ++ inb.drop (k * line_size + line_size)

/-- The loop `for (int real_line = 0; real_line < 24; real_line++)` of the
negative-position correction.  The first numeric argument is the number of
iterations left, the second `real_line`; the result is the band buffer. -/
def shiftRows (line_size : Nat) (lnum printer_lnum : Int) :
    Nat → Nat → List Nat → Except PageError (List Nat)
  | 0, _, inb => .ok inb
  | k + 1, real_line, inb =>
    let document_line : Int := lnum + real_line * 2
    let printhead_line : Int := (document_line - printer_lnum).tdiv 2
    if (document_line - printer_lnum).tmod 2 ≠ 0 then .error .assert_document_line_parity
    else if ¬ printhead_line < real_line then .error .assert_printhead_lt_real
    else
      let inb1 :=
        if 0 ≤ printhead_line ∧ printhead_line < 24 then
          copyRow inb line_size printhead_line.toNat real_line
        else inb
      shiftRows line_size lnum printer_lnum k (real_line + 1) (zeroRow inb1 line_size real_line)

/-- The variables of `dot24_print_page` that live across iterations of the
page loop, and the bytes written to `prn_stream` since the preamble. -/
structure PageState where
  lnum : Int
  printer_lnum : Int
  cycle : Nat
  forward : Bool
  out : List Nat
  deriving DecidableEq, Repr

/-- The static inputs of `dot24_print_page`: resolution, `gdev_prn_raster`,
page height and the bidirectional flag. -/
structure PageCfg where
  xres : Nat
  yres : Nat
  line_size : Nat
  height : Int
  bidirectional : Bool
  deriving DecidableEq, Repr

/-- `x_high = (xres == 360)`. -/
def PageCfg.x_high (c : PageCfg) : Bool := c.xres == 360

/-- `y_high = (yres == 360)`. -/
def PageCfg.y_high (c : PageCfg) : Bool := c.yres == 360

/-- `bytes_per_pos = (xres / 60) * 3`. -/
def PageCfg.bytes_per_pos (c : PageCfg) : Nat := (c.xres / 60) * 3

/-- The value of `empty_lines` after the "Seek if the block starts with empty
lines" test succeeded, and `empty_lines_needed`. -/
def emptyLines (c : PageCfg) (inb : List Nat) : Nat × Nat :=
  if !c.y_high then
    (emptyLinesLow inb c.line_size 24 1, if c.x_high then 12 else 12)
  else
    (emptyLinesHigh inb c.line_size 48 0, if c.x_high then 36 else 24)

/-- The part of the loop body of `dot24_print_page` from the cursor
reconciliation (`if (lnum < 0 || lnum < printer_lnum)`) to the end of the
body, for the assembled band `inb`. -/
def printBand (c : PageCfg) (st : PageState) (inb : List Nat) : Except PageError PageState :=
  let x_high := c.x_high
  let y_high := c.y_high
  let r : Except PageError (Int × List Nat × List Nat) :=
    if st.lnum < 0 ∨ st.lnum < st.printer_lnum then
      if ¬ st.printer_lnum < 4 then .error .assert_printer_lnum_lt_4
      else
        let (printer_lnum, o) :=
          if st.lnum.tmod 2 ≠ st.printer_lnum.tmod 2 then
            (st.printer_lnum + 1, dot24_skip_lines 1 y_high)
          else (st.printer_lnum, [])
        if (printer_lnum - st.lnum).tmod 2 ≠ 0 then .error .assert_parity
        else
          (shiftRows c.line_size st.lnum printer_lnum 24 0 inb).map fun inb1 =>
            (printer_lnum, o, inb1)
    else if st.printer_lnum ≠ st.lnum then
      if ¬ st.printer_lnum < st.lnum then .error .assert_printer_lt_lnum
      else .ok (st.lnum, dot24_skip_lines (st.lnum - st.printer_lnum).toNat y_high, inb)
    else .ok (st.printer_lnum, [], inb)
  r.map fun (printer_lnum, o, inb1) =>
    let band := transposeBand inb1 c.line_size
    let print_even_dots := !x_high || decide (st.cycle < 2)
    let printed :=
      if st.forward then dot24_print_line band x_high print_even_dots c.xres c.bytes_per_pos
      else dot24_print_line_backwards band x_high print_even_dots c.xres c.bytes_per_pos
    let forward := if c.bidirectional then !st.forward else st.forward
    let lnum :=
      if x_high && y_high then st.lnum + (if st.lnum.tmod 2 = 0 then 11 else 13)
      else if x_high then st.lnum + 12
      else if y_high then st.lnum + 25
      else st.lnum + 12
    { lnum := lnum, printer_lnum := printer_lnum, cycle := (st.cycle + 1) % 4,
      forward := forward, out := st.out ++ o ++ printed }

/-- One iteration of `while (lnum < pdev->height)` in `dot24_print_page`. -/
def pageStep (c : PageCfg) (fetch : Fetch) (st : PageState) : Except PageError PageState :=
  let inb := assembleBand fetch c.line_size c.y_high st.lnum
  if inb.getD 0 0 = 0 ∧ memEq inb 0 1 (c.line_size - 1) = true then
    let (empty_lines, empty_lines_needed) := emptyLines c inb
    if empty_lines > empty_lines_needed then
      .ok { st with lnum := st.lnum + ((empty_lines : Int) - empty_lines_needed) }
    else printBand c st inb
  else printBand c st inb

/-- The loop `while (lnum < pdev->height)` of `dot24_print_page`.  The first
argument is fuel. -/
def pageLoop (c : PageCfg) (fetch : Fetch) : Nat → PageState → Except PageError PageState
  | 0, st => if st.lnum < c.height then .error .out_of_fuel else .ok st
  | f + 1, st =>
    if st.lnum < c.height then
      match pageStep c fetch st with
      | .ok st1 => pageLoop c fetch f st1
      | .error e => .error e
    else .ok st

/-- The initial value of `lnum` chosen by the per-resolution strategy. -/
def initialLnum (c : PageCfg) : Int :=
  if c.x_high && c.y_high then -36
  else if c.x_high then -12
  else if c.y_high then -24
  else -12

/-- Model of `dot24_print_page` after its three buffers were allocated: the
bytes written to `prn_stream` after the initialization preamble (the
`init_string` and the margin byte), paired with the return value. -/
def dot24_print_page (c : PageCfg) (fetch : Fetch) : Except PageError (List Nat × Int) :=
  if ¬ ((c.xres = 180 ∨ c.xres = 360) ∧ (c.yres = 180 ∨ c.yres = 360)) then
    .error .assert_resolution
  else
    let st0 : PageState :=
      { lnum := initialLnum c, printer_lnum := 0, cycle := 0, forward := true, out := [] }
    match pageLoop c fetch (c.height - st0.lnum).toNat st0 with
    | .ok st => .ok (st.out ++ [12, 27, 64], 0)
    | .error e => .error e



/-! ## Definitions used to state the properties -/

/-- The vertical-tab commands `ESC J n` for the feeds `ns`. -/
def encodeFeeds (ns : List Nat) : List Nat := ns.flatMap fun n => [27, 74, n]

/-- The micro-feed sequence `ESC + 1, LF, ESC + 0`. -/
def microFeed : List Nat := [27, 43, 1, 10, 27, 43, 0]

/-- Page row `line` is all zero as the band assembly sees it: it lies before
the page, is absent, or holds only zero bytes. -/
def rowBlank (fetch : Fetch) (line_size : Nat) (line : Int) : Bool :=
  (fetchRow fetch line_size line).all fun b => b == 0

/-- Number of consecutive all-zero page rows starting at row `lnum`, counted
in page order and capped at `cap`. -/
def leadingBlank (fetch : Fetch) (line_size : Nat) (lnum : Int) : Nat → Nat
  | 0 => 0
  | cap + 1 =>
    if rowBlank fetch line_size lnum then 1 + leadingBlank fetch line_size (lnum + 1) cap else 0

/-- The page row held by each slot of the band buffer, in slot order. -/
def bandLines (y_high : Bool) (lnum : Int) : List Int :=
  if y_high then
    ((List.range 24).map fun (lcnt : Nat) => lnum + (lcnt : Int) * 2)
      ++ ((List.range 24).map fun (lcnt : Nat) => lnum + (lcnt : Int) * 2 + 1)
  else (List.range 24).map fun (lcnt : Nat) => lnum + (lcnt : Int)

/-- The blank-run threshold `empty_lines_needed` of a mode. -/
def threshold (c : PageCfg) : Nat :=
  if c.yres = 180 then 12 else if c.xres = 180 then 24 else 36

/-- The cap of `empty_lines`: 24 rows without vertical doubling, 48 with it. -/
def blankCap (c : PageCfg) : Nat := if c.y_high then 48 else 24

/-- All bytes of `buf` at the offsets `a ≤ i < b` are zero. -/
def zeroOn (buf : List Nat) (a b : Nat) : Prop :=
  ∀ i, a ≤ i → i < b → buf.getD i 0 = 0

/-- The resolutions the driver supports, with the `bytes_per_pos` the page
encoder derives from them (`(xres / 60) * 3`). -/
def Mode (xres bpp : Nat) : Prop :=
  (xres = 180 ∧ bpp = 9) ∨ (xres = 360 ∧ bpp = 18)

/-- The value of `blk_start` that `dot24_print_line_backwards` computes for a
block ending at `blk_end`: the start of the position holding the last byte,
then the downward seek for a zero gap. -/
def bwdStartOf (buf : List Nat) (xres bpp blk_end : Nat) : Nat :=
  let blk_start0 := blk_end - blk_end % bpp
  let blk_start1 := if blk_start0 = blk_end then blk_start0 - bpp else blk_start0
  bwdBlkStart buf xres bpp (blk_start1 + 1) blk_start1

/-- The value of `blk_end` that `dot24_print_line` computes for a block
starting at `blk_start`: the upward seek for a zero gap, clipped to `in_end`. -/
def fwdEndOf (buf : List Nat) (xres bpp in_end blk_start : Nat) : Nat :=
  let blk_end0 := fwdBlkEnd buf xres bpp in_end (in_end - blk_start) (blk_start + bpp)
  if blk_end0 > in_end then in_end else blk_end0

/-- The facts about the trimmed band the segmenters rely on: the trimmed end
is a whole number of dot-columns and the dot-column ending there is not
blank. -/
structure Trimmed (buf : List Nat) (e : Nat) : Prop where
  mod3 : e % 3 = 0
  last : 3 ≤ e → ¬ (buf.getD (e - 1) 0 = 0 ∧ buf.getD (e - 2) 0 = 0 ∧ buf.getD (e - 3) 0 = 0)


/-- The bounds `[blk_start, blk_end)` of a block. -/
def Block.bounds (b : Block) : Nat × Nat := (b.blk_start, b.blk_end)

/-- The bounds of a block mirrored in a band of length `len`: `[s, e)` becomes
`[len - e, len - s)`. -/
def Block.mirror (len : Nat) (b : Block) : Nat × Nat := (len - b.blk_end, len - b.blk_start)

/-- A command of the body of a block, as the printer reads it after the
absolute-position command: a relative move `ESC \ lo hi` over `lo + 256 * hi`
dot-columns, or a graphics run `ESC * 39 lo hi data` announcing
`lo + 256 * hi` dot-columns and carrying `data`. -/
inductive Cmd where
  | move (n : Nat)
  | run (n : Nat) (data : List Nat)
  deriving DecidableEq, Repr

/-- The dot-columns a command stands for: all-zero columns for a relative
move, the data of a graphics run. -/
def Cmd.columns : Cmd → List Nat
  | .move n => List.replicate (3 * n) 0
  | .run _ data => data

/-- The bytes of a command. -/
def Cmd.encode : Cmd → List Nat
  | .move n => [27, 92, n % 256, (n / 256) % 256]
  | .run n data => [27, 42, 39, n % 256, (n / 256) % 256] ++ data

/-- A command whose count fits the two count bytes and, for a graphics run,
whose data holds exactly three bytes per announced dot-column. -/
def Cmd.valid : Cmd → Prop
  | .move n => 0 < n ∧ n < 65536
  | .run n data => 0 < n ∧ n < 65536 ∧ data.length = 3 * n

/-- Reads relative moves and graphics runs from the head of a byte stream,
each graphics run taking `3 * (lo + 256 * hi)` data bytes, until the stream
does not continue with one of the two commands; returns the commands and the
unread rest.  The first argument bounds the number of commands read. -/
def readCmds : Nat → List Nat → List Cmd × List Nat
  | 0, bs => ([], bs)
  | f + 1, 27 :: 92 :: lo :: hi :: rest =>
    let r := readCmds f rest
    (Cmd.move (lo + 256 * hi) :: r.1, r.2)
  | f + 1, 27 :: 42 :: 39 :: lo :: hi :: rest =>
    let n := lo + 256 * hi
    let r := readCmds f (rest.drop (3 * n))
    (Cmd.run n (rest.take (3 * n)) :: r.1, r.2)
  | _ + 1, bs => ([], bs)

/-- The buffer `data` without its trailing all-zero dot-columns (groups of 3
bytes, removed from the end while all three bytes are zero). -/
def stripBlank (data : List Nat) : List Nat :=
  data.take (trimEnd data 0 data.length data.length)

/-- The two settings `dot24_print_page` passes to `dot24_print_block`:
`x_high` false with `bytes_per_pos = 9`, or true with `bytes_per_pos = 18`. -/
def BlockMode (x_high : Bool) (bpp : Nat) : Prop :=
  (x_high = false ∧ bpp = 9) ∨ (x_high = true ∧ bpp = 18)

/-- A command of the output of `dot24_print_line`: absolute position
`ESC $ lo hi`, the phase command `ESC * ( 1 0 0 0 0`, relative move
`ESC \ lo hi`, graphics run `ESC * 39 lo hi data`, carriage return. -/
inductive Out where
  | pos (n : Nat)
  | phase
  | move (n : Nat)
  | run (data : List Nat)
  | cr
  deriving DecidableEq, Repr

/-- The bytes of an output command, as `dot24_print_block` and
`dot24_output_run` write them. -/
def Out.encode : Out → List Nat
  | .pos n => [27, 36, n % 256, (n / 256) % 256]
  | .phase => [27, 42, 40, 1, 0, 0, 0, 0]
  | .move n => [27, 92, n % 256, (n / 256) % 256]
  | .run data => dot24_output_run data
  | .cr => [13]

/-- The bytes of a list of output commands. -/
def encodeOut (cmds : List Out) : List Nat := cmds.flatMap Out.encode

/-- Reads the output of `dot24_print_line` as a list of commands, each
graphics run taking `3 * (lo + 256 * hi)` data bytes; stops at the first byte
that starts none of the five commands and returns the unread rest.  The first
argument bounds the number of commands read. -/
def readOut : Nat → List Nat → List Out × List Nat
  | 0, bs => ([], bs)
  | f + 1, 27 :: 36 :: lo :: hi :: rest =>
    let r := readOut f rest
    (Out.pos (lo + 256 * hi) :: r.1, r.2)
  | f + 1, 27 :: 42 :: 40 :: 1 :: 0 :: 0 :: 0 :: 0 :: rest =>
    let r := readOut f rest
    (Out.phase :: r.1, r.2)
  | f + 1, 27 :: 92 :: lo :: hi :: rest =>
    let r := readOut f rest
    (Out.move (lo + 256 * hi) :: r.1, r.2)
  | f + 1, 27 :: 42 :: 39 :: lo :: hi :: rest =>
    let r := readOut f (rest.drop (3 * (lo + 256 * hi)))
    (Out.run (rest.take (3 * (lo + 256 * hi))) :: r.1, r.2)
  | f + 1, 13 :: rest =>
    let r := readOut f rest
    (Out.cr :: r.1, r.2)
  | _ + 1, bs => ([], bs)

/-- Number of graphics-run commands in a list of output commands. -/
def countRuns (cmds : List Out) : Nat :=
  cmds.countP fun c => match c with
    | .run _ => true
    | _ => false

/-- The band holds exactly two runs of non-blank dot-columns, the columns
`[a0, a1)` and `[b0, b1)`, separated by the all-zero columns `[a1, b0)`. -/
structure TwoRuns (band : List Nat) (a0 a1 b0 b1 : Nat) : Prop where
  len3 : band.length % 3 = 0
  h01 : a0 < a1
  h12 : a1 < b0
  h23 : b0 < b1
  hlen : 3 * b1 ≤ band.length
  marked : ∀ c, (a0 ≤ c ∧ c < a1) ∨ (b0 ≤ c ∧ c < b1) → ¬ zeroOn band (3 * c) (3 * c + 3)
  blank : ∀ c, ¬ ((a0 ≤ c ∧ c < a1) ∨ (b0 ≤ c ∧ c < b1)) → zeroOn band (3 * c) (3 * c + 3)

/-- The bytes of the dot-columns `[a, b)` of the band. -/
def columns (band : List Nat) (a b : Nat) : List Nat :=
  (band.drop (3 * a)).take (3 * (b - a))

/-- The buffer holds exactly one run of non-blank dot-columns, the columns
`[a0, a1)`. -/
structure OneRun (data : List Nat) (a0 a1 : Nat) : Prop where
  len3 : data.length % 3 = 0
  h01 : a0 < a1
  hlen : 3 * a1 ≤ data.length
  marked : ∀ c, a0 ≤ c ∧ c < a1 → ¬ zeroOn data (3 * c) (3 * c + 3)
  blank : ∀ c, ¬ (a0 ≤ c ∧ c < a1) → zeroOn data (3 * c) (3 * c + 3)


/-! ## Further definitions used to state the properties -/

/-- The slot `k` of a band buffer with rows of `line_size` bytes: the bytes
`in[k * line_size, (k + 1) * line_size)`. -/
def slot (inb : List Nat) (line_size k : Nat) : List Nat :=
  (inb.drop (k * line_size)).take line_size

/-- The assignments `out[(i / 6) * 3 + t] = data[i + t]`, `t = 0, 1, 2`, made
by the loop of `dot24_filter_bitmap`, in order, as pairs (index written in
`out`, index read in `data`).  The first numeric argument of the loop is
fuel, the second is `i`. -/
def filterTrace (count : Nat) : Nat → Nat → List (Nat × Nat)
  | 0, _ => []
  | f + 1, i =>
    if i < count then
      [(i / 6 * 3 + 0, i + 0), (i / 6 * 3 + 1, i + 1), (i / 6 * 3 + 2, i + 2)]
        ++ filterTrace count f (i + 6)
    else []

/-- Bit `i` of the byte `x`, the most significant bit being bit 0. -/
def bitMsb (x i : Nat) : Nat := (x / 2 ^ (7 - i)) % 2

/-- The inverse of the band transposition, for an output buffer `out` of
`24 * line_size` bytes: the 24 band rows of `line_size` bytes each, where bit
`b` (most significant first) of byte `c` of row `r` is bit `r % 8` of the
output byte `24 * c + 3 * b + r / 8`. -/
def untransposeBand (out : List Nat) (line_size : Nat) : List Nat :=
  (List.range 24).flatMap fun r =>
    (List.range line_size).map fun c =>
      (List.range 8).foldl
        (fun acc b => 2 * acc + bitMsb (out.getD (24 * c + 3 * b + r / 8) 0) (r % 8)) 0

/-- The cursor reconciliation of the loop body of `dot24_print_page`
(`if (lnum < 0 || lnum < printer_lnum) { ... } else if (printer_lnum != lnum) { ... }`):
the new `printer_lnum`, the bytes written and the band buffer `in` as it is
handed to the transposition. -/
def reconcile (c : PageCfg) (st : PageState) (inb : List Nat) :
    Except PageError (Int × List Nat × List Nat) :=
  if st.lnum < 0 ∨ st.lnum < st.printer_lnum then
    if ¬ st.printer_lnum < 4 then .error .assert_printer_lnum_lt_4
    else
      let (printer_lnum, o) :=
        if st.lnum.tmod 2 ≠ st.printer_lnum.tmod 2 then
          (st.printer_lnum + 1, dot24_skip_lines 1 c.y_high)
        else (st.printer_lnum, [])
      if (printer_lnum - st.lnum).tmod 2 ≠ 0 then .error .assert_parity
      else
        (shiftRows c.line_size st.lnum printer_lnum 24 0 inb).map fun inb1 =>
          (printer_lnum, o, inb1)
  else if st.printer_lnum ≠ st.lnum then
    if ¬ st.printer_lnum < st.lnum then .error .assert_printer_lt_lnum
    else .ok (st.lnum, dot24_skip_lines (st.lnum - st.printer_lnum).toNat c.y_high, inb)
  else .ok (st.printer_lnum, [], inb)

/-- The bytes one band prints: the transposition of the band buffer followed
by `dot24_print_line` or `dot24_print_line_backwards`. -/
def printedBytes (c : PageCfg) (st : PageState) (inb1 : List Nat) : List Nat :=
  let band := transposeBand inb1 c.line_size
  let print_even_dots := !c.x_high || decide (st.cycle < 2)
  if st.forward then dot24_print_line band c.x_high print_even_dots c.xres c.bytes_per_pos
  else dot24_print_line_backwards band c.x_high print_even_dots c.xres c.bytes_per_pos

/-- The value of `lnum` at the end of an iteration that printed a band. -/
def nextLnum (c : PageCfg) (lnum : Int) : Int :=
  if c.x_high && c.y_high then lnum + (if lnum.tmod 2 = 0 then 11 else 13)
  else if c.x_high then lnum + 12
  else if c.y_high then lnum + 25
  else lnum + 12

/-- The iteration of the page loop that starts in `st` leaves through the
`continue` of the blank-run seek. -/
def skipsBand (c : PageCfg) (fetch : Fetch) (st : PageState) : Bool :=
  let inb := assembleBand fetch c.line_size c.y_high st.lnum
  decide (inb.getD 0 0 = 0 ∧ memEq inb 0 1 (c.line_size - 1) = true)
    && decide ((emptyLines c inb).1 > (emptyLines c inb).2)

/-- The iteration of the page loop that starts in `st` takes the
negative-position correction (`if (lnum < 0 || lnum < printer_lnum)`). -/
def takesCorrection (c : PageCfg) (fetch : Fetch) (st : PageState) : Bool :=
  !skipsBand c fetch st && decide (st.lnum < 0 ∨ st.lnum < st.printer_lnum)

/-- The states of the page loop at the head of an iteration: the initial
state, and every state left by an iteration that was entered with
`lnum < height` and ended without a failed assertion. -/
inductive Reachable (c : PageCfg) (fetch : Fetch) : PageState → Prop where
  | init : Reachable c fetch
      { lnum := initialLnum c, printer_lnum := 0, cycle := 0, forward := true, out := [] }
  | step {st st1 : PageState} : Reachable c fetch st → st.lnum < c.height →
      pageStep c fetch st = .ok st1 → Reachable c fetch st1

/-- The byte sink `prn_stream` as its caller can observe it: the number of
bytes it still accepts, the bytes it accepted so far, and its error
indicator. -/
structure Sink where
  room : Nat
  stored : List Nat
  failed : Bool
  deriving DecidableEq, Repr

/-- A write call (`gp_fputc`, `gp_fputs`, `gp_fwrite`, `gp_fprintf`) of
`bytes` on the sink: the sink stores the bytes it still has room for, and the
call fails, setting the error indicator, when not all of them fit. -/
def Sink.write (s : Sink) (bytes : List Nat) : Sink :=
  { room := s.room - bytes.length, stored := s.stored ++ bytes.take s.room,
    failed := s.failed || decide (s.room < bytes.length) }

/-- Model of `dot24_print_page` writing to a sink whose write calls can fail.
Every write call of the file is an expression statement whose result is
discarded, the helpers that write (`dot24_skip_lines`, `dot24_print_line`,
`dot24_print_line_backwards`, `dot24_print_block`, `dot24_output_run`) return
`void`, and the function ends with `return 0;` so the bytes handed to the
sink and the return value are those of `dot24_print_page`, whatever the sink
answers.  The result is the sink after the page and the return value. -/
def dot24_print_page_sink (s : Sink) (c : PageCfg) (fetch : Fetch) :
    Except PageError (Sink × Int) :=
  match dot24_print_page c fetch with
  | .ok (bytes, code) => .ok (s.write bytes, code)
  | .error e => .error e

/-- A command of the page body, as the printer reads it: absolute position
`ESC $ lo hi`, the phase command `ESC * ( 1 0 0 0 0`, relative move
`ESC \ lo hi`, graphics run `ESC * 39 lo hi data`, carriage return, vertical
tab `ESC J n`, the micro-feed `ESC + 1, LF, ESC + 0`, and the trailer
form-feed, `ESC @`. -/
inductive Op where
  | pos (n : Nat)
  | phase
  | move (n : Nat)
  | run (data : List Nat)
  | cr
  | feed (n : Nat)
  | micro
  | eject
  deriving DecidableEq, Repr

/-- The bytes of a command of the page body, as the encoder writes them. -/
def Op.encode : Op → List Nat
  | .pos n => [27, 36, n % 256, (n / 256) % 256]
  | .phase => [27, 42, 40, 1, 0, 0, 0, 0]
  | .move n => [27, 92, n % 256, (n / 256) % 256]
  | .run data => dot24_output_run data
  | .cr => [13]
  | .feed n => [27, 74, n]
  | .micro => [27, 43, 1, 10, 27, 43, 0]
  | .eject => [12, 27, 64]

/-- Reads a page body as a list of commands, each graphics run taking
`3 * (lo + 256 * hi)` data bytes; stops at the first byte that starts none of
the commands and returns the unread rest.  The first argument bounds the
number of commands read. -/
def readPage : Nat → List Nat → List Op × List Nat
  | 0, bs => ([], bs)
  | f + 1, 27 :: 36 :: lo :: hi :: rest =>
    let r := readPage f rest
    (Op.pos (lo + 256 * hi) :: r.1, r.2)
  | f + 1, 27 :: 42 :: 40 :: 1 :: 0 :: 0 :: 0 :: 0 :: rest =>
    let r := readPage f rest
    (Op.phase :: r.1, r.2)
  | f + 1, 27 :: 92 :: lo :: hi :: rest =>
    let r := readPage f rest
    (Op.move (lo + 256 * hi) :: r.1, r.2)
  | f + 1, 27 :: 42 :: 39 :: lo :: hi :: rest =>
    let r := readPage f (rest.drop (3 * (lo + 256 * hi)))
    (Op.run (rest.take (3 * (lo + 256 * hi))) :: r.1, r.2)
  | f + 1, 13 :: rest =>
    let r := readPage f rest
    (Op.cr :: r.1, r.2)
  | f + 1, 27 :: 74 :: n :: rest =>
    let r := readPage f rest
    (Op.feed n :: r.1, r.2)
  | f + 1, 27 :: 43 :: 1 :: 10 :: 27 :: 43 :: 0 :: rest =>
    let r := readPage f rest
    (Op.micro :: r.1, r.2)
  | f + 1, 12 :: 27 :: 64 :: rest =>
    let r := readPage f rest
    (Op.eject :: r.1, r.2)
  | _ + 1, bs => ([], bs)

/-- A command whose count fits the two count bytes; a graphics run holds a
whole, non-zero number of dot-columns; a vertical tab fits its byte. -/
def Op.valid : Op → Prop
  | .pos n => n < 65536
  | .move n => n < 65536
  | .run data => data ≠ [] ∧ data.length % 3 = 0 ∧ data.length / 3 < 65536
  | .feed n => 1 ≤ n ∧ n ≤ 255
  | _ => True

/-- Number of absolute-position commands in a list of commands. -/
def countPos (ops : List Op) : Nat :=
  ops.countP fun o => match o with
    | .pos _ => true
    | _ => false

/-- Number of graphics-run commands in a list of commands. -/
def countRun (ops : List Op) : Nat :=
  ops.countP fun o => match o with
    | .run _ => true
    | _ => false


/-! ## Definitions for the shape of graphics runs and for printed passes -/

/-- The commands the segment loop of `dot24_print_block` writes for the runs
`segs`, given as pairs of start and end offset in the buffered data `data`,
when the cursor is at offset `cur`: for each run a relative move over the
dot-columns between the cursor and the start of the run, when there are any,
and the graphics run itself. -/
def segCmds (data : List Nat) : Nat → List (Nat × Nat) → List Cmd
  | _, [] => []
  | cur, (p, q) :: rest =>
    (if (p - cur) / 3 ≠ 0 then [Cmd.move ((p - cur) / 3)] else [])
      ++ Cmd.run ((q - p) / 3) ((data.drop p).take (q - p)) :: segCmds data q rest

/-- The shape of a graphics run over the bytes `[p, q)` of the buffered data:
a whole, non-zero number of dot-columns inside the buffer, whose first and
last dot-column are not blank and which holds no four consecutive all-zero
dot-columns. -/
structure RunShape (data : List Nat) (p q : Nat) : Prop where
  lt : p < q
  start3 : p % 3 = 0
  end3 : q % 3 = 0
  le : q ≤ data.length
  first : ¬ zeroOn data p (p + 3)
  last : ¬ zeroOn data (q - 3) q
  dense : ∀ t, t % 3 = 0 → p ≤ t → t + 12 ≤ q → ¬ zeroOn data t (t + 12)

/-- A band handed to the transposition by an iteration of the page loop: the
value of `lnum` at the head of the iteration, `printer_lnum` after the cursor
reconciliation, the value of `print_even_dots`
(`!x_high || cycle < 2`), and the content of the 24 slots the transposition
reads, after any negative-position correction. -/
structure Pass where
  lnum : Int
  printer_lnum : Int
  print_even_dots : Bool
  rows : List (List Nat)
  deriving DecidableEq, Repr

/-- The band the iteration of the page loop that starts in `st` prints, if it
prints one: none when the iteration leaves through the blank-run seek or an
assertion fails. -/
def printedPass (c : PageCfg) (fetch : Fetch) (st : PageState) : Option Pass :=
  if skipsBand c fetch st then none
  else
    match reconcile c st (assembleBand fetch c.line_size c.y_high st.lnum) with
    | .ok r =>
      some { lnum := st.lnum, printer_lnum := r.1,
             print_even_dots := !c.x_high || decide (st.cycle < 2),
             rows := (List.range 24).map fun k => slot r.2.2 c.line_size k }
    | .error _ => none

/-- The bands printed by the page loop, in order.  The first argument is
fuel, as in `pageLoop`. -/
def pagePasses (c : PageCfg) (fetch : Fetch) : Nat → PageState → List Pass
  | 0, _ => []
  | f + 1, st =>
    if st.lnum < c.height then
      match pageStep c fetch st with
      | .ok st1 => (printedPass c fetch st).toList ++ pagePasses c fetch f st1
      | .error _ => []
    else []

/-- The bands printed by `dot24_print_page`, in order. -/
def printedPasses (c : PageCfg) (fetch : Fetch) : List Pass :=
  pagePasses c fetch (c.height - initialLnum c).toNat
    { lnum := initialLnum c, printer_lnum := 0, cycle := 0, forward := true, out := [] }

/-- The pixel of dot-column `x` is set in the row bytes `row` (dot-column 0
is the most significant bit of the first byte). -/
def pixelSet (row : List Nat) (x : Nat) : Bool :=
  (row.getD (x / 8) 0 / 2 ^ (7 - x % 8)) % 2 == 1

/-- The phase a dot-column belongs to under horizontal doubling: the even
dot-columns are printed when `print_even_dots` is set, the odd ones when it
is not (`dot24_filter_bitmap`). -/
def phaseOf (x : Nat) : Bool := x % 2 == 0

/-- Some printed band of the page holds, in one of its 24 slots, a row with
the pixel of dot-column `x` set while the phase of `x` is printed. -/
def pixelPrinted (c : PageCfg) (fetch : Fetch) (x : Nat) : Bool :=
  (printedPasses c fetch).any fun p =>
    (p.print_even_dots == phaseOf x) && p.rows.any fun row => pixelSet row x


theorem skipLoop_spec (f : Nat) : ∀ lines : Int, 0 ≤ lines → lines / 510 < f →
    ∃ ns : List Nat,
      skipLoop f lines = encodeFeeds ns ++ (if lines % 2 ≠ 0 then microFeed else [])
      ∧ (∀ n ∈ ns, 1 ≤ n ∧ n ≤ 255) ∧ 2 * (ns.sum : Int) + lines % 2 = lines := by
  induction f with
  | zero => intro lines h0 h; omega
  | succ f ih =>
    intro lines h0 h
    by_cases h1 : lines / 2 > 255
    · obtain ⟨ns, e, hb, hs⟩ := ih (lines - 255 * 2) (by omega) (by omega)
      refine ⟨255 :: ns, ?_, ?_, ?_⟩
      · have hm : (lines - 255 * 2) % 2 = lines % 2 := by omega
        simp only [skipLoop, h1, if_true, e, hm, encodeFeeds, List.flatMap_cons]
        simp
      · intro n hn
        rcases List.mem_cons.1 hn with rfl | hn
        · omega
        · exact hb n hn
      · simp only [List.sum_cons]; omega
    · by_cases h2 : lines / 2 ≠ 0
      · refine ⟨[(lines / 2).toNat], ?_, ?_, ?_⟩
        · have h3 : lines ≠ 0 := by omega
          have h4 : (lines / 2 % 256).toNat = (lines / 2).toNat := by omega
          simp [skipLoop, h1, h2, h3, h4, encodeFeeds, microFeed]
        · intro n hn
          simp only [List.mem_singleton] at hn
          omega
        · simp only [List.sum_cons, List.sum_nil]; omega
      · refine ⟨[], ?_, ?_, ?_⟩
        · by_cases h3 : lines = 0
          · simp [skipLoop, h3, encodeFeeds]
          · have h4 : lines % 2 ≠ 0 := by omega
            simp [skipLoop, h1, h2, h3, h4, encodeFeeds, microFeed]
        · intro n hn; simp at hn
        · simp only [List.sum_nil]; omega

/-- The product `lines * 2` is kept by the `int` variable when it is below
`2^31`. -/
theorem wrapInt_fit (x : Int) (h0 : 0 ≤ x) (h : x < 2147483648) : wrapInt x = x := by
  unfold wrapInt
  omega

/-- C3 as stated fails: for `lines = 2^30` without `y_high` the product
`lines * 2` does not fit the `int` variable and wraps to `-2^31`; the loop is
not entered and the one command written is `ESC J 0`, which is no vertical
tab with `1 ≤ n ≤ 255` and does not feed `2 * lines` half-units. -/
theorem dot24_skip_lines_overflow :
    dot24_skip_lines 1073741824 false = [27, 74, 0]
    ∧ ¬ ∃ (ns : List Nat) (micro : Bool),
        dot24_skip_lines 1073741824 false
          = encodeFeeds ns ++ (if micro then microFeed else [])
        ∧ (∀ n ∈ ns, 1 ≤ n ∧ n ≤ 255)
        ∧ 2 * ns.sum + (if micro then 1 else 0) = 2 * 1073741824 := by
  have he : dot24_skip_lines 1073741824 false = [27, 74, 0] := by decide
  refine ⟨he, ?_⟩
  rintro ⟨ns, micro, h1, h2, _⟩
  rw [he] at h1
  cases ns with
  | nil =>
    cases micro <;> simp [encodeFeeds, microFeed] at h1
  | cons n ns =>
    have hn := h2 n (List.mem_cons_self _ _)
    simp only [encodeFeeds, List.flatMap_cons, List.cons_append, List.nil_append,
      List.cons.injEq] at h1
    omega

/-- C3, amended: for every `lines ≥ 0` whose half-unit total (`lines` with
`y_high`, `2 * lines` without) fits an `int`, `dot24_skip_lines` writes only
vertical tabs `ESC J n` with `1 ≤ n ≤ 255`, then at most one micro-feed;
counted in half-units (`2n` per tab, `1` for the micro-feed) the total is
`lines` with `y_high` and `2 * lines` without; the micro-feed is written
exactly when `y_high` holds and `lines` is odd; nothing is written for
`lines = 0`. -/
theorem dot24_skip_lines_feed (lines : Nat) (y_high : Bool)
    (hfit : (if y_high then lines else 2 * lines) < 2147483648) :
    ∃ (ns : List Nat) (micro : Bool),
      dot24_skip_lines lines y_high = encodeFeeds ns ++ (if micro then microFeed else [])
      ∧ (∀ n ∈ ns, 1 ≤ n ∧ n ≤ 255)
      ∧ 2 * ns.sum + (if micro then 1 else 0) = (if y_high then lines else 2 * lines)
      ∧ (micro = true ↔ (y_high = true ∧ lines % 2 = 1))
      ∧ (lines = 0 → dot24_skip_lines lines y_high = []) := by
  cases y_high with
  | true =>
    obtain ⟨ns, e, hb, hs⟩ :=
      skipLoop_spec (((lines : Int) / 510).toNat + 1) lines (by omega) (by omega)
    refine ⟨ns, decide (lines % 2 ≠ 0), ?_, hb, ?_, ?_, ?_⟩
    · simp only [dot24_skip_lines, Bool.not_true, Bool.false_eq_true, if_false, e]
      by_cases h : lines % 2 ≠ 0
      · have h' : (lines : Int) % 2 ≠ 0 := by omega
        simp [h, h']
      · have h' : ¬ (lines : Int) % 2 ≠ 0 := by omega
        simp [h, h']
    · by_cases h : lines % 2 = 0
      · have h' : decide (lines % 2 ≠ 0) = false := by simp [h]
        rw [h']; simp only [Bool.false_eq_true, if_false, if_true]; omega
      · have h' : decide (lines % 2 ≠ 0) = true := by simp [h]
        rw [h']; simp only [if_true]; omega
    · simp only [decide_eq_true_eq, true_and]; omega
    · intro h0; subst h0; simp [dot24_skip_lines, skipLoop]
  | false =>
    simp only [Bool.false_eq_true, if_false] at hfit
    have hw : wrapInt ((lines : Int) * 2) = (lines : Int) * 2 :=
      wrapInt_fit _ (by omega) (by omega)
    obtain ⟨ns, e, hb, hs⟩ :=
      skipLoop_spec ((((lines : Int) * 2) / 510).toNat + 1) ((lines : Int) * 2) (by omega)
        (by omega)
    refine ⟨ns, false, ?_, hb, ?_, ?_, ?_⟩
    · have h : ¬ ((lines : Int) * 2 % 2 ≠ 0) := by omega
      simp only [dot24_skip_lines, Bool.not_false, if_true, hw, e, h, if_false,
        Bool.false_eq_true]
    · simp only [Bool.false_eq_true, if_false]; omega
    · simp
    · intro h0; subst h0; simp [dot24_skip_lines, skipLoop, wrapInt]

/-- The feed over 511 half-units with `y_high`: two vertical tabs and the
micro-feed. -/
theorem dot24_skip_lines_feed_witness :
    (if true then 511 else 2 * 511) < 2147483648
    ∧ ∃ (ns : List Nat) (micro : Bool),
      dot24_skip_lines 511 true = encodeFeeds ns ++ (if micro then microFeed else [])
      ∧ (∀ n ∈ ns, 1 ≤ n ∧ n ≤ 255)
      ∧ 2 * ns.sum + (if micro then 1 else 0) = (if true then 511 else 2 * 511)
      ∧ (micro = true ↔ (true = true ∧ 511 % 2 = 1))
      ∧ (511 = 0 → dot24_skip_lines 511 true = []) :=
  ⟨by decide, dot24_skip_lines_feed 511 true (by decide)⟩


/-! ## Band assembly and the blank-run skip of the page loop -/

theorem flatten_slot (ls : Nat) : ∀ (rs : List (List Nat)) (k : Nat),
    (∀ r ∈ rs, r.length = ls) → k < rs.length →
    (rs.flatten.drop (ls * k)).take ls = rs.getD k [] := by
  intro rs
  induction rs with
  | nil => intro k _ hk; simp at hk
  | cons r rs ih =>
    intro k hlen hk
    have hr : r.length = ls := hlen r (List.mem_cons_self _ _)
    cases k with
    | zero =>
      simp only [List.flatten_cons, Nat.mul_zero, List.drop_zero, List.getD_cons_zero]
      rw [List.take_append_of_le_length (by omega)]
      exact List.take_of_length_le (by omega)
    | succ k =>
      have h1 : ls * (k + 1) = r.length + ls * k := by rw [hr]; ring
      simp only [List.flatten_cons, List.getD_cons_succ, h1]
      rw [← List.drop_drop, List.drop_left]
      exact ih k (fun r' hr' => hlen r' (List.mem_cons_of_mem _ hr')) (by simpa using hk)

theorem fetchRow_length (fetch : Fetch) (ls : Nat) (line : Int) :
    (fetchRow fetch ls line).length = ls := by
  unfold fetchRow
  split
  · simp
  · split <;> simp [fitRow]

theorem assembleBand_eq (fetch : Fetch) (ls : Nat) (yh : Bool) (lnum : Int) :
    assembleBand fetch ls yh lnum = ((bandLines yh lnum).map (fetchRow fetch ls)).flatten := by
  cases yh <;>
    simp [assembleBand, bandLines, List.flatMap, List.map_append, List.flatten_append,
      List.map_map, Function.comp_def]

theorem bandLines_length (yh : Bool) (lnum : Int) :
    (bandLines yh lnum).length = if yh then 48 else 24 := by
  cases yh <;> simp [bandLines]

/-- The slot `k` of the assembled band holds the row `fetchRow` read for the
page row of that slot. -/
theorem assembleBand_slot (fetch : Fetch) (ls : Nat) (yh : Bool) (lnum : Int) (k : Nat)
    (hk : k < (bandLines yh lnum).length) :
    ((assembleBand fetch ls yh lnum).drop (ls * k)).take ls
      = fetchRow fetch ls ((bandLines yh lnum).getD k 0) := by
  rw [assembleBand_eq, flatten_slot ls _ k]
  · rw [List.getD_eq_getElem?_getD, List.getD_eq_getElem?_getD, List.getElem?_map]
    rw [List.getElem?_eq_getElem hk]
    simp
  · intro r hr
    obtain ⟨l, _, rfl⟩ := List.mem_map.1 hr
    exact fetchRow_length fetch ls l
  · simpa using hk

theorem rowBlank_iff (fetch : Fetch) (ls : Nat) (line : Int) :
    rowBlank fetch ls line = true ↔ fetchRow fetch ls line = List.replicate ls 0 := by
  unfold rowBlank
  constructor
  · intro h
    rw [List.eq_replicate_iff]
    refine ⟨fetchRow_length fetch ls line, ?_⟩
    intro b hb
    have := List.all_eq_true.1 h b hb
    simpa using this
  · intro h
    rw [h]
    simp

theorem bandLines_low (lnum : Int) (k : Nat) (hk : k < 24) :
    (bandLines false lnum).getD k 0 = lnum + k := by
  simp only [bandLines, Bool.false_eq_true, if_false]
  rw [List.getD_eq_getElem?_getD, List.getElem?_map, List.getElem?_range hk]
  simp

theorem bandLines_high (lnum : Int) (e : Nat) (he : e < 48) :
    (bandLines true lnum).getD (e / 2 + (if e % 2 = 0 then 0 else 24)) 0 = lnum + e := by
  simp only [bandLines, if_true]
  rw [List.getD_eq_getElem?_getD]
  by_cases h : e % 2 = 0
  · simp only [h, if_true, Nat.add_zero]
    rw [List.getElem?_append_left (by simp; omega), List.getElem?_map,
      List.getElem?_range (by omega)]
    simp only [Option.map_some', Option.getD_some]
    omega
  · simp only [h, if_false]
    rw [List.getElem?_append_right (by simp), List.getElem?_map]
    simp only [List.length_map, List.length_range, Nat.add_sub_cancel]
    rw [List.getElem?_range (by omega)]
    simp only [Option.map_some', Option.getD_some]
    omega

theorem memEq_slot (buf : List Nat) (ls k : Nat) :
    memEq buf 0 (ls * k) ls = true ↔ buf.take ls = (buf.drop (ls * k)).take ls := by
  simp [memEq]

/-- The "block starts with empty lines" test of the page loop succeeds when
slot 0 of the band is all zero. -/
theorem firstRow_test (buf : List Nat) (ls : Nat) (hls : 1 ≤ ls)
    (h0 : buf.take ls = List.replicate ls 0) :
    buf.getD 0 0 = 0 ∧ memEq buf 0 1 (ls - 1) = true := by
  obtain ⟨n, rfl⟩ : ∃ n, ls = n + 1 := ⟨ls - 1, by omega⟩
  cases buf with
  | nil => simp at h0
  | cons a rest =>
    simp only [List.take_succ_cons, List.replicate_succ, List.cons.injEq] at h0
    obtain ⟨ha, hrest⟩ := h0
    subst ha
    refine ⟨by simp, ?_⟩
    simp only [memEq, List.drop_zero, Nat.add_sub_cancel, List.drop_succ_cons, beq_iff_eq]
    cases n with
    | zero => simp
    | succ m =>
      rw [List.take_succ_cons]
      have h1 : rest.take m = List.replicate m 0 := by
        have := congrArg (List.take m) hrest
        simpa [List.take_take, List.take_replicate] using this
      rw [h1, hrest, List.replicate_succ]

theorem emptyLinesLow_spec (fetch : Fetch) (ls : Nat) (lnum : Int)
    (h0 : rowBlank fetch ls lnum = true) :
    ∀ (f e : Nat), e ≤ 24 → 24 - e ≤ f →
      emptyLinesLow (assembleBand fetch ls false lnum) ls f e
        = e + leadingBlank fetch ls (lnum + e) (24 - e) := by
  have hz : (assembleBand fetch ls false lnum).take ls = List.replicate ls 0 := by
    have := assembleBand_slot fetch ls false lnum 0 (by simp [bandLines_length])
    rw [bandLines_low lnum 0 (by omega)] at this
    simpa [(rowBlank_iff fetch ls lnum).1 h0] using this
  intro f
  induction f with
  | zero =>
    intro e he hf
    have : 24 - e = 0 := by omega
    simp [emptyLinesLow, this, leadingBlank]
  | succ f ih =>
    intro e he hf
    by_cases h24 : e < 24
    · have hslot := assembleBand_slot fetch ls false lnum e (by simp [bandLines_length]; omega)
      rw [bandLines_low lnum e h24] at hslot
      obtain ⟨m, hm⟩ : ∃ m, 24 - e = m + 1 := ⟨24 - e - 1, by omega⟩
      by_cases hb : rowBlank fetch ls (lnum + e) = true
      · have hme : memEq (assembleBand fetch ls false lnum) 0 (ls * e) ls = true := by
          rw [memEq_slot, hz, hslot, (rowBlank_iff fetch ls _).1 hb]
        simp only [emptyLinesLow, h24, hme, and_self, if_true]
        rw [ih (e + 1) (by omega) (by omega), hm, leadingBlank, if_pos hb]
        have h1 : 24 - (e + 1) = m := by omega
        have h2 : lnum + ((e + 1 : Nat) : Int) = lnum + (e : Int) + 1 := by push_cast; ring
        rw [h1, h2]; omega
      · have hme : ¬ memEq (assembleBand fetch ls false lnum) 0 (ls * e) ls = true := by
          rw [memEq_slot, hz, hslot]
          intro hh
          exact hb ((rowBlank_iff fetch ls _).2 hh.symm)
        rw [hm, leadingBlank, if_neg hb]
        simp [emptyLinesLow, hme]
    · have : 24 - e = 0 := by omega
      simp [emptyLinesLow, h24, this, leadingBlank]

theorem emptyLinesHigh_spec (fetch : Fetch) (ls : Nat) (lnum : Int)
    (h0 : rowBlank fetch ls lnum = true) :
    ∀ (f e : Nat), e ≤ 48 → 48 - e ≤ f →
      emptyLinesHigh (assembleBand fetch ls true lnum) ls f e
        = e + leadingBlank fetch ls (lnum + e) (48 - e) := by
  have hz : (assembleBand fetch ls true lnum).take ls = List.replicate ls 0 := by
    have := assembleBand_slot fetch ls true lnum 0 (by simp [bandLines_length])
    have h1 := bandLines_high lnum 0 (by omega)
    simp only [Nat.zero_div, Nat.zero_mod, if_true, Nat.add_zero, Nat.cast_zero,
      Int.add_zero] at h1
    rw [h1] at this
    simpa [(rowBlank_iff fetch ls lnum).1 h0] using this
  intro f
  induction f with
  | zero =>
    intro e he hf
    have : 48 - e = 0 := by omega
    simp [emptyLinesHigh, this, leadingBlank]
  | succ f ih =>
    intro e he hf
    by_cases h48 : e < 48
    · have hslot := assembleBand_slot fetch ls true lnum
        (e / 2 + (if e % 2 = 0 then 0 else 24)) (by
          simp only [bandLines_length, if_true]; split <;> omega)
      rw [bandLines_high lnum e h48] at hslot
      obtain ⟨m, hm⟩ : ∃ m, 48 - e = m + 1 := ⟨48 - e - 1, by omega⟩
      by_cases hb : rowBlank fetch ls (lnum + e) = true
      · have hme : memEq (assembleBand fetch ls true lnum) 0
            (ls * (e / 2 + (if e % 2 = 0 then 0 else 24))) ls = true := by
          rw [memEq_slot, hz, hslot, (rowBlank_iff fetch ls _).1 hb]
        simp only [emptyLinesHigh, h48, hme, if_true]
        rw [ih (e + 1) (by omega) (by omega), hm, leadingBlank, if_pos hb]
        have h1 : 48 - (e + 1) = m := by omega
        have h2 : lnum + ((e + 1 : Nat) : Int) = lnum + (e : Int) + 1 := by push_cast; ring
        rw [h1, h2]; omega
      · have hme : ¬ memEq (assembleBand fetch ls true lnum) 0
            (ls * (e / 2 + (if e % 2 = 0 then 0 else 24))) ls = true := by
          rw [memEq_slot, hz, hslot]
          intro hh
          exact hb ((rowBlank_iff fetch ls _).2 hh.symm)
        rw [hm, leadingBlank, if_neg hb]
        simp [emptyLinesHigh, h48, hme]
    · have : 48 - e = 0 := by omega
      simp [emptyLinesHigh, h48, this, leadingBlank]


theorem leadingBlank_pos_first (fetch : Fetch) (ls : Nat) (lnum : Int) (cap : Nat)
    (h : 0 < leadingBlank fetch ls lnum cap) : rowBlank fetch ls lnum = true := by
  cases cap with
  | zero => simp [leadingBlank] at h
  | succ cap =>
    by_cases hb : rowBlank fetch ls lnum = true
    · exact hb
    · simp [leadingBlank, hb] at h

theorem leadingBlank_all (fetch : Fetch) (ls : Nat) : ∀ (cap : Nat) (lnum : Int),
    (∀ k : Nat, k < cap → rowBlank fetch ls (lnum + k) = true) →
    leadingBlank fetch ls lnum cap = cap := by
  intro cap
  induction cap with
  | zero => intro lnum _; rfl
  | succ cap ih =>
    intro lnum h
    have h0 : rowBlank fetch ls lnum = true := by simpa using h 0 (by omega)
    rw [leadingBlank, if_pos h0, ih (lnum + 1)]
    · omega
    · intro k hk
      have := h (k + 1) (by omega)
      have e : lnum + 1 + (k : Int) = lnum + ((k + 1 : Nat) : Int) := by push_cast; ring
      rw [e]; exact this

theorem emptyLines_eq (c : PageCfg) (fetch : Fetch) (lnum : Int)
    (hx : c.xres = 180 ∨ c.xres = 360) (hy : c.yres = 180 ∨ c.yres = 360)
    (h0 : rowBlank fetch c.line_size lnum = true) :
    emptyLines c (assembleBand fetch c.line_size c.y_high lnum)
      = (leadingBlank fetch c.line_size lnum (blankCap c), threshold c) := by
  rcases hy with hy | hy
  · have hyh : c.y_high = false := by simp [PageCfg.y_high, hy]
    have h1 := emptyLinesLow_spec fetch c.line_size lnum h0 24 1 (by omega) (by omega)
    have h2 : leadingBlank fetch c.line_size lnum 24
        = 1 + leadingBlank fetch c.line_size (lnum + 1) 23 := by
      rw [leadingBlank, if_pos h0]
    simp only [emptyLines, hyh, blankCap, threshold, hy, Bool.not_false, if_true,
      Bool.false_eq_true, if_false, ite_self, h2]
    rw [h1]
    simp
  · have hyh : c.y_high = true := by simp [PageCfg.y_high, hy]
    have h1 := emptyLinesHigh_spec fetch c.line_size lnum h0 48 0 (by omega) (by omega)
    simp only [Nat.cast_zero, Int.add_zero, Nat.sub_zero, Nat.zero_add] at h1
    rcases hx with hx | hx
    · simp [emptyLines, hyh, blankCap, threshold, hy, hx, PageCfg.x_high, h1]
    · simp [emptyLines, hyh, blankCap, threshold, hy, hx, PageCfg.x_high, h1]

theorem threshold_lt_cap (c : PageCfg)
    (hy : c.yres = 180 ∨ c.yres = 360) : threshold c < blankCap c := by
  rcases hy with hy | hy
  · simp [threshold, blankCap, PageCfg.y_high, hy]
  · simp only [threshold, blankCap, PageCfg.y_high, hy]
    split
    · simp at *
    · split <;> simp

theorem threshold_pos (c : PageCfg) : 12 ≤ threshold c := by
  unfold threshold
  split
  · omega
  · split <;> omega

/-- The blank-run skip of one iteration, for a band whose first
`e > threshold` rows in page order are all zero. -/
theorem pageStep_skip (c : PageCfg) (fetch : Fetch) (st : PageState)
    (hx : c.xres = 180 ∨ c.xres = 360) (hy : c.yres = 180 ∨ c.yres = 360)
    (hls : 1 ≤ c.line_size)
    (he : threshold c < leadingBlank fetch c.line_size st.lnum (blankCap c)) :
    pageStep c fetch st
      = .ok { st with
          lnum := st.lnum
            + ((leadingBlank fetch c.line_size st.lnum (blankCap c) : Int) - threshold c) } := by
  have h0 : rowBlank fetch c.line_size st.lnum = true :=
    leadingBlank_pos_first fetch c.line_size st.lnum (blankCap c) (by omega)
  have hz : (assembleBand fetch c.line_size c.y_high st.lnum).take c.line_size
      = List.replicate c.line_size 0 := by
    have := assembleBand_slot fetch c.line_size c.y_high st.lnum 0
      (by rw [bandLines_length]; split <;> omega)
    have hl : (bandLines c.y_high st.lnum).getD 0 0 = st.lnum := by
      cases c.y_high
      · simpa using bandLines_low st.lnum 0 (by omega)
      · simpa using bandLines_high st.lnum 0 (by omega)
    rw [hl, (rowBlank_iff fetch c.line_size st.lnum).1 h0] at this
    simpa using this
  have ht := firstRow_test _ c.line_size hls hz
  simp only [pageStep, ht, and_self, if_true, emptyLines_eq c fetch st.lnum hx hy h0]
  rw [if_pos (by exact he)]

/-- C4: an iteration of the page loop whose band begins with `e` all-zero
rows in page order (capped at 24 or 48), `e` above the threshold of the mode,
writes no byte, sets `lnum` to `lnum + e - threshold` and leaves
`printer_lnum`, `cycle` and the print direction unchanged; in particular this
is what happens for a band whose rows are all zero or absent. -/
theorem pageStep_blank_band (c : PageCfg) (fetch : Fetch) (st : PageState)
    (hx : c.xres = 180 ∨ c.xres = 360) (hy : c.yres = 180 ∨ c.yres = 360)
    (hls : 1 ≤ c.line_size) :
    (∀ e : Nat, e = leadingBlank fetch c.line_size st.lnum (blankCap c) → threshold c < e →
      ∃ st1, pageStep c fetch st = .ok st1
        ∧ st1.out = st.out ∧ st1.lnum = st.lnum + (e : Int) - (threshold c : Int)
        ∧ st1.printer_lnum = st.printer_lnum ∧ st1.cycle = st.cycle
        ∧ st1.forward = st.forward)
    ∧ ((∀ k : Nat, k < blankCap c → rowBlank fetch c.line_size (st.lnum + k) = true) →
      ∃ st1, pageStep c fetch st = .ok st1
        ∧ st1.out = st.out
        ∧ st1.lnum = st.lnum + (blankCap c : Int) - (threshold c : Int)
        ∧ st1.printer_lnum = st.printer_lnum ∧ st1.cycle = st.cycle
        ∧ st1.forward = st.forward) := by
  constructor
  · intro e he hlt
    subst he
    refine ⟨_, pageStep_skip c fetch st hx hy hls hlt, rfl, ?_, rfl, rfl, rfl⟩
    simp only []
    omega
  · intro hall
    have hcap := leadingBlank_all fetch c.line_size (blankCap c) st.lnum hall
    have hlt : threshold c < leadingBlank fetch c.line_size st.lnum (blankCap c) := by
      rw [hcap]; exact threshold_lt_cap c hy
    refine ⟨_, pageStep_skip c fetch st hx hy hls hlt, rfl, ?_, rfl, rfl, rfl⟩
    simp only [hcap]
    omega

theorem pageStep_blank_band_witness :
    ∃ st1, pageStep ⟨360, 360, 1, 48, false⟩ (fun _ => none) ⟨-36, 0, 0, true, []⟩ = .ok st1
      ∧ st1.out = [] ∧ st1.lnum = -36 + (48 : Int) - (36 : Int)
      ∧ st1.printer_lnum = 0 ∧ st1.cycle = 0 ∧ st1.forward = true :=
  (pageStep_blank_band ⟨360, 360, 1, 48, false⟩ (fun _ => none) ⟨-36, 0, 0, true, []⟩
    (by decide) (by decide) (by decide)).1 48 (by decide) (by decide)


theorem rowBlank_of_zero_source (fetch : Fetch) (ls : Nat)
    (hblank : ∀ (line : Int) (row : List Nat), fetch line = some row → ∀ b ∈ row, b = 0)
    (line : Int) : rowBlank fetch ls line = true := by
  rw [rowBlank_iff]
  unfold fetchRow
  split
  · rfl
  · split
    · rename_i row hrow
      rw [List.eq_replicate_iff]
      refine ⟨by simp [fitRow], ?_⟩
      intro b hb
      have hb' : b ∈ row ++ List.replicate ls 0 := List.mem_of_mem_take hb
      rcases List.mem_append.1 hb' with h | h
      · exact hblank line row hrow b h
      · exact (List.mem_replicate.1 h).2
    · rfl

theorem pageLoop_blank (c : PageCfg) (fetch : Fetch)
    (hx : c.xres = 180 ∨ c.xres = 360) (hy : c.yres = 180 ∨ c.yres = 360)
    (hls : 1 ≤ c.line_size)
    (hblank : ∀ (line : Int) (row : List Nat), fetch line = some row → ∀ b ∈ row, b = 0) :
    ∀ (f : Nat) (st : PageState), (c.height - st.lnum).toNat ≤ f →
      ∃ l : Int, pageLoop c fetch f st = .ok { st with lnum := l } := by
  intro f
  induction f with
  | zero =>
    intro st hf
    have : ¬ st.lnum < c.height := by omega
    exact ⟨st.lnum, by simp [pageLoop, this]⟩
  | succ f ih =>
    intro st hf
    by_cases hlt : st.lnum < c.height
    · have hall : ∀ k : Nat, k < blankCap c →
          rowBlank fetch c.line_size (st.lnum + k) = true :=
        fun k _ => rowBlank_of_zero_source fetch c.line_size hblank _
      have hcap := leadingBlank_all fetch c.line_size (blankCap c) st.lnum hall
      have hthr := threshold_lt_cap c hy
      have hstep := pageStep_skip c fetch st hx hy hls (by rw [hcap]; exact hthr)
      rw [hcap] at hstep
      obtain ⟨l, hl⟩ := ih { st with lnum := st.lnum + ((blankCap c : Int) - threshold c) }
        (by simp only []; omega)
      refine ⟨l, ?_⟩
      simp only [pageLoop, hlt, if_true, hstep]
      exact hl
    · exact ⟨st.lnum, by simp [pageLoop, hlt]⟩

/-- C1: in each of the four supported modes, for every line size `>= 1`,
page height and bidirectional setting, a page whose scanlines are all zero or
absent makes `dot24_print_page` write, after the preamble, exactly form-feed,
ESC, `@`, and return 0. -/
theorem dot24_print_page_blank (c : PageCfg) (fetch : Fetch)
    (hx : c.xres = 180 ∨ c.xres = 360) (hy : c.yres = 180 ∨ c.yres = 360)
    (hls : 1 ≤ c.line_size)
    (hblank : ∀ (line : Int) (row : List Nat), fetch line = some row → ∀ b ∈ row, b = 0) :
    dot24_print_page c fetch = .ok ([12, 27, 64], 0) := by
  obtain ⟨l, hl⟩ := pageLoop_blank c fetch hx hy hls hblank
    (c.height - (initialLnum c)).toNat
    { lnum := initialLnum c, printer_lnum := 0, cycle := 0, forward := true, out := [] }
    (le_refl _)
  have hres : (c.xres = 180 ∨ c.xres = 360) ∧ (c.yres = 180 ∨ c.yres = 360) := ⟨hx, hy⟩
  simp only [dot24_print_page, hres, not_true_eq_false, if_false, hl]
  simp

theorem dot24_print_page_blank_witness :
    dot24_print_page ⟨360, 360, 2, 48, true⟩
      (fun line => if line < 48 then some [0, 0] else none) = .ok ([12, 27, 64], 0) :=
  dot24_print_page_blank ⟨360, 360, 2, 48, true⟩
    (fun line => if line < 48 then some [0, 0] else none)
    (by decide) (by decide) (by decide)
    (by
      intro line row h b hb
      by_cases hl : line < 48
      · simp only [hl, if_true, Option.some.injEq] at h
        subst h
        simp at hb
        exact hb
      · simp [hl] at h)


/-! ## The iteration bounds of the page loop and of the filter loop -/

theorem printBand_lnum (c : PageCfg) (st st1 : PageState) (inb : List Nat)
    (h : printBand c st inb = .ok st1) : st.lnum < st1.lnum := by
  unfold printBand at h
  simp only [] at h
  generalize (if st.lnum < 0 ∨ st.lnum < st.printer_lnum then _ else _
    : Except PageError (Int × List Nat × List Nat)) = r at h
  cases r with
  | error e => simp [Except.map] at h
  | ok v =>
    obtain ⟨pl, o, inb1⟩ := v
    simp only [Except.map, Except.ok.injEq] at h
    subst h
    simp only []
    split
    · split <;> omega
    · split
      · omega
      · split <;> omega

theorem pageStep_lnum (c : PageCfg) (fetch : Fetch) (st st1 : PageState)
    (h : pageStep c fetch st = .ok st1) : st.lnum < st1.lnum := by
  unfold pageStep at h
  simp only [] at h
  split at h
  · split at h
    · simp only [Except.ok.injEq] at h
      subst h
      simp only []
      omega
    · exact printBand_lnum c st st1 _ h
  · exact printBand_lnum c st st1 _ h

theorem shiftRows_not_fuel (ls : Nat) (lnum pl : Int) : ∀ (k rl : Nat) (inb : List Nat),
    shiftRows ls lnum pl k rl inb ≠ .error .out_of_fuel := by
  intro k
  induction k with
  | zero => intro rl inb; simp [shiftRows]
  | succ k ih =>
    intro rl inb
    simp only [shiftRows]
    split
    · simp
    · split
      · simp
      · exact ih _ _

theorem map_not_fuel {α β : Type} (r : Except PageError α) (g : α → β)
    (h : r ≠ .error .out_of_fuel) : r.map g ≠ .error .out_of_fuel := by
  cases r with
  | error e =>
    intro h2
    simp only [Except.map, Except.error.injEq] at h2
    exact h (by rw [h2])
  | ok v => simp [Except.map]

theorem printBand_not_fuel (c : PageCfg) (st : PageState) (inb : List Nat) :
    printBand c st inb ≠ .error .out_of_fuel := by
  unfold printBand
  simp only []
  apply map_not_fuel
  split
  · split
    · simp
    · split <;> split
      · simp
      · exact map_not_fuel _ _ (shiftRows_not_fuel _ _ _ _ _ _)
      · simp
      · exact map_not_fuel _ _ (shiftRows_not_fuel _ _ _ _ _ _)
  · split
    · split <;> simp
    · simp

theorem pageStep_not_fuel (c : PageCfg) (fetch : Fetch) (st : PageState) :
    pageStep c fetch st ≠ .error .out_of_fuel := by
  unfold pageStep
  simp only []
  split
  · split
    · simp
    · exact printBand_not_fuel c st _
  · exact printBand_not_fuel c st _

/-- The fuel `dot24_print_page` gives the page loop is enough: every
iteration advances `lnum`, so the loop leaves through its condition or an
assertion, never through the iteration bound. -/
theorem pageLoop_fuel_enough (c : PageCfg) (fetch : Fetch) :
    ∀ (f : Nat) (st : PageState), (c.height - st.lnum).toNat ≤ f →
      pageLoop c fetch f st ≠ .error .out_of_fuel := by
  intro f
  induction f with
  | zero =>
    intro st hf
    have : ¬ st.lnum < c.height := by omega
    simp [pageLoop, this]
  | succ f ih =>
    intro st hf
    by_cases hlt : st.lnum < c.height
    · simp only [pageLoop, hlt, if_true]
      cases hs : pageStep c fetch st with
      | error e =>
        simp only []
        intro he
        injection he with he
        subst he
        exact pageStep_not_fuel c fetch st hs
      | ok st1 =>
        simp only []
        exact ih st1 (by have := pageStep_lnum c fetch st st1 hs; omega)
    · simp [pageLoop, hlt]

/-- The loop of `dot24_filter_bitmap` does not depend on the fuel once it
covers the remaining bytes. -/
theorem filterLoop_fuel (data : List Nat) (count : Nat) :
    ∀ (f1 f2 i : Nat), count - i ≤ f1 → count - i ≤ f2 →
      filterLoop data count f1 i = filterLoop data count f2 i := by
  intro f1
  induction f1 with
  | zero =>
    intro f2 i h1 _
    have : ¬ i < count := by omega
    cases f2 <;> simp [filterLoop, this]
  | succ f1 ih =>
    intro f2 i h1 h2
    by_cases hlt : i < count
    · cases f2 with
      | zero => omega
      | succ f2 =>
        simp only [filterLoop, hlt, if_true]
        rw [ih f2 (i + 6) (by omega) (by omega)]
    · cases f2 <;> simp [filterLoop, hlt]

/-- `dot24_print_page` ends with a result or a failed assertion: the fuel of
its loop is never exhausted. -/
theorem dot24_print_page_not_fuel (c : PageCfg) (fetch : Fetch) :
    dot24_print_page c fetch ≠ .error .out_of_fuel := by
  unfold dot24_print_page
  split
  · simp
  · have := pageLoop_fuel_enough c fetch (c.height - initialLnum c).toNat
      { lnum := initialLnum c, printer_lnum := 0, cycle := 0, forward := true, out := [] }
      (le_refl _)
    revert this
    simp only []
    cases pageLoop c fetch (c.height - initialLnum c).toNat
      { lnum := initialLnum c, printer_lnum := 0, cycle := 0, forward := true, out := [] } with
    | error e =>
      intro h1 h2
      simp only [Except.error.injEq] at h2
      exact h1 (by rw [h2])
    | ok st => intro _; simp


/-! ## The scanning loops -/

theorem scanZero_gen (buf : List Nat) (p lim : Nat) : ∀ (k i : Nat),
    scanZero buf p lim k i = true ↔
      ∀ j, i ≤ j → j < i + k → p + j < lim → buf.getD (p + j) 0 = 0 := by
  intro k
  induction k with
  | zero => intro i; simp only [scanZero, true_iff]; intro j h1 h2; omega
  | succ k ih =>
    intro i
    by_cases hlim : p + i < lim
    · by_cases hz : buf.getD (p + i) 0 = 0
      · simp only [scanZero, hlim, if_true, hz, bne_self_eq_false, Bool.false_eq_true, if_false]
        rw [ih (i + 1)]
        constructor
        · intro h j h1 h2 h3
          by_cases hj : j = i
          · subst hj; exact hz
          · exact h j (by omega) (by omega) h3
        · intro h j h1 h2 h3
          exact h j (by omega) (by omega) h3
      · have hne : (buf.getD (p + i) 0 != 0) = true := by simpa using hz
        simp only [scanZero, hlim, if_true, hne, Bool.false_eq_true, false_iff]
        intro h
        exact hz (h i (le_refl _) (by omega) hlim)
    · simp only [scanZero, hlim, if_false, true_iff]
      intro j h1 h2 h3
      omega

theorem scanZero_iff (buf : List Nat) (p lim n : Nat) :
    scanZero buf p lim n 0 = true ↔ zeroOn buf p (min (p + n) lim) := by
  rw [scanZero_gen]
  constructor
  · intro h i h1 h2
    have := h (i - p) (by omega) (by omega) (by omega)
    rwa [show p + (i - p) = i by omega] at this
  · intro h j _ h2 h3
    exact h (p + j) (by omega) (by omega)

theorem scanZeroBack_gen (buf : List Nat) (p lo : Nat) : ∀ (k j : Nat),
    scanZeroBack buf p lo k j = true ↔
      ∀ i, j ≤ i → i < j + k → lo + i ≤ p → buf.getD (p - i) 0 = 0 := by
  intro k
  induction k with
  | zero => intro j; simp only [scanZeroBack, true_iff]; intro i h1 h2; omega
  | succ k ih =>
    intro j
    by_cases hlim : lo + j ≤ p
    · by_cases hz : buf.getD (p - j) 0 = 0
      · simp only [scanZeroBack, hlim, if_true, hz, bne_self_eq_false, Bool.false_eq_true,
          if_false]
        rw [ih (j + 1)]
        constructor
        · intro h i h1 h2 h3
          by_cases hi : i = j
          · subst hi; exact hz
          · exact h i (by omega) (by omega) h3
        · intro h i h1 h2 h3
          exact h i (by omega) (by omega) h3
      · have hne : (buf.getD (p - j) 0 != 0) = true := by simpa using hz
        simp only [scanZeroBack, hlim, if_true, hne, Bool.false_eq_true, false_iff]
        intro h
        exact hz (h j (le_refl _) (by omega) hlim)
    · simp only [scanZeroBack, hlim, if_false, true_iff]
      intro i h1 h2 h3
      omega

theorem scanZeroBack_iff (buf : List Nat) (p lo n : Nat) :
    scanZeroBack buf p lo n 1 = true ↔ zeroOn buf (max lo (p - n)) p := by
  rw [scanZeroBack_gen]
  constructor
  · intro h i h1 h2
    have := h (p - i) (by omega) (by omega) (by omega)
    rwa [show p - (p - i) = i by omega] at this
  · intro h i h1 h2 h3
    exact h (p - i) (by omega) (by omega)

theorem zeroOn_mono {buf : List Nat} {a b a' b' : Nat} (h : zeroOn buf a b)
    (ha : a ≤ a') (hb : b' ≤ b) : zeroOn buf a' b' :=
  fun i h1 h2 => h i (by omega) (by omega)

theorem zeroOn_append {buf : List Nat} {a b c : Nat} (h1 : zeroOn buf a b)
    (h2 : zeroOn buf b c) : zeroOn buf a c := by
  intro i hi1 hi2
  by_cases hib : i < b
  · exact h1 i hi1 hib
  · exact h2 i (by omega) hi2

/-- The exit state of a scanning `for` loop, when the fuel covers the range:
the loop made `k` steps, none of the positions passed met the `break`
condition, and the exit position is past the limit or meets it. -/
theorem scanUp_spec (stop : Nat → Bool) (step lim : Nat) (hstep : 0 < step) :
    ∀ (f p : Nat), lim - p ≤ f →
      ∃ k, scanUp stop step lim f p = p + k * step
        ∧ (∀ j, j < k → p + j * step < lim ∧ stop (p + j * step) = false)
        ∧ (lim ≤ p + k * step ∨ stop (p + k * step) = true) := by
  intro f
  induction f with
  | zero =>
    intro p hf
    exact ⟨0, by simp [scanUp], by intro j hj; omega, Or.inl (by omega)⟩
  | succ f ih =>
    intro p hf
    by_cases hlim : p < lim
    · by_cases hs : stop p = true
      · exact ⟨0, by simp [scanUp, hlim, hs], by intro j hj; omega, Or.inr (by simpa using hs)⟩
      · obtain ⟨k, hk, hbefore, hexit⟩ := ih (p + step) (by omega)
        refine ⟨k + 1, ?_, ?_, ?_⟩
        · simp only [scanUp, hlim, if_true, hs, Bool.false_eq_true, if_false, hk]
          ring
        · intro j hj
          cases j with
          | zero => simpa using ⟨hlim, by simpa using hs⟩
          | succ j =>
            have := hbefore j (by omega)
            have e : p + (j + 1) * step = p + step + j * step := by ring
            rw [e]; exact this
        · have e : p + (k + 1) * step = p + step + k * step := by ring
          rw [e]; exact hexit
    · exact ⟨0, by simp [scanUp, hlim], by intro j hj; omega, Or.inl (by omega)⟩

/-- A scanning `for` loop stops at the first position that is past the limit
or meets the `break` condition. -/
theorem scanUp_eq_of (stop : Nat → Bool) (step lim : Nat) :
    ∀ (k f p : Nat), k ≤ f →
      (∀ j, j < k → p + j * step < lim ∧ stop (p + j * step) = false) →
      (lim ≤ p + k * step ∨ stop (p + k * step) = true) →
      scanUp stop step lim f p = p + k * step := by
  intro k
  induction k with
  | zero =>
    intro f p _ _ hexit
    simp only [Nat.zero_mul, Nat.add_zero] at hexit ⊢
    cases f with
    | zero => rfl
    | succ f =>
      rcases hexit with h | h
      · have : ¬ p < lim := by omega
        simp [scanUp, this]
      · simp [scanUp, h]
  | succ k ih =>
    intro f p hf hbefore hexit
    cases f with
    | zero => omega
    | succ f =>
      have h0 := hbefore 0 (by omega)
      simp only [Nat.zero_mul, Nat.add_zero] at h0
      simp only [scanUp, h0.1, if_true, h0.2, Bool.false_eq_true, if_false]
      rw [ih f (p + step) (by omega)]
      · ring
      · intro j hj
        have := hbefore (j + 1) (by omega)
        have e : p + (j + 1) * step = p + step + j * step := by ring
        rw [← e]; exact this
      · have e : p + (k + 1) * step = p + step + k * step := by ring
        rw [← e]; exact hexit

/-- The trimming loop: the trimmed end `r` lies a whole number of dot-columns
below `in_end`, the trimmed bytes are zero, and the dot-column that ends at
`r` is not blank. -/
theorem trimEnd_spec (buf : List Nat) : ∀ (f e : Nat), e ≤ 3 * f →
    ∃ k, e = trimEnd buf 0 f e + 3 * k
      ∧ zeroOn buf (trimEnd buf 0 f e) e
      ∧ (3 ≤ trimEnd buf 0 f e →
          ¬ (buf.getD (trimEnd buf 0 f e - 1) 0 = 0 ∧ buf.getD (trimEnd buf 0 f e - 2) 0 = 0
            ∧ buf.getD (trimEnd buf 0 f e - 3) 0 = 0)) := by
  intro f
  induction f with
  | zero =>
    intro e he
    refine ⟨0, by simp [trimEnd], ?_, ?_⟩
    · intro i h1 h2; simp only [trimEnd] at h1; omega
    · intro h; simp only [trimEnd] at h; omega
  | succ f ih =>
    intro e he
    by_cases hc : 0 + 3 ≤ e ∧ buf.getD (e - 1) 0 = 0 ∧ buf.getD (e - 2) 0 = 0
        ∧ buf.getD (e - 3) 0 = 0
    · obtain ⟨k, hk, hz, hlast⟩ := ih (e - 3) (by omega)
      have hrec : trimEnd buf 0 (f + 1) e = trimEnd buf 0 f (e - 3) := by
        simp only [trimEnd, hc, and_self, if_true]
      rw [hrec]
      refine ⟨k + 1, by omega, ?_, hlast⟩
      intro i h1 h2
      by_cases hi : i < e - 3
      · exact hz i h1 hi
      · have : i = e - 1 ∨ i = e - 2 ∨ i = e - 3 := by omega
        rcases this with h | h | h <;> subst h
        · exact hc.2.1
        · exact hc.2.2.1
        · exact hc.2.2.2
    · have hrec : trimEnd buf 0 (f + 1) e = e := by
        simp only [trimEnd, hc, if_false]
      rw [hrec]
      refine ⟨0, by omega, ?_, ?_⟩
      · intro i h1 h2; omega
      · intro h3 hzero
        exact hc ⟨by omega, hzero⟩


/-! ## The forward segmenter `dot24_print_line` -/

theorem fwdLoop_done (buf : List Nat) (xres bpp e : Nat) (f s : Nat) (h : e ≤ s) :
    fwdLoop buf xres bpp e f s = [] := by
  cases f with
  | zero => rfl
  | succ f =>
    have : ¬ s < e := by omega
    simp [fwdLoop, this]

/-- Exit state of the "skip to the first position that isn't zero" loop. -/
theorem fwdBlkStart_spec (buf : List Nat) (bpp e s : Nat) (hbpp : 0 < bpp) :
    ∃ k, fwdBlkStart buf bpp e (e - s) s = s + k * bpp
      ∧ zeroOn buf s (min (s + k * bpp) e)
      ∧ (e ≤ s + k * bpp ∨ ¬ zeroOn buf (s + k * bpp) (min (s + k * bpp + bpp) e)) := by
  obtain ⟨k, hk, hbefore, hexit⟩ :=
    scanUp_spec (fun p => !scanZero buf p e bpp 0) bpp e hbpp (e - s) s (le_refl _)
  refine ⟨k, hk, ?_, ?_⟩
  · intro i h1 h2
    have hj : (i - s) / bpp < k := by
      rw [Nat.div_lt_iff_lt_mul hbpp]; omega
    have hb := (hbefore ((i - s) / bpp) hj).2
    simp only [Bool.not_eq_false', scanZero_iff] at hb
    have h3 := Nat.div_mul_le_self (i - s) bpp
    have h4 := Nat.lt_div_mul_add (a := i - s) hbpp
    exact hb i (by omega) (by
      rw [Nat.lt_min]
      constructor
      · omega
      · omega)
  · rcases hexit with h | h
    · exact Or.inl h
    · right
      intro hz
      rw [← scanZero_iff] at hz
      simp [hz] at h

/-- Exit state of the "seek a zero gap" loop of `dot24_print_line`. -/
theorem fwdBlkEnd_spec (buf : List Nat) (xres bpp e p : Nat) (hbpp : 0 < bpp) :
    ∃ k, fwdBlkEnd buf xres bpp e (e - p) (p + bpp) = p + bpp + k * bpp
      ∧ (∀ j, j < k → p + bpp + j * bpp < e
          ∧ ¬ zeroOn buf (p + bpp + j * bpp) (min (p + bpp + j * bpp + xres * 3 / 2) e))
      ∧ (e ≤ p + bpp + k * bpp
          ∨ zeroOn buf (p + bpp + k * bpp) (min (p + bpp + k * bpp + xres * 3 / 2) e)) := by
  obtain ⟨k, hk, hbefore, hexit⟩ :=
    scanUp_spec (fun p => scanZero buf p e (xres * 3 / 2) 0) bpp e hbpp (e - p) (p + bpp)
      (by omega)
  refine ⟨k, hk, ?_, ?_⟩
  · intro j hj
    obtain ⟨h1, h2⟩ := hbefore j hj
    refine ⟨h1, ?_⟩
    intro hz
    rw [← scanZero_iff] at hz
    simp [hz] at h2
  · rcases hexit with h | h
    · exact Or.inl h
    · right
      simpa [scanZero_iff] using h

/-- Invariants of the block loop of `dot24_print_line`, from any aligned
`in_start`. -/
theorem fwdLoop_props (buf : List Nat) (xres bpp e : Nat) (hbpp : 0 < bpp) :
    ∀ (f s : Nat), e - s ≤ f → bpp ∣ s →
      (∀ b ∈ fwdLoop buf xres bpp e f s,
          s ≤ b.blk_start ∧ b.blk_start < b.blk_end ∧ b.blk_end ≤ e ∧ bpp ∣ b.blk_start
            ∧ b.pos = b.blk_start / bpp
            ∧ (b.blk_end < e → zeroOn buf b.blk_end (min (b.blk_end + xres * 3 / 2) e)))
      ∧ (fwdLoop buf xres bpp e f s).Pairwise (fun a b => a.blk_end ≤ b.blk_start)
      ∧ (∀ i, s ≤ i → i < e → buf.getD i 0 ≠ 0 →
          ∃ b ∈ fwdLoop buf xres bpp e f s, b.blk_start ≤ i ∧ i < b.blk_end) := by
  intro f
  induction f with
  | zero =>
    intro s hf _
    refine ⟨by simp [fwdLoop], by simp [fwdLoop], ?_⟩
    intro i h1 h2; omega
  | succ f ih =>
    intro s hf hs
    by_cases hlt : s < e
    · obtain ⟨k, hp, hz, hexit⟩ := fwdBlkStart_spec buf bpp e s hbpp
      by_cases hge : e ≤ s + k * bpp
      · have hL : fwdLoop buf xres bpp e (f + 1) s = [] := by
          simp only [fwdLoop, hlt, if_true, hp]
          simp [hge]
        rw [hL]
        refine ⟨by simp, by simp, ?_⟩
        intro i h1 h2 h3
        exact absurd (hz i h1 (by rw [Nat.lt_min]; omega)) h3
      · obtain ⟨k2, hq, _, hqexit⟩ := fwdBlkEnd_spec buf xres bpp e (s + k * bpp) hbpp
        have hL : fwdLoop buf xres bpp e (f + 1) s
            = ⟨(s + k * bpp) / bpp, s + k * bpp,
                if s + k * bpp + bpp + k2 * bpp > e then e else s + k * bpp + bpp + k2 * bpp⟩
              :: fwdLoop buf xres bpp e f
                (if s + k * bpp + bpp + k2 * bpp > e then e else s + k * bpp + bpp + k2 * bpp) := by
          simp only [fwdLoop, hlt, if_true, hp, hq]
          simp [hge]
        have hal : bpp ∣ s + k * bpp := Dvd.dvd.add hs (Dvd.intro_left k rfl)
        rw [hL]
        by_cases hclip : s + k * bpp + bpp + k2 * bpp > e
        · simp only [hclip, if_true]
          rw [fwdLoop_done buf xres bpp e f e (le_refl _)]
          refine ⟨?_, by simp, ?_⟩
          · intro b hb
            simp only [List.mem_singleton] at hb
            subst hb
            exact ⟨Nat.le_add_right _ _, by simp only []; omega, le_refl _, hal, rfl,
              by intro h; simp only [] at h; omega⟩
          · intro i h1 h2 h3
            refine ⟨_, List.mem_singleton.2 rfl, ?_, h2⟩
            simp only []
            by_contra hcon
            exact absurd (hz i h1 (by rw [Nat.lt_min]; omega)) h3
        · simp only [hclip, if_false]
          have hal2 : bpp ∣ s + k * bpp + bpp + k2 * bpp :=
            Dvd.dvd.add (Dvd.dvd.add hal (dvd_refl _)) (Dvd.intro_left k2 rfl)
          obtain ⟨ih1, ih2, ih3⟩ := ih (s + k * bpp + bpp + k2 * bpp) (by omega) hal2
          refine ⟨?_, ?_, ?_⟩
          · intro b hb
            rcases List.mem_cons.1 hb with hb | hb
            · subst hb
              refine ⟨Nat.le_add_right _ _, by simp only []; omega, by simp only []; omega,
                hal, rfl, ?_⟩
              intro h
              simp only [] at h ⊢
              rcases hqexit with h' | h'
              · omega
              · exact h'
            · obtain ⟨h1, h2⟩ := ih1 b hb
              exact ⟨by omega, h2⟩
          · rw [List.pairwise_cons]
            refine ⟨?_, ih2⟩
            intro b hb
            exact (ih1 b hb).1
          · intro i h1 h2 h3
            by_cases hi : i < s + k * bpp + bpp + k2 * bpp
            · refine ⟨_, List.mem_cons_self _ _, ?_, hi⟩
              simp only []
              by_contra hcon
              exact absurd (hz i h1 (by rw [Nat.lt_min]; omega)) h3
            · obtain ⟨b, hb, hb2⟩ := ih3 i (by omega) h2 h3
              exact ⟨b, List.mem_cons_of_mem _ hb, hb2⟩
    · rw [fwdLoop_done buf xres bpp e (f + 1) s (by omega)]
      refine ⟨by simp, by simp, ?_⟩
      intro i h1 h2; omega

theorem Mode.bpp_pos {xres bpp : Nat} (h : Mode xres bpp) : 0 < bpp := by
  rcases h with ⟨_, h⟩ | ⟨_, h⟩ <;> omega

theorem Mode.gap_eq {xres bpp : Nat} (h : Mode xres bpp) : xres * 3 / 2 = 30 * bpp := by
  rcases h with ⟨h1, h2⟩ | ⟨h1, h2⟩ <;> subst h1 h2 <;> rfl

theorem trimEnd_le (band : List Nat) :
    trimEnd band 0 band.length band.length ≤ band.length := by
  obtain ⟨k, hk, _⟩ := trimEnd_spec band band.length band.length (by omega)
  omega

theorem trimEnd_zero_after (band : List Nat) :
    zeroOn band (trimEnd band 0 band.length band.length) band.length := by
  obtain ⟨k, _, hz, _⟩ := trimEnd_spec band band.length band.length (by omega)
  exact hz

/-- C5: the blocks `dot24_print_line` hands to `dot24_print_block` are
non-empty, pairwise disjoint and in increasing order, each starts at a
multiple of `bytes_per_pos` (the assertion holds) with `pos` the quotient,
and every non-zero byte of the band lies in one of them. -/
theorem dot24_print_line_blocks_cover (band : List Nat) (xres bpp : Nat)
    (hmode : Mode xres bpp) (_hlen : band.length % 3 = 0) :
    (dot24_print_line_blocks band xres bpp).Pairwise (fun a b => a.blk_end ≤ b.blk_start)
    ∧ (∀ b ∈ dot24_print_line_blocks band xres bpp,
        b.blk_start < b.blk_end ∧ b.blk_end ≤ band.length
          ∧ b.blk_start % bpp = 0 ∧ b.pos = b.blk_start / bpp)
    ∧ (∀ i, i < band.length → band.getD i 0 ≠ 0 →
        ∃ b ∈ dot24_print_line_blocks band xres bpp, b.blk_start ≤ i ∧ i < b.blk_end) := by
  have hbpp := hmode.bpp_pos
  obtain ⟨h1, h2, h3⟩ := fwdLoop_props band xres bpp
    (trimEnd band 0 band.length band.length) hbpp
    (trimEnd band 0 band.length band.length) 0 (by omega) (dvd_zero _)
  refine ⟨h2, ?_, ?_⟩
  · intro b hb
    obtain ⟨_, hlt, hle, hdvd, hpos, _⟩ := h1 b hb
    exact ⟨hlt, le_trans hle (trimEnd_le band), Nat.mod_eq_zero_of_dvd hdvd, hpos⟩
  · intro i hi hnz
    refine h3 i (Nat.zero_le _) ?_ hnz
    by_contra hcon
    exact hnz (trimEnd_zero_after band i (by omega) hi)

theorem dot24_print_line_blocks_cover_witness :
    (dot24_print_line_blocks [0, 0, 0, 7, 0, 0] 180 9).Pairwise
        (fun a b => a.blk_end ≤ b.blk_start)
    ∧ (∀ b ∈ dot24_print_line_blocks [0, 0, 0, 7, 0, 0] 180 9,
        b.blk_start < b.blk_end ∧ b.blk_end ≤ [0, 0, 0, 7, 0, 0].length
          ∧ b.blk_start % 9 = 0 ∧ b.pos = b.blk_start / 9)
    ∧ (∀ i, i < [0, 0, 0, 7, 0, 0].length → [0, 0, 0, 7, 0, 0].getD i 0 ≠ 0 →
        ∃ b ∈ dot24_print_line_blocks [0, 0, 0, 7, 0, 0] 180 9,
          b.blk_start ≤ i ∧ i < b.blk_end) :=
  dot24_print_line_blocks_cover [0, 0, 0, 7, 0, 0] 180 9 (Or.inl ⟨rfl, rfl⟩) (by decide)

/-- C6: two non-zero bytes of the band separated only by zero bytes, fewer
than `xres * 3 / 2` of them, lie in the same block of `dot24_print_line`. -/
theorem dot24_print_line_no_split (band : List Nat) (xres bpp : Nat)
    (hmode : Mode xres bpp) (_hlen : band.length % 3 = 0)
    (i j : Nat) (hij : i < j) (hj : j < band.length)
    (hi0 : band.getD i 0 ≠ 0) (hj0 : band.getD j 0 ≠ 0)
    (_hzero : ∀ k, i < k → k < j → band.getD k 0 = 0)
    (hgap : j - i - 1 < xres * 3 / 2) :
    ∃ b ∈ dot24_print_line_blocks band xres bpp,
      b.blk_start ≤ i ∧ i < b.blk_end ∧ b.blk_start ≤ j ∧ j < b.blk_end := by
  have hbpp := hmode.bpp_pos
  obtain ⟨h1, _, h3⟩ := fwdLoop_props band xres bpp
    (trimEnd band 0 band.length band.length) hbpp
    (trimEnd band 0 band.length band.length) 0 (by omega) (dvd_zero _)
  have hlt : ∀ t, t < band.length → band.getD t 0 ≠ 0 →
      t < trimEnd band 0 band.length band.length := by
    intro t ht hnz
    by_contra hcon
    exact hnz (trimEnd_zero_after band t (by omega) ht)
  obtain ⟨b, hb, hbi1, hbi2⟩ := h3 i (Nat.zero_le _) (hlt i (by omega) hi0) hi0
  refine ⟨b, hb, hbi1, hbi2, by omega, ?_⟩
  by_contra hcon
  obtain ⟨_, _, _, _, _, hz⟩ := h1 b hb
  have hje := hlt j hj hj0
  have := hz (by omega) j (by omega) (by rw [Nat.lt_min]; omega)
  exact hj0 this

theorem dot24_print_line_no_split_witness :
    ∃ b ∈ dot24_print_line_blocks [1, 0, 0, 0, 0, 0, 0, 0, 0, 0, 0, 0, 0, 0, 2] 180 9,
      b.blk_start ≤ 0 ∧ 0 < b.blk_end ∧ b.blk_start ≤ 14 ∧ 14 < b.blk_end :=
  dot24_print_line_no_split [1, 0, 0, 0, 0, 0, 0, 0, 0, 0, 0, 0, 0, 0, 2] 180 9
    (Or.inl ⟨rfl, rfl⟩) (by decide) 0 14 (by decide) (by decide) (by decide) (by decide)
    (by
      intro k h1 h2
      have : k = 1 ∨ k = 2 ∨ k = 3 ∨ k = 4 ∨ k = 5 ∨ k = 6 ∨ k = 7 ∨ k = 8 ∨ k = 9 ∨ k = 10
          ∨ k = 11 ∨ k = 12 ∨ k = 13 := by omega
      rcases this with h | h | h | h | h | h | h | h | h | h | h | h | h <;> subst h <;> rfl)
    (by decide)


/-! ## The backward segmenter `dot24_print_line_backwards` -/

theorem fwdLoop_succ (buf : List Nat) (xres bpp e f s : Nat) :
    fwdLoop buf xres bpp e (f + 1) s
      = if s < e then
          (if fwdBlkStart buf bpp e (e - s) s ≥ e then []
           else ⟨fwdBlkStart buf bpp e (e - s) s / bpp, fwdBlkStart buf bpp e (e - s) s,
                  fwdEndOf buf xres bpp e (fwdBlkStart buf bpp e (e - s) s)⟩
                :: fwdLoop buf xres bpp e f
                    (fwdEndOf buf xres bpp e (fwdBlkStart buf bpp e (e - s) s)))
        else [] := rfl

theorem bwdLoop_succ (buf : List Nat) (xres bpp f u : Nat) :
    bwdLoop buf xres bpp (f + 1) u
      = if 0 < u then
          (if bwdBlkEnd buf bpp (u + 1) u ≤ 0 then []
           else ⟨bwdStartOf buf xres bpp (bwdBlkEnd buf bpp (u + 1) u) / bpp,
                  bwdStartOf buf xres bpp (bwdBlkEnd buf bpp (u + 1) u),
                  bwdBlkEnd buf bpp (u + 1) u⟩
                :: bwdLoop buf xres bpp f
                    (bwdStartOf buf xres bpp (bwdBlkEnd buf bpp (u + 1) u)))
        else [] := rfl

theorem scanUp_ge (stop : Nat → Bool) (step lim : Nat) :
    ∀ (f p : Nat), p ≤ scanUp stop step lim f p := by
  intro f
  induction f with
  | zero => intro p; exact le_refl _
  | succ f ih =>
    intro p
    simp only [scanUp]
    split
    · split
      · exact le_refl _
      · exact le_trans (Nat.le_add_right _ _) (ih (p + step))
    · exact le_refl _

theorem fwdEndOf_gt (buf : List Nat) (xres bpp e p : Nat) (hbpp : 0 < bpp) (hp : p < e) :
    p < fwdEndOf buf xres bpp e p ∧ fwdEndOf buf xres bpp e p ≤ e := by
  have h := scanUp_ge (fun p => scanZero buf p e (xres * 3 / 2) 0) bpp e (e - p) (p + bpp)
  simp only [fwdEndOf, fwdBlkEnd]
  split <;> constructor <;> omega

theorem fwdBlkStart_ge (buf : List Nat) (bpp e f s : Nat) : s ≤ fwdBlkStart buf bpp e f s :=
  scanUp_ge _ bpp e f s

/-- The block loop of `dot24_print_line` does not depend on the fuel once it
covers the remaining range. -/
theorem fwdLoop_fuel (buf : List Nat) (xres bpp e : Nat) (hbpp : 0 < bpp) :
    ∀ (f1 f2 s : Nat), e - s ≤ f1 → e - s ≤ f2 →
      fwdLoop buf xres bpp e f1 s = fwdLoop buf xres bpp e f2 s := by
  intro f1
  induction f1 with
  | zero =>
    intro f2 s h1 _
    rw [fwdLoop_done buf xres bpp e 0 s (by omega), fwdLoop_done buf xres bpp e f2 s (by omega)]
  | succ f1 ih =>
    intro f2 s h1 h2
    by_cases hlt : s < e
    · cases f2 with
      | zero => omega
      | succ f2 =>
        rw [fwdLoop_succ, fwdLoop_succ]
        simp only [hlt, if_true]
        split
        · rfl
        · rename_i hp
          have hge := fwdBlkStart_ge buf bpp e (e - s) s
          have hq := fwdEndOf_gt buf xres bpp e _ hbpp (by omega : fwdBlkStart buf bpp e (e - s) s < e)
          rw [ih f2 _ (by omega) (by omega)]
    · rw [fwdLoop_done buf xres bpp e _ s (by omega), fwdLoop_done buf xres bpp e f2 s (by omega)]

theorem bwdBlkEnd_zero (buf : List Nat) (bpp f : Nat) : bwdBlkEnd buf bpp f 0 = 0 := by
  cases f <;> simp [bwdBlkEnd]

theorem bwdBlkEnd_stop (buf : List Nat) (bpp f p : Nat) (hp : 0 < p)
    (hnz : ¬ zeroOn buf (p - bpp) p) : bwdBlkEnd buf bpp (f + 1) p = p := by
  have h : ¬ scanZeroBack buf p 0 bpp 1 = true := by
    rw [scanZeroBack_iff]
    simpa using hnz
  simp [bwdBlkEnd, hp, h]

theorem bwdBlkEnd_step (buf : List Nat) (bpp f s : Nat) (hbpp : 0 < bpp) (hs : bpp ∣ s)
    (hz : zeroOn buf s (s + bpp)) :
    bwdBlkEnd buf bpp (f + 1) (s + bpp) = bwdBlkEnd buf bpp f s := by
  have h : scanZeroBack buf (s + bpp) 0 bpp 1 = true := by
    rw [scanZeroBack_iff]
    simpa using hz
  have hmod : (s + bpp) % bpp = 0 := by
    obtain ⟨c, rfl⟩ := hs
    simp
  have hpos : s + bpp > 0 := by omega
  simp [bwdBlkEnd, hpos, h, hmod]

theorem bwdBlkEnd_skip (buf : List Nat) (bpp : Nat) (hbpp : 0 < bpp) :
    ∀ (k f s : Nat), bpp ∣ s → zeroOn buf s (s + k * bpp) →
      bwdBlkEnd buf bpp (f + k) (s + k * bpp) = bwdBlkEnd buf bpp f s := by
  intro k
  induction k with
  | zero => intro f s _ _; simp
  | succ k ih =>
    intro f s hs hz
    have e1 : s + (k + 1) * bpp = (s + k * bpp) + bpp := by ring
    have hal : bpp ∣ s + k * bpp := Dvd.dvd.add hs (Dvd.intro_left k rfl)
    rw [e1, ← Nat.add_assoc,
      bwdBlkEnd_step buf bpp (f + k) (s + k * bpp) hbpp hal
        (zeroOn_mono hz (by omega) (by rw [e1]))]
    exact ih f s hs (zeroOn_mono hz (le_refl _) (by rw [e1]; omega))

theorem bwdBlkEnd_le (buf : List Nat) (bpp : Nat) (hbpp : 0 < bpp) :
    ∀ (f p : Nat), bwdBlkEnd buf bpp f p ≤ p := by
  intro f
  induction f with
  | zero => intro p; exact le_refl _
  | succ f ih =>
    intro p
    simp only [bwdBlkEnd]
    split
    · split
      · refine le_trans (ih _) ?_
        have := Nat.mod_lt p hbpp
        split <;> omega
      · exact le_refl _
    · exact le_refl _

theorem bwdBlkStart_le (buf : List Nat) (xres bpp : Nat) :
    ∀ (f p : Nat), bwdBlkStart buf xres bpp f p ≤ p := by
  intro f
  induction f with
  | zero => intro p; exact le_refl _
  | succ f ih =>
    intro p
    simp only [bwdBlkStart]
    split
    · exact le_refl _
    · exact le_trans (ih _) (Nat.sub_le _ _)

theorem bwdStartOf_lt (buf : List Nat) (xres bpp q : Nat) (hbpp : 0 < bpp) (hq : 0 < q) :
    bwdStartOf buf xres bpp q < q := by
  have hm := Nat.mod_lt q hbpp
  have h := bwdBlkStart_le buf xres bpp
    ((if q - q % bpp = q then q - q % bpp - bpp else q - q % bpp) + 1)
    (if q - q % bpp = q then q - q % bpp - bpp else q - q % bpp)
  simp only [bwdStartOf]
  refine lt_of_le_of_lt h ?_
  split <;> omega

/-- The block loop of `dot24_print_line_backwards` does not depend on the
fuel once it covers the remaining range. -/
theorem bwdLoop_fuel (buf : List Nat) (xres bpp : Nat) (hbpp : 0 < bpp) :
    ∀ (f1 f2 u : Nat), u ≤ f1 → u ≤ f2 →
      bwdLoop buf xres bpp f1 u = bwdLoop buf xres bpp f2 u := by
  intro f1
  induction f1 with
  | zero =>
    intro f2 u h1 _
    have hu : u = 0 := by omega
    subst hu
    cases f2 <;> simp [bwdLoop]
  | succ f1 ih =>
    intro f2 u h1 h2
    by_cases hu : 0 < u
    · cases f2 with
      | zero => omega
      | succ f2 =>
        rw [bwdLoop_succ, bwdLoop_succ]
        simp only [hu, if_true]
        split
        · rfl
        · rename_i hq
          have h3 := bwdBlkEnd_le buf bpp hbpp (u + 1) u
          have h4 := bwdStartOf_lt buf xres bpp (bwdBlkEnd buf bpp (u + 1) u) hbpp (by omega)
          rw [ih f2 _ (by omega) (by omega)]
    · have hu0 : u = 0 := by omega
      subst hu0
      cases f2 <;> simp [bwdLoop]


theorem bwdBlkEnd_fuel (buf : List Nat) (bpp : Nat) (hbpp : 0 < bpp) :
    ∀ (f1 f2 p : Nat), p ≤ f1 → p ≤ f2 →
      bwdBlkEnd buf bpp f1 p = bwdBlkEnd buf bpp f2 p := by
  intro f1
  induction f1 with
  | zero =>
    intro f2 p h1 _
    have hp : p = 0 := by omega
    subst hp
    rw [bwdBlkEnd_zero, bwdBlkEnd_zero]
  | succ f1 ih =>
    intro f2 p h1 h2
    by_cases hp : 0 < p
    · cases f2 with
      | zero => omega
      | succ f2 =>
        simp only [bwdBlkEnd, hp, if_true]
        split
        · have := Nat.mod_lt p hbpp
          apply ih
          · split <;> omega
          · split <;> omega
        · rfl
    · have hp0 : p = 0 := by omega
      subst hp0
      rw [bwdBlkEnd_zero, bwdBlkEnd_zero]

/-- The downward seek of `dot24_print_line_backwards` stops at the first
aligned position below which the gap window is all zero. -/
theorem bwdBlkStart_eq_of (buf : List Nat) (xres bpp : Nat) :
    ∀ (k f t : Nat), k < f →
      zeroOn buf (t - xres * 3 / 2) t →
      (∀ j, j < k → ¬ zeroOn buf (t + (j + 1) * bpp - xres * 3 / 2) (t + (j + 1) * bpp)) →
      bwdBlkStart buf xres bpp f (t + k * bpp) = t := by
  intro k
  induction k with
  | zero =>
    intro f t hf hz _
    cases f with
    | zero => omega
    | succ f =>
      have h : scanZeroBack buf t 0 (xres * 3 / 2) 1 = true := by
        rw [scanZeroBack_iff]; simpa using hz
      simp [bwdBlkStart, h]
  | succ k ih =>
    intro f t hf hz hnz
    cases f with
    | zero => omega
    | succ f =>
      have h : ¬ scanZeroBack buf (t + (k + 1) * bpp) 0 (xres * 3 / 2) 1 = true := by
        rw [scanZeroBack_iff]; simpa using hnz k (by omega)
      have e1 : t + (k + 1) * bpp - bpp = t + k * bpp := by
        have : (k + 1) * bpp = k * bpp + bpp := by ring
        omega
      simp only [bwdBlkStart, h, if_false, Bool.false_eq_true, e1]
      exact ih f t (by omega) hz (fun j hj => hnz j (by omega))

theorem trimmed_of_band (band : List Nat) (hlen : band.length % 3 = 0) :
    Trimmed band (trimEnd band 0 band.length band.length) := by
  obtain ⟨k, hk, _, hlast⟩ := trimEnd_spec band band.length band.length (by omega)
  exact ⟨by omega, hlast⟩

theorem Trimmed.not_zero_tail {buf : List Nat} {e : Nat} (ht : Trimmed buf e) (a : Nat)
    (he : 0 < e) (ha : a + 3 ≤ e) : ¬ zeroOn buf a e := by
  intro hz
  have h3 : 3 ≤ e := by omega
  exact ht.last h3 ⟨hz _ (by omega) (by omega), hz _ (by omega) (by omega),
    hz _ (by omega) (by omega)⟩

theorem not_zeroOn_exists {buf : List Nat} {a b : Nat} (h : ¬ zeroOn buf a b) :
    ∃ i, a ≤ i ∧ i < b ∧ buf.getD i 0 ≠ 0 := by
  unfold zeroOn at h
  push_neg at h
  exact h

theorem Mode.bpp_cases {xres bpp : Nat} (h : Mode xres bpp) : bpp = 9 ∨ bpp = 18 := by
  rcases h with ⟨_, h⟩ | ⟨_, h⟩
  · exact Or.inl h
  · exact Or.inr h

/-- The block correspondence of the two passes at 180 dpi (9 bytes per
position, gap of 270 bytes). -/
theorem back_block_180 (buf : List Nat) (e s p q : Nat)
    (ht : Trimmed buf e) (hs : 9 ∣ s) (hlt : s < e)
    (hrest : s = 0 ∨ zeroOn buf s (min (s + 180 * 3 / 2) e))
    (hp : p = fwdBlkStart buf 9 e (e - s) s)
    (hq : q = fwdEndOf buf 180 9 e p) :
    p < e ∧ 9 ∣ p ∧ s ≤ p ∧ zeroOn buf s p ∧ p < q ∧ q ≤ e
      ∧ bwdBlkEnd buf 9 (q + 1) q = q
      ∧ bwdStartOf buf 180 9 q = p
      ∧ (q < e → 9 ∣ q ∧ zeroOn buf q (min (q + 180 * 3 / 2) e)) := by
  have hbpp : 0 < 9 := by omega
  have hg : 180 * 3 / 2 = 30 * 9 := rfl
  obtain ⟨k, hk, hz, hexit⟩ := fwdBlkStart_spec buf 9 e s hbpp
  rw [← hp] at hk
  rw [← hk] at hz hexit
  obtain ⟨k2, hk2, hbefore, hqexit⟩ := fwdBlkEnd_spec buf 180 9 e p hbpp
  have hm3 := ht.mod3
  have hq0 : q = if p + 9 + k2 * 9 > e then e else p + 9 + k2 * 9 := by
    rw [hq]; simp only [fwdEndOf, hk2]
  simp only [bwdStartOf]
  rw [hg] at hrest hbefore hqexit ⊢
  have hdp : 9 ∣ p := by rw [hk]; exact Dvd.dvd.add hs (Dvd.intro_left k rfl)
  have hgx := hg
  clear hp hq hk2 hg
  -- the block start lies inside the trimmed band
  have hpe : p < e := by
    by_contra hcon
    have h1 : zeroOn buf s e := zeroOn_mono hz (le_refl _) (by omega)
    exact ht.not_zero_tail s (by omega) (by omega) h1
  have hnzp : ¬ zeroOn buf p (min (p + 9) e) := by
    rcases hexit with h | h
    · omega
    · exact h
  obtain ⟨i, hi1, hi2, hi3⟩ := not_zeroOn_exists hnzp
  have hzsp : zeroOn buf s p := zeroOn_mono hz (le_refl _) (by omega)
  have hqle : q ≤ e := by rw [hq0]; split <;> omega
  have hpq : p < q := by rw [hq0]; split <;> omega
  have hq1 : q < e → q = p + 9 + k2 * 9 := by
    intro hqe
    rw [hq0] at hqe ⊢
    split
    · rename_i h; rw [if_pos h] at hqe; omega
    · rfl
  have hrestq : q < e → zeroOn buf q (min (q + 30 * 9) e) := by
    intro hqe
    rcases hqexit with h | h
    · have := hq1 hqe; omega
    · rw [hq1 hqe]; exact h
  -- the position that ends at `q` is not blank
  have hX1 : ¬ zeroOn buf (q - 9) q := by
    by_cases hqe : q = e
    · rw [hqe]
      exact ht.not_zero_tail _ (by omega) (by omega)
    · have hqlt : q < e := by omega
      have hzq := hrestq hqlt
      have hq2 := hq1 hqlt
      intro hcon
      cases k2 with
      | zero =>
        apply hnzp
        exact zeroOn_mono hcon (by omega) (by omega)
      | succ k2 =>
        apply (hbefore k2 (by omega)).2
        refine zeroOn_mono (zeroOn_append hcon hzq) ?_ ?_
        · omega
        · omega
  have hend : bwdBlkEnd buf 9 (q + 1) q = q := bwdBlkEnd_stop buf 9 q q (by omega) hX1
  -- the backward seek returns to `p`
  have hzback : zeroOn buf (p - 30 * 9) p := by
    rcases hrest with h | h
    · subst h; exact zeroOn_mono hzsp (by omega) (le_refl _)
    · have : s + 30 * 9 ≤ p := by
        by_contra hcon
        apply hi3
        apply h i (by omega)
        omega
      exact zeroOn_mono hzsp (by omega) (le_refl _)
  have hstart : bwdBlkStart buf 180 9
      ((if q - q % 9 = q then q - q % 9 - 9 else q - q % 9) + 1)
      (if q - q % 9 = q then q - q % 9 - 9 else q - q % 9) = p := by
    obtain ⟨k3, hk3⟩ : ∃ k3, (if q - q % 9 = q then q - q % 9 - 9 else q - q % 9)
        = p + k3 * 9 := by
      refine ⟨((if q - q % 9 = q then q - q % 9 - 9 else q - q % 9) - p) / 9, ?_⟩
      split <;> omega
    have hk3le : k3 ≤ p + k3 * 9 := by
      have : k3 * 1 ≤ k3 * 9 := Nat.mul_le_mul_left k3 hbpp
      omega
    have hp1 : p + k3 * 9 < q := by
      rw [← hk3]
      have := Nat.mod_lt q hbpp
      split <;> omega
    rw [hk3]
    apply bwdBlkStart_eq_of buf 180 9 k3 _ p (by omega) (by rw [hgx]; exact hzback)
    intro j hj hcon
    rw [hgx] at hcon
    have hjk : p + (j + 1) * 9 ≤ p + k3 * 9 := by
      have : (j + 1) * 9 ≤ k3 * 9 := Nat.mul_le_mul_right 9 (by omega)
      omega
    have hj30 : 30 ≤ j := by
      by_contra hlt30
      apply hi3
      apply hcon i
      · omega
      · omega
    have hk2j : j - 30 < k2 := by
      have hq2 : q ≤ p + 9 + k2 * 9 := by rw [hq0]; split <;> omega
      by_contra hcon2
      have : k2 * 9 ≤ (j - 30) * 9 := Nat.mul_le_mul_right 9 (by omega)
      omega
    apply (hbefore (j - 30) hk2j).2
    refine zeroOn_mono hcon ?_ ?_
    · omega
    · omega
  refine ⟨hpe, hdp, by omega, hzsp, hpq, hqle, hend, hstart, ?_⟩
  intro hqe
  refine ⟨?_, hrestq hqe⟩
  rw [hq1 hqe]
  exact Dvd.dvd.add (Dvd.dvd.add hdp (dvd_refl _)) (Dvd.intro_left k2 rfl)

/-- The block correspondence of the two passes at 360 dpi (18 bytes per
position, gap of 540 bytes). -/
theorem back_block_360 (buf : List Nat) (e s p q : Nat)
    (ht : Trimmed buf e) (hs : 18 ∣ s) (hlt : s < e)
    (hrest : s = 0 ∨ zeroOn buf s (min (s + 360 * 3 / 2) e))
    (hp : p = fwdBlkStart buf 18 e (e - s) s)
    (hq : q = fwdEndOf buf 360 18 e p) :
    p < e ∧ 18 ∣ p ∧ s ≤ p ∧ zeroOn buf s p ∧ p < q ∧ q ≤ e
      ∧ bwdBlkEnd buf 18 (q + 1) q = q
      ∧ bwdStartOf buf 360 18 q = p
      ∧ (q < e → 18 ∣ q ∧ zeroOn buf q (min (q + 360 * 3 / 2) e)) := by
  have hbpp : 0 < 18 := by omega
  have hg : 360 * 3 / 2 = 30 * 18 := rfl
  obtain ⟨k, hk, hz, hexit⟩ := fwdBlkStart_spec buf 18 e s hbpp
  rw [← hp] at hk
  rw [← hk] at hz hexit
  obtain ⟨k2, hk2, hbefore, hqexit⟩ := fwdBlkEnd_spec buf 360 18 e p hbpp
  have hm3 := ht.mod3
  have hq0 : q = if p + 18 + k2 * 18 > e then e else p + 18 + k2 * 18 := by
    rw [hq]; simp only [fwdEndOf, hk2]
  simp only [bwdStartOf]
  rw [hg] at hrest hbefore hqexit ⊢
  have hdp : 18 ∣ p := by rw [hk]; exact Dvd.dvd.add hs (Dvd.intro_left k rfl)
  have hgx := hg
  clear hp hq hk2 hg
  -- the block start lies inside the trimmed band
  have hpe : p < e := by
    by_contra hcon
    have h1 : zeroOn buf s e := zeroOn_mono hz (le_refl _) (by omega)
    exact ht.not_zero_tail s (by omega) (by omega) h1
  have hnzp : ¬ zeroOn buf p (min (p + 18) e) := by
    rcases hexit with h | h
    · omega
    · exact h
  obtain ⟨i, hi1, hi2, hi3⟩ := not_zeroOn_exists hnzp
  have hzsp : zeroOn buf s p := zeroOn_mono hz (le_refl _) (by omega)
  have hqle : q ≤ e := by rw [hq0]; split <;> omega
  have hpq : p < q := by rw [hq0]; split <;> omega
  have hq1 : q < e → q = p + 18 + k2 * 18 := by
    intro hqe
    rw [hq0] at hqe ⊢
    split
    · rename_i h; rw [if_pos h] at hqe; omega
    · rfl
  have hrestq : q < e → zeroOn buf q (min (q + 30 * 18) e) := by
    intro hqe
    rcases hqexit with h | h
    · have := hq1 hqe; omega
    · rw [hq1 hqe]; exact h
  -- the position that ends at `q` is not blank
  have hX1 : ¬ zeroOn buf (q - 18) q := by
    by_cases hqe : q = e
    · rw [hqe]
      exact ht.not_zero_tail _ (by omega) (by omega)
    · have hqlt : q < e := by omega
      have hzq := hrestq hqlt
      have hq2 := hq1 hqlt
      intro hcon
      cases k2 with
      | zero =>
        apply hnzp
        exact zeroOn_mono hcon (by omega) (by omega)
      | succ k2 =>
        apply (hbefore k2 (by omega)).2
        refine zeroOn_mono (zeroOn_append hcon hzq) ?_ ?_
        · omega
        · omega
  have hend : bwdBlkEnd buf 18 (q + 1) q = q := bwdBlkEnd_stop buf 18 q q (by omega) hX1
  -- the backward seek returns to `p`
  have hzback : zeroOn buf (p - 30 * 18) p := by
    rcases hrest with h | h
    · subst h; exact zeroOn_mono hzsp (by omega) (le_refl _)
    · have : s + 30 * 18 ≤ p := by
        by_contra hcon
        apply hi3
        apply h i (by omega)
        omega
      exact zeroOn_mono hzsp (by omega) (le_refl _)
  have hstart : bwdBlkStart buf 360 18
      ((if q - q % 18 = q then q - q % 18 - 18 else q - q % 18) + 1)
      (if q - q % 18 = q then q - q % 18 - 18 else q - q % 18) = p := by
    obtain ⟨k3, hk3⟩ : ∃ k3, (if q - q % 18 = q then q - q % 18 - 18 else q - q % 18)
        = p + k3 * 18 := by
      refine ⟨((if q - q % 18 = q then q - q % 18 - 18 else q - q % 18) - p) / 18, ?_⟩
      split <;> omega
    have hk3le : k3 ≤ p + k3 * 18 := by
      have : k3 * 1 ≤ k3 * 18 := Nat.mul_le_mul_left k3 hbpp
      omega
    have hp1 : p + k3 * 18 < q := by
      rw [← hk3]
      have := Nat.mod_lt q hbpp
      split <;> omega
    rw [hk3]
    apply bwdBlkStart_eq_of buf 360 18 k3 _ p (by omega) (by rw [hgx]; exact hzback)
    intro j hj hcon
    rw [hgx] at hcon
    have hjk : p + (j + 1) * 18 ≤ p + k3 * 18 := by
      have : (j + 1) * 18 ≤ k3 * 18 := Nat.mul_le_mul_right 18 (by omega)
      omega
    have hj30 : 30 ≤ j := by
      by_contra hlt30
      apply hi3
      apply hcon i
      · omega
      · omega
    have hk2j : j - 30 < k2 := by
      have hq2 : q ≤ p + 18 + k2 * 18 := by rw [hq0]; split <;> omega
      by_contra hcon2
      have : k2 * 18 ≤ (j - 30) * 18 := Nat.mul_le_mul_right 18 (by omega)
      omega
    apply (hbefore (j - 30) hk2j).2
    refine zeroOn_mono hcon ?_ ?_
    · omega
    · omega
  refine ⟨hpe, hdp, by omega, hzsp, hpq, hqle, hend, hstart, ?_⟩
  intro hqe
  refine ⟨?_, hrestq hqe⟩
  rw [hq1 hqe]
  exact Dvd.dvd.add (Dvd.dvd.add hdp (dvd_refl _)) (Dvd.intro_left k2 rfl)

/-- One block of the forward pass, seen from the backward pass: from an
aligned resting point `s` the forward pass finds the block `[p, q)`; the
backward pass entered at `q` finds the same block. -/
theorem back_block (buf : List Nat) (xres bpp e s p q : Nat) (hmode : Mode xres bpp)
    (ht : Trimmed buf e) (hs : bpp ∣ s) (hlt : s < e)
    (hrest : s = 0 ∨ zeroOn buf s (min (s + xres * 3 / 2) e))
    (hp : p = fwdBlkStart buf bpp e (e - s) s)
    (hq : q = fwdEndOf buf xres bpp e p) :
    p < e ∧ bpp ∣ p ∧ s ≤ p ∧ zeroOn buf s p ∧ p < q ∧ q ≤ e
      ∧ bwdBlkEnd buf bpp (q + 1) q = q
      ∧ bwdStartOf buf xres bpp q = p
      ∧ (q < e → bpp ∣ q ∧ zeroOn buf q (min (q + xres * 3 / 2) e)) := by
  rcases hmode with ⟨rfl, rfl⟩ | ⟨rfl, rfl⟩
  · exact back_block_180 buf e s p q ht hs hlt hrest hp hq
  · exact back_block_360 buf e s p q ht hs hlt hrest hp hq

/-- The loop equation of `dot24_print_line_backwards`, with the fuel the
model supplies. -/
theorem bwdLoop_canon (buf : List Nat) (xres bpp u : Nat) (hbpp : 0 < bpp) :
    bwdLoop buf xres bpp u u
      = if bwdBlkEnd buf bpp (u + 1) u ≤ 0 then []
        else ⟨bwdStartOf buf xres bpp (bwdBlkEnd buf bpp (u + 1) u) / bpp,
                bwdStartOf buf xres bpp (bwdBlkEnd buf bpp (u + 1) u),
                bwdBlkEnd buf bpp (u + 1) u⟩
              :: bwdLoop buf xres bpp (bwdStartOf buf xres bpp (bwdBlkEnd buf bpp (u + 1) u))
                  (bwdStartOf buf xres bpp (bwdBlkEnd buf bpp (u + 1) u)) := by
  cases u with
  | zero => simp [bwdLoop, bwdBlkEnd_zero]
  | succ u =>
    rw [bwdLoop_succ]
    simp only [Nat.succ_pos, if_true]
    split
    · rfl
    · have h3 := bwdBlkEnd_le buf bpp hbpp (u + 1 + 1) (u + 1)
      have h4 := bwdStartOf_lt buf xres bpp (bwdBlkEnd buf bpp (u + 1 + 1) (u + 1)) hbpp
        (by omega)
      rw [bwdLoop_fuel buf xres bpp hbpp u _ _ (by omega) (le_refl _)]

/-- The loop equation of `dot24_print_line`, with the fuel the model
supplies. -/
theorem fwdLoop_canon (buf : List Nat) (xres bpp e s : Nat) (hbpp : 0 < bpp) :
    fwdLoop buf xres bpp e (e - s) s
      = if s < e then
          (if fwdBlkStart buf bpp e (e - s) s ≥ e then []
           else ⟨fwdBlkStart buf bpp e (e - s) s / bpp, fwdBlkStart buf bpp e (e - s) s,
                  fwdEndOf buf xres bpp e (fwdBlkStart buf bpp e (e - s) s)⟩
                :: fwdLoop buf xres bpp e
                    (e - fwdEndOf buf xres bpp e (fwdBlkStart buf bpp e (e - s) s))
                    (fwdEndOf buf xres bpp e (fwdBlkStart buf bpp e (e - s) s)))
        else [] := by
  by_cases hlt : s < e
  · obtain ⟨f, hf⟩ : ∃ f, e - s = f + 1 := ⟨e - s - 1, by omega⟩
    simp only [hlt, if_true]
    conv_lhs => rw [hf, fwdLoop_succ]
    simp only [hlt, if_true, ← hf]
    split
    · rfl
    · have hge := fwdBlkStart_ge buf bpp e (e - s) s
      have hq := fwdEndOf_gt buf xres bpp e _ hbpp
        (by omega : fwdBlkStart buf bpp e (e - s) s < e)
      rw [fwdLoop_fuel buf xres bpp e hbpp f _ _ (by omega) (le_refl _)]
  · simp only [hlt, if_false]
    exact fwdLoop_done buf xres bpp e _ s (by omega)

/-- Entering the backward pass at `p` or at `s` is the same when the bytes
between the two aligned offsets are zero. -/
theorem bwdLoop_skip (buf : List Nat) (xres bpp s p : Nat) (hbpp : 0 < bpp)
    (hs : bpp ∣ s) (hp : bpp ∣ p) (hsp : s ≤ p) (hz : zeroOn buf s p) :
    bwdLoop buf xres bpp p p = bwdLoop buf xres bpp s s := by
  obtain ⟨a, rfl⟩ := hs
  obtain ⟨b, rfl⟩ := hp
  have hab : a ≤ b := Nat.le_of_mul_le_mul_left hsp hbpp
  obtain ⟨k, rfl⟩ : ∃ k, b = a + k := ⟨b - a, by omega⟩
  have e1 : bpp * (a + k) = bpp * a + k * bpp := by ring
  have hk : k ≤ bpp * a + k * bpp := by
    have : k * 1 ≤ k * bpp := Nat.mul_le_mul_left k hbpp
    omega
  have hE : bwdBlkEnd buf bpp (bpp * (a + k) + 1) (bpp * (a + k))
      = bwdBlkEnd buf bpp (bpp * a + 1) (bpp * a) := by
    rw [e1]
    have e2 : bpp * a + k * bpp + 1 = (bpp * a + k * bpp + 1 - k) + k := by omega
    rw [e2, bwdBlkEnd_skip buf bpp hbpp k _ (bpp * a) (Dvd.intro _ rfl) (by rw [← e1]; exact hz)]
    have hk1 : k * 1 ≤ k * bpp := Nat.mul_le_mul_left k hbpp
    exact bwdBlkEnd_fuel buf bpp hbpp _ _ _ (by omega) (by omega)
  rw [bwdLoop_canon buf xres bpp _ hbpp, bwdLoop_canon buf xres bpp (bpp * a) hbpp, hE]

/-- The backward pass over the whole trimmed band is the forward pass from
any of its resting points, reversed, followed by the backward pass below
that point. -/
theorem bwdLoop_eq_reverse_fwdLoop (buf : List Nat) (xres bpp e : Nat) (hmode : Mode xres bpp)
    (ht : Trimmed buf e) :
    ∀ (n s : Nat), e - s ≤ n → bpp ∣ s → s ≤ e →
      (s = 0 ∨ zeroOn buf s (min (s + xres * 3 / 2) e)) →
      bwdLoop buf xres bpp e e
        = (fwdLoop buf xres bpp e (e - s) s).reverse ++ bwdLoop buf xres bpp s s := by
  have hbpp := hmode.bpp_pos
  intro n
  induction n with
  | zero =>
    intro s hn _ hse _
    have : s = e := by omega
    subst this
    rw [fwdLoop_done buf xres bpp s _ s (le_refl _)]
    simp
  | succ n ih =>
    intro s hn hs hse hrest
    by_cases hlt : s < e
    · obtain ⟨hpe, hdp, hsp, hzsp, hpq, hqle, hend, hstart, hq⟩ :=
        back_block buf xres bpp e s _ _ hmode ht hs hlt hrest rfl rfl
      have hZ : bwdLoop buf xres bpp
            (fwdEndOf buf xres bpp e (fwdBlkStart buf bpp e (e - s) s))
            (fwdEndOf buf xres bpp e (fwdBlkStart buf bpp e (e - s) s))
          = ⟨fwdBlkStart buf bpp e (e - s) s / bpp, fwdBlkStart buf bpp e (e - s) s,
                fwdEndOf buf xres bpp e (fwdBlkStart buf bpp e (e - s) s)⟩
              :: bwdLoop buf xres bpp s s := by
        rw [bwdLoop_canon buf xres bpp _ hbpp, hend, hstart,
          bwdLoop_skip buf xres bpp s _ hbpp hs hdp hsp hzsp]
        rw [if_neg (by omega)]
      rw [fwdLoop_canon buf xres bpp e s hbpp]
      simp only [hlt, if_true]
      rw [if_neg (by omega)]
      by_cases hqe : fwdEndOf buf xres bpp e (fwdBlkStart buf bpp e (e - s) s) < e
      · obtain ⟨hdq, hzq⟩ := hq hqe
        rw [ih _ (by omega) hdq hqle (Or.inr hzq), hZ]
        simp
      · have hqeq : fwdEndOf buf xres bpp e (fwdBlkStart buf bpp e (e - s) s) = e := by omega
        rw [hqeq] at hZ ⊢
        rw [fwdLoop_done buf xres bpp e _ e (le_refl _), hZ]
        simp
    · have : s = e := by omega
      subst this
      rw [fwdLoop_done buf xres bpp s _ s (le_refl _)]
      simp

/-- C9: on the same band `dot24_print_line_backwards` calls
`dot24_print_block` with exactly the blocks of `dot24_print_line` (same
`pos`, `blk_start`, `blk_end`), in the reverse order; so the bytes written
are those of the same blocks, block by block, in reverse block order. -/
theorem dot24_print_line_backwards_blocks_reverse (band : List Nat) (xres bpp : Nat)
    (hmode : Mode xres bpp) (hlen : band.length % 3 = 0) :
    dot24_print_line_backwards_blocks band xres bpp
        = (dot24_print_line_blocks band xres bpp).reverse
    ∧ ∀ x_high print_even_dots : Bool,
        dot24_print_line_backwards band x_high print_even_dots xres bpp
          = emitBlocks band x_high print_even_dots bpp
              (dot24_print_line_blocks band xres bpp).reverse := by
  have h : dot24_print_line_backwards_blocks band xres bpp
      = (dot24_print_line_blocks band xres bpp).reverse := by
    have := bwdLoop_eq_reverse_fwdLoop band xres bpp
      (trimEnd band 0 band.length band.length) hmode (trimmed_of_band band hlen)
      (trimEnd band 0 band.length band.length) 0 (by omega) (dvd_zero _) (Nat.zero_le _)
      (Or.inl rfl)
    simp only [Nat.sub_zero] at this
    simp only [dot24_print_line_backwards_blocks, dot24_print_line_blocks, this]
    simp [bwdLoop]
  refine ⟨h, ?_⟩
  intro xh ped
  simp only [dot24_print_line_backwards, h]

theorem dot24_print_line_backwards_blocks_reverse_witness :
    dot24_print_line_backwards_blocks [0, 0, 0, 7, 0, 0] 180 9
        = (dot24_print_line_blocks [0, 0, 0, 7, 0, 0] 180 9).reverse
    ∧ ∀ x_high print_even_dots : Bool,
        dot24_print_line_backwards [0, 0, 0, 7, 0, 0] x_high print_even_dots 180 9
          = emitBlocks [0, 0, 0, 7, 0, 0] x_high print_even_dots 9
              (dot24_print_line_blocks [0, 0, 0, 7, 0, 0] 180 9).reverse :=
  dot24_print_line_backwards_blocks_reverse [0, 0, 0, 7, 0, 0] 180 9 (Or.inl ⟨rfl, rfl⟩)
    (by decide)


/-! ## The backward segmenter on the reversed band -/

theorem getD_reverse (band : List Nat) (i : Nat) (hi : i < band.length) :
    band.reverse.getD i 0 = band.getD (band.length - 1 - i) 0 := by
  rw [List.getD_eq_getElem?_getD, List.getD_eq_getElem?_getD, List.getElem?_reverse hi]

theorem zeroOn_reverse (band : List Nat) (a b : Nat) (hb : b ≤ band.length) :
    zeroOn band.reverse a b ↔ zeroOn band (band.length - b) (band.length - a) := by
  constructor
  · intro h i h1 h2
    have := h (band.length - 1 - i) (by omega) (by omega)
    rw [getD_reverse band _ (by omega)] at this
    rwa [show band.length - 1 - (band.length - 1 - i) = i by omega] at this
  · intro h i h1 h2
    rw [getD_reverse band i (by omega)]
    exact h _ (by omega) (by omega)

theorem zeroOn_beyond (buf : List Nat) (a b : Nat) (ha : buf.length ≤ a) : zeroOn buf a b := by
  intro i h1 _
  rw [List.getD_eq_getElem?_getD, List.getElem?_eq_none (by omega)]
  rfl

/-- One block of the forward pass over `band`, seen from the backward pass
over the reversed band: from an aligned resting point `s` the forward pass
finds `[p, q)`; the backward pass over the reversed band entered at
`len - s` finds `[len - q, len - p)`. -/
theorem mirror_block (band : List Nat) (xres bpp e s p q : Nat) (hmode : Mode xres bpp)
    (ht : Trimmed band e) (hze : zeroOn band e band.length) (hel : e ≤ band.length)
    (hdl : bpp ∣ band.length) (hde : bpp ∣ e) (hs : bpp ∣ s) (hlt : s < e)
    (hrest : s = 0 ∨ zeroOn band s (min (s + xres * 3 / 2) e))
    (hp : p = fwdBlkStart band bpp e (e - s) s)
    (hq : q = fwdEndOf band xres bpp e p) :
    p < q ∧ q ≤ e ∧ bpp ∣ q
      ∧ bwdBlkEnd band.reverse bpp (band.length - s + 1) (band.length - s) = band.length - p
      ∧ bwdStartOf band.reverse xres bpp (band.length - p) = band.length - q
      ∧ (q < e → zeroOn band q (min (q + xres * 3 / 2) e)) := by
  have hbpp := hmode.bpp_pos
  have hb := hmode.bpp_cases
  have hg := hmode.gap_eq
  obtain ⟨hpe, hdp, hsp, hzsp, hpq, hqle, -, -, hqrest⟩ :=
    back_block band xres bpp e s p q hmode ht hs hlt hrest hp hq
  obtain ⟨k, hk, -, hexit⟩ := fwdBlkStart_spec band bpp e s hbpp
  rw [← hp] at hk
  rw [← hk] at hexit
  obtain ⟨k2, hk2, hbefore, hqexit⟩ := fwdBlkEnd_spec band xres bpp e p hbpp
  have hq0 : q = if p + bpp + k2 * bpp > e then e else p + bpp + k2 * bpp := by
    rw [hq]; simp only [fwdEndOf, hk2]
  have hdq : bpp ∣ q := by
    by_cases hqe : q < e
    · exact (hqrest hqe).1
    · have : q = e := by omega
      rw [this]; exact hde
  have hnzp : ¬ zeroOn band p (min (p + bpp) e) := by
    rcases hexit with h | h
    · omega
    · exact h
  set len := band.length with hlen
  -- the backward pass skips the zero positions between `s` and `p`
  have hend : bwdBlkEnd band.reverse bpp (len - s + 1) (len - s) = len - p := by
    have hk1 : k * 1 ≤ k * bpp := Nat.mul_le_mul_left k hbpp
    have e1 : len - s = (len - p) + k * bpp := by omega
    have e2 : len - s + 1 = (len - s + 1 - k) + k := by omega
    have hdlp : bpp ∣ len - p := Nat.dvd_sub' hdl hdp
    rw [e2, e1, bwdBlkEnd_skip band.reverse bpp hbpp k _ (len - p) hdlp]
    · obtain ⟨f, hf⟩ : ∃ f, len - p + k * bpp + 1 - k = f + 1 := ⟨len - p + k * bpp - k, by omega⟩
      rw [hf]
      apply bwdBlkEnd_stop band.reverse bpp f (len - p) (by omega)
      rw [zeroOn_reverse band _ _ (by omega)]
      intro hcon
      apply hnzp
      refine zeroOn_mono hcon ?_ ?_
      · omega
      · rcases hb with rfl | rfl <;> omega
    · rw [zeroOn_reverse band _ _ (by omega)]
      exact zeroOn_mono hzsp (by omega) (by omega)
  -- the backward seek in the reversed band mirrors the forward seek
  have hstart : bwdStartOf band.reverse xres bpp (len - p) = len - q := by
    have hmod : (len - p) % bpp = 0 := Nat.mod_eq_zero_of_dvd (Nat.dvd_sub' hdl hdp)
    simp only [bwdStartOf, hmod, Nat.sub_zero, if_true]
    obtain ⟨k3, hk3⟩ : ∃ k3, q = p + bpp + k3 * bpp := by
      refine ⟨(q - p - bpp) / bpp, ?_⟩
      rcases hb with rfl | rfl <;> omega
    have hk3le : k3 ≤ k2 := by
      by_contra hcon
      have : (k2 + 1) * bpp ≤ k3 * bpp := Nat.mul_le_mul_right bpp (by omega)
      have hq2 : q ≤ p + bpp + k2 * bpp := by rw [hq0]; split <;> omega
      rcases hb with rfl | rfl <;> omega
    have e1 : len - p - bpp = (len - q) + k3 * bpp := by omega
    have hk1 : k3 * 1 ≤ k3 * bpp := Nat.mul_le_mul_left k3 hbpp
    rw [e1]
    apply bwdBlkStart_eq_of band.reverse xres bpp k3 _ (len - q) (by omega)
    · rw [zeroOn_reverse band _ _ (by omega)]
      by_cases hqe : q < e
      · have h1 := (hqrest hqe).2
        intro i hi1 hi2
        by_cases hie : i < e
        · exact h1 i (by omega) (by omega)
        · exact hze i (by omega) (by omega)
      · exact zeroOn_mono hze (by omega) (by omega)
    · intro j hj hcon
      have hj1 : (j + 1) * bpp ≤ k3 * bpp := Nat.mul_le_mul_right bpp (by omega)
      have hjj : (j + 1) * bpp + (k3 - 1 - j) * bpp = k3 * bpp := by
        rw [← Nat.add_mul]; congr 1; omega
      rw [zeroOn_reverse band _ _ (by omega)] at hcon
      obtain ⟨h1, h2⟩ := hbefore (k3 - 1 - j) (by omega)
      apply h2
      have ea : len - (len - q + (j + 1) * bpp) = p + bpp + (k3 - 1 - j) * bpp := by omega
      have eb : min (p + bpp + (k3 - 1 - j) * bpp + xres * 3 / 2) e
          ≤ len - (len - q + (j + 1) * bpp - xres * 3 / 2) := by omega
      rw [ea] at hcon
      exact zeroOn_mono hcon (le_refl _) eb
  exact ⟨hpq, hqle, hdq, hend, hstart, fun h => (hqrest h).2⟩

theorem bwdLoop_reverse_done (band : List Nat) (xres bpp e : Nat) (hbpp : 0 < bpp)
    (hze : zeroOn band e band.length) (hel : e ≤ band.length)
    (hdl : bpp ∣ band.length) (hde : bpp ∣ e) :
    bwdLoop band.reverse xres bpp (band.length - e) (band.length - e) = [] := by
  rw [bwdLoop_skip band.reverse xres bpp 0 (band.length - e) hbpp (dvd_zero _)
    (Nat.dvd_sub' hdl hde) (Nat.zero_le _)
    (by
      rw [zeroOn_reverse band _ _ (by omega)]
      exact zeroOn_mono hze (by omega) (by omega))]
  rfl

/-- The backward pass over the reversed band, entered at the mirror image of
a resting point `s` of the forward pass, produces the mirror images of the
forward blocks from `s`, in the same order. -/
theorem bwdLoop_reverse_mirror (band : List Nat) (xres bpp e : Nat) (hmode : Mode xres bpp)
    (ht : Trimmed band e) (hze : zeroOn band e band.length) (hel : e ≤ band.length)
    (hdl : bpp ∣ band.length) (hde : bpp ∣ e) :
    ∀ (n s : Nat), e - s ≤ n → bpp ∣ s → s ≤ e →
      (s = 0 ∨ zeroOn band s (min (s + xres * 3 / 2) e)) →
      (bwdLoop band.reverse xres bpp (band.length - s) (band.length - s)).map
          (Block.mirror band.length)
        = (fwdLoop band xres bpp e (e - s) s).map Block.bounds := by
  have hbpp := hmode.bpp_pos
  intro n
  induction n with
  | zero =>
    intro s hn _ hse _
    have : s = e := by omega
    subst this
    rw [fwdLoop_done band xres bpp s _ s (le_refl _),
      bwdLoop_reverse_done band xres bpp s hbpp hze hel hdl hde]
    rfl
  | succ n ih =>
    intro s hn hs hse hrest
    by_cases hlt : s < e
    · obtain ⟨hpq, hqle, hdq, hend, hstart, hq⟩ :=
        mirror_block band xres bpp e s _ _ hmode ht hze hel hdl hde hs hlt hrest rfl rfl
      have hge := fwdBlkStart_ge band bpp e (e - s) s
      rw [fwdLoop_canon band xres bpp e s hbpp, bwdLoop_canon band.reverse xres bpp _ hbpp,
        hend, hstart]
      simp only [hlt, if_true]
      rw [if_neg (by omega), if_neg (by omega)]
      simp only [List.map_cons]
      congr 1
      · simp only [Block.mirror, Block.bounds, Prod.mk.injEq]
        constructor <;> omega
      · by_cases hqe : fwdEndOf band xres bpp e (fwdBlkStart band bpp e (e - s) s) < e
        · exact ih _ (by omega) hdq hqle (Or.inr (hq hqe))
        · have hqeq : fwdEndOf band xres bpp e (fwdBlkStart band bpp e (e - s) s) = e := by
            omega
          rw [hqeq, fwdLoop_done band xres bpp e _ e (le_refl _),
            bwdLoop_reverse_done band xres bpp e hbpp hze hel hdl hde]
          rfl
    · have : s = e := by omega
      subst this
      rw [fwdLoop_done band xres bpp s _ s (le_refl _),
        bwdLoop_reverse_done band xres bpp s hbpp hze hel hdl hde]
      rfl

set_option maxRecDepth 1000000 in
/-- C10 as stated fails: for the band `0 0 0 1 0 0 0 0 0` at 180 dpi the
backward segmentation of the reversed band gives `[0, 6)`, mirrored `[3, 9)`,
while the forward segmentation gives `[0, 6)`; and for an aligned band with
two blocks the mirrored backward blocks of the reversed band come in the
forward order, so reversing their order does not give the forward list. -/
theorem backward_reversed_not_mirror :
    (dot24_print_line_backwards_blocks ([0, 0, 0, 1, 0, 0, 0, 0, 0] : List Nat).reverse
          180 9).reverse.map (Block.mirror 9)
        ≠ (dot24_print_line_blocks [0, 0, 0, 1, 0, 0, 0, 0, 0] 180 9).map Block.bounds
    ∧ (dot24_print_line_backwards_blocks
          ([1, 0, 0, 0, 0, 0, 0, 0, 0] ++ List.replicate 270 0
            ++ [0, 0, 0, 0, 0, 0, 1, 0, 0] : List Nat).reverse 180 9).reverse.map
          (Block.mirror 288)
        ≠ (dot24_print_line_blocks
          ([1, 0, 0, 0, 0, 0, 0, 0, 0] ++ List.replicate 270 0
            ++ [0, 0, 0, 0, 0, 0, 1, 0, 0]) 180 9).map Block.bounds := by
  constructor
  · decide
  · decide

/-- C10, amended: when the band length and the trimmed lengths of the band
and of its reversal are multiples of `bytes_per_pos`, the backward
segmentation of the byte-for-byte reversed band yields, in the order it
produces them, the blocks of the forward segmentation of the band with their
bounds mirrored (`[s, e)` becoming `[L - e, L - s)`). -/
theorem backward_reversed_mirror (band : List Nat) (xres bpp : Nat) (hmode : Mode xres bpp)
    (hdl : bpp ∣ band.length)
    (hde : bpp ∣ trimEnd band 0 band.length band.length)
    (hdr : bpp ∣ trimEnd band.reverse 0 band.reverse.length band.reverse.length) :
    (dot24_print_line_backwards_blocks band.reverse xres bpp).map (Block.mirror band.length)
      = (dot24_print_line_blocks band xres bpp).map Block.bounds := by
  have hbpp := hmode.bpp_pos
  have hlen3 : band.length % 3 = 0 := by
    rcases hmode.bpp_cases with h | h <;> rw [h] at hdl <;> omega
  have hmain := bwdLoop_reverse_mirror band xres bpp _ hmode (trimmed_of_band band hlen3)
    (trimEnd_zero_after band) (trimEnd_le band) hdl hde _ 0 (le_refl _) (dvd_zero _)
    (Nat.zero_le _) (Or.inl rfl)
  simp only [Nat.sub_zero] at hmain
  simp only [dot24_print_line_backwards_blocks, dot24_print_line_blocks]
  rw [← hmain]
  congr 1
  have hz := trimEnd_zero_after band.reverse
  have hle := trimEnd_le band.reverse
  have hrl : band.reverse.length = band.length := List.length_reverse band
  rw [hrl] at hz hle hdr ⊢
  exact (bwdLoop_skip band.reverse xres bpp _ band.length hbpp hdr hdl hle hz).symm

theorem backward_reversed_mirror_witness :
    (dot24_print_line_backwards_blocks ([0, 0, 1, 0, 0, 0, 0, 0, 2] : List Nat).reverse
        180 9).map (Block.mirror ([0, 0, 1, 0, 0, 0, 0, 0, 2] : List Nat).length)
      = (dot24_print_line_blocks [0, 0, 1, 0, 0, 0, 0, 0, 2] 180 9).map Block.bounds :=
  backward_reversed_mirror [0, 0, 1, 0, 0, 0, 0, 0, 2] 180 9 (Or.inl ⟨rfl, rfl⟩)
    (by decide) (by decide) (by decide)


/-! ## `dot24_print_block`: the segment loop -/

theorem slice_zero (data : List Nat) (a b : Nat) (hab : a ≤ b) (hb : b ≤ data.length)
    (hz : zeroOn data a b) : (data.drop a).take (b - a) = List.replicate (b - a) 0 := by
  apply List.ext_getElem
  · simp; omega
  · intro i h1 h2
    simp only [List.length_take, List.length_drop] at h1
    have h3 : i < b - a := by omega
    have := hz (a + i) (by omega) (by omega)
    rw [List.getD_eq_getElem?_getD, List.getElem?_eq_getElem (by omega)] at this
    simp only [Option.getD_some] at this
    simp [List.getElem_take, List.getElem_drop, this]

theorem take_drop_split (data : List Nat) (s p e : Nat) (hsp : s ≤ p) (hpe : p ≤ e) :
    (data.take e).drop s = (data.drop s).take (p - s) ++ (data.take e).drop p := by
  have h1 : (data.drop s).take (p - s) = ((data.take e).drop s).take (p - s) := by
    rw [List.drop_take, List.take_take]
    congr 1
    omega
  rw [h1]
  have h2 : (data.take e).drop p = (((data.take e).drop s)).drop (p - s) := by
    rw [List.drop_drop]
    congr 1
    omega
  rw [h2, List.take_append_drop]

/-- The list of commands written as bytes. -/
theorem readCmds_encode : ∀ (cmds : List Cmd) (f : Nat), cmds.length < f →
    (∀ c ∈ cmds, c.valid) →
    readCmds f (cmds.flatMap Cmd.encode ++ [13]) = (cmds, [13]) := by
  intro cmds
  induction cmds with
  | nil =>
    intro f hf _
    cases f with
    | zero => simp at hf
    | succ f => simp [readCmds]
  | cons c cs ih =>
    intro f hf hv
    cases f with
    | zero => simp at hf
    | succ f =>
      have hc := hv c (List.mem_cons_self _ _)
      have ih' := ih f (by simpa using hf) (fun c' hc' => hv c' (List.mem_cons_of_mem _ hc'))
      have hsplit : (c :: cs).flatMap Cmd.encode ++ [13]
          = c.encode ++ (cs.flatMap Cmd.encode ++ [13]) := by
        rw [List.flatMap_cons, List.append_assoc]
      rw [hsplit]
      cases c with
      | move n =>
        simp only [Cmd.valid] at hc
        have hn : n % 256 + 256 * (n / 256 % 256) = n := by omega
        show readCmds (f + 1)
          (27 :: 92 :: (n % 256) :: (n / 256 % 256) :: (cs.flatMap Cmd.encode ++ [13])) = _
        rw [readCmds, ih', hn]
      | run n d =>
        simp only [Cmd.valid] at hc
        have hn : n % 256 + 256 * (n / 256 % 256) = n := by omega
        show readCmds (f + 1)
          (27 :: 42 :: 39 :: (n % 256) :: (n / 256 % 256)
            :: (d ++ (cs.flatMap Cmd.encode ++ [13]))) = _
        rw [readCmds]
        simp only [hn]
        rw [List.drop_left' hc.2.2, List.take_left' hc.2.2, ih']

/-- Exit state of the loop that seeks the end of a graphics run. -/
theorem segEnd_spec (buf : List Nat) (len p : Nat) :
    ∃ k, segEnd buf 3 len (len - p) p = p + k * 3
      ∧ (∀ j, j < k → p + j * 3 < len
          ∧ ¬ zeroOn buf (p + j * 3) (min (p + j * 3 + 12) len))
      ∧ (len ≤ p + k * 3 ∨ zeroOn buf (p + k * 3) (min (p + k * 3 + 12) len)) := by
  obtain ⟨k, hk, hbefore, hexit⟩ :=
    scanUp_spec (fun p => scanZero buf p len (3 * 4) 0) 3 len (by omega) (len - p) p
      (le_refl _)
  refine ⟨k, hk, ?_, ?_⟩
  · intro j hj
    obtain ⟨h1, h2⟩ := hbefore j hj
    refine ⟨h1, ?_⟩
    intro hz
    rw [← scanZero_iff] at hz
    simp [hz] at h2
  · rcases hexit with h | h
    · exact Or.inl h
    · right
      simpa [scanZero_iff] using h

/-- One iteration of the segment loop: from `blk_start = s` at or below the
trimmed end `e` of the buffer, either no dot-column from `s` on is marked, or
the loop finds a run `[p, q)` with `s ≤ p < q ≤ e` after the all-zero
columns `[s, p)`. -/
theorem seg_step (data : List Nat) (e s p q : Nat) (ht : Trimmed data e)
    (hze : zeroOn data e data.length) (hel : e ≤ data.length) (hlen : data.length % 3 = 0)
    (hse : s ≤ e) (hs3 : s % 3 = 0)
    (hp : p = segStart data 3 data.length (data.length - s) s)
    (hq : q = if segEnd data 3 data.length (data.length - p) p ≥ data.length
              then data.length else segEnd data 3 data.length (data.length - p) p) :
    (data.length ≤ p ∧ s = e)
    ∨ (p < data.length ∧ s ≤ p ∧ p % 3 = 0 ∧ zeroOn data s p ∧ p < q ∧ q ≤ e
        ∧ q % 3 = 0) := by
  obtain ⟨k, hk, hz, hexit⟩ := fwdBlkStart_spec data 3 data.length s (by omega)
  have hpk : p = s + k * 3 := by rw [hp]; exact hk
  rw [← hpk] at hz hexit
  have hm3 := ht.mod3
  by_cases hpl : data.length ≤ p
  · left
    refine ⟨hpl, ?_⟩
    by_contra hne
    have h1 : zeroOn data s e := zeroOn_mono hz (le_refl _) (by omega)
    exact ht.not_zero_tail s (by omega) (by omega) h1
  · right
    have hnzp : ¬ zeroOn data p (min (p + 3) data.length) := by
      rcases hexit with h | h
      · omega
      · exact h
    obtain ⟨i, hi1, hi2, hi3⟩ := not_zeroOn_exists hnzp
    have hie : i < e := by
      by_contra hcon
      exact hi3 (hze i (by omega) (by omega))
    obtain ⟨k2, hk2, hbefore, hqexit⟩ := segEnd_spec data data.length p
    rw [hk2] at hq
    have hk2pos : 0 < k2 := by
      by_contra hcon
      have hk0 : k2 = 0 := by omega
      subst hk0
      rcases hqexit with h | h
      · omega
      · exact hnzp (zeroOn_mono h (by omega) (by omega))
    obtain ⟨hb1, hb2⟩ := hbefore (k2 - 1) (by omega)
    have hq3 : q % 3 = 0 := by rw [hq]; split <;> omega
    have hpq : p < q := by rw [hq]; split <;> omega
    refine ⟨by omega, by omega, by omega, zeroOn_mono hz (le_refl _) (by omega), hpq, ?_,
      hq3⟩
    -- the last dot-column of the run is not blank, so the run ends at or below `e`
    by_contra hqe
    apply hb2
    have hzq : zeroOn data (p + k2 * 3) (min (p + k2 * 3 + 12) data.length) := by
      rcases hqexit with h | h
      · intro i h1 h2; omega
      · exact h
    intro i h1 h2
    by_cases hi : i < p + k2 * 3
    · apply hze i _ (by omega)
      have : e ≤ p + (k2 - 1) * 3 := by
        have : q ≤ p + k2 * 3 := by rw [hq]; split <;> omega
        omega
      omega
    · exact hzq i (by omega) (by omega)

/-- The bytes of the segment loop are the encoding of a list of valid
commands whose dot-columns are the buffer between `blk_start` and its
trimmed end. -/
theorem segLoop_cmds (data : List Nat) (e : Nat) (ht : Trimmed data e)
    (hze : zeroOn data e data.length) (hel : e ≤ data.length) (hlen : data.length % 3 = 0)
    (hcols : data.length / 3 < 65536) :
    ∀ (f s : Nat), data.length - s ≤ f → s ≤ e → s % 3 = 0 →
      ∃ cmds : List Cmd, segLoop data 3 data.length f s = cmds.flatMap Cmd.encode
        ∧ (∀ c ∈ cmds, c.valid)
        ∧ cmds.flatMap Cmd.columns = (data.take e).drop s := by
  intro f
  induction f with
  | zero =>
    intro s hf hse _
    refine ⟨[], by simp [segLoop], by simp, ?_⟩
    have : s = e := by omega
    simp [this]
  | succ f ih =>
    intro s hf hse hs3
    by_cases hlt : s < data.length
    · rcases seg_step data e s _ _ ht hze hel hlen hse hs3 rfl rfl with
        ⟨hpl, hs⟩ | ⟨hpl, hsp, hp3, hzsp, hpq, hqe, hq3⟩
      · refine ⟨[], ?_, by simp, ?_⟩
        · simp only [segLoop, hlt, if_true]
          rw [if_pos hpl]
          rfl
        · simp [hs]
      · obtain ⟨cs, hcs, hvalid, hcols'⟩ := ih _ (by omega) hqe hq3
        generalize hpdef : segStart data 3 data.length (data.length - s) s = p at *
        generalize hqdef : (if segEnd data 3 data.length (data.length - p) p ≥ data.length
              then data.length else segEnd data 3 data.length (data.length - p) p) = q at *
        have hrun : ((data.drop p).take (q - p)).length = 3 * ((q - p) / 3) := by
          simp only [List.length_take, List.length_drop]
          omega
        have hout : dot24_output_run ((data.drop p).take (q - p))
            = (Cmd.run ((q - p) / 3) ((data.drop p).take (q - p))).encode := by
          simp only [dot24_output_run, Cmd.encode, hrun]
          rw [if_neg (by omega)]
          simp
        have hL : segLoop data 3 data.length (f + 1) s
            = (if (p - s) / 3 ≠ 0 then [27, 92, (p - s) / 3 % 256, (p - s) / 3 / 256 % 256]
                else [])
              ++ dot24_output_run ((data.drop p).take (q - p))
              ++ segLoop data 3 data.length f q := by
          simp only [segLoop, hlt, if_true, hpdef, hqdef]
          rw [if_neg (by omega)]
        have hsplit : (data.take e).drop s
            = List.replicate (p - s) 0 ++ ((data.drop p).take (q - p)
                ++ (data.take e).drop q) := by
          rw [take_drop_split data s p e hsp (by omega),
            slice_zero data s p hsp (by omega) hzsp,
            take_drop_split data p q e (by omega) hqe]
        have hvr : (Cmd.run ((q - p) / 3) ((data.drop p).take (q - p))).valid := by
          simp only [Cmd.valid]
          exact ⟨by omega, by omega, hrun⟩
        by_cases hrel : (p - s) / 3 ≠ 0
        · refine ⟨Cmd.move ((p - s) / 3)
            :: Cmd.run ((q - p) / 3) ((data.drop p).take (q - p)) :: cs, ?_, ?_, ?_⟩
          · rw [hL, if_pos hrel, hout, hcs]
            simp [Cmd.encode]
          · intro c hc
            rcases List.mem_cons.1 hc with h | h
            · subst h
              simp only [Cmd.valid]
              omega
            · rcases List.mem_cons.1 h with h | h
              · subst h; exact hvr
              · exact hvalid c h
          · rw [hsplit]
            simp only [List.flatMap_cons, Cmd.columns, hcols']
            rw [show 3 * ((p - s) / 3) = p - s by omega]
        · refine ⟨Cmd.run ((q - p) / 3) ((data.drop p).take (q - p)) :: cs, ?_, ?_, ?_⟩
          · rw [hL, if_neg hrel, hout, hcs]
            simp
          · intro c hc
            rcases List.mem_cons.1 hc with h | h
            · subst h; exact hvr
            · exact hvalid c h
          · rw [hsplit]
            simp only [List.flatMap_cons, Cmd.columns, hcols']
            rw [show p - s = 0 by omega]
            simp
    · refine ⟨[], ?_, by simp, ?_⟩
      · simp [segLoop, hlt]
      · have : s = e := by omega
        simp [this]


theorem filterLoop_length (data : List Nat) (count : Nat) (hc : count % 3 = 0) :
    ∀ (f i : Nat), i % 3 = 0 →
      (filterLoop data count f i).length % 3 = 0
        ∧ (filterLoop data count f i).length ≤ count - i := by
  intro f
  induction f with
  | zero => intro i _; simp [filterLoop]
  | succ f ih =>
    intro i hi
    by_cases hlt : i < count
    · obtain ⟨h1, h2⟩ := ih (i + 6) (by omega)
      simp only [filterLoop, hlt, if_true, List.cons_append, List.nil_append, List.length_cons]
      constructor <;> omega
    · simp [filterLoop, hlt]

theorem dot24_filter_bitmap_length (data : List Nat) (even : Bool) (hc : data.length % 3 = 0) :
    (dot24_filter_bitmap data even).length % 3 = 0
      ∧ (dot24_filter_bitmap data even).length ≤ data.length := by
  obtain ⟨h1, h2⟩ := filterLoop_length data data.length hc data.length
    (if even then 0 else 3) (by split <;> rfl)
  exact ⟨h1, le_trans h2 (Nat.sub_le _ _)⟩

theorem Cmd.encode_length_pos (c : Cmd) : 1 ≤ c.encode.length := by
  cases c <;> simp [Cmd.encode]

theorem encode_length_ge : ∀ cmds : List Cmd, cmds.length ≤ (cmds.flatMap Cmd.encode).length := by
  intro cmds
  induction cmds with
  | nil => simp
  | cons c cs ih =>
    have := Cmd.encode_length_pos c
    simp only [List.flatMap_cons, List.length_cons, List.length_append]
    omega

theorem BlockMode.rel_pos {x_high : Bool} {bpp : Nat} (h : BlockMode x_high bpp) :
    (bpp / 3) / (if x_high then 2 else 1) = 3 := by
  rcases h with ⟨h1, h2⟩ | ⟨h1, h2⟩ <;> subst h1 h2 <;> rfl

/-- The body of a block: the bytes `dot24_print_block` writes between its
position commands and the carriage return are the encoding of valid commands
whose dot-columns are the buffered data without its trailing blank
columns. -/
theorem dot24_print_block_body (pos : Nat) (blk : List Nat) (x_high print_even_dots : Bool)
    (bpp : Nat) (hmode : BlockMode x_high bpp) (hlen : blk.length % 3 = 0)
    (hcols : blk.length / 3 < 65536) :
    ∃ cmds : List Cmd,
      dot24_print_block pos blk x_high print_even_dots bpp
        = [27, 36, pos % 256, pos / 256 % 256]
          ++ (if !print_even_dots then [27, 42, 40, 1, 0, 0, 0, 0] else [])
          ++ cmds.flatMap Cmd.encode ++ [13]
      ∧ (∀ c ∈ cmds, c.valid)
      ∧ cmds.flatMap Cmd.columns
          = stripBlank (if x_high then dot24_filter_bitmap blk print_even_dots else blk) := by
  have hdata : ∀ data : List Nat, data.length % 3 = 0 → data.length / 3 < 65536 →
      ∃ cmds : List Cmd, segLoop data 3 data.length data.length 0 = cmds.flatMap Cmd.encode
        ∧ (∀ c ∈ cmds, c.valid) ∧ cmds.flatMap Cmd.columns = stripBlank data := by
    intro data h3 hc
    obtain ⟨cmds, h1, h2, h4⟩ := segLoop_cmds data _ (trimmed_of_band data h3)
      (trimEnd_zero_after data) (trimEnd_le data) h3 hc data.length 0 (by omega)
      (Nat.zero_le _) rfl
    exact ⟨cmds, h1, h2, by simpa [stripBlank] using h4⟩
  have hf := dot24_filter_bitmap_length blk print_even_dots hlen
  obtain ⟨cmds, h1, h2, h4⟩ :=
    hdata (if x_high then dot24_filter_bitmap blk print_even_dots else blk)
      (by split; exact hf.1; exact hlen)
      (by split
          · exact lt_of_le_of_lt (Nat.div_le_div_right hf.2) hcols
          · exact hcols)
  refine ⟨cmds, ?_, h2, h4⟩
  simp only [dot24_print_block, hmode.rel_pos, h1]

/-- C2: for a block whose length is a multiple of 3 with fewer than 65536
dot-columns, the bytes `dot24_print_block` writes after its absolute-position
command (and the phase command of the odd phase) read as relative moves and
graphics runs up to one final carriage return; the moves, as all-zero
dot-columns, and the data of the runs, concatenated in order, are the block
(its filtered columns when `x_high`) without trailing all-zero dot-columns;
every run carries exactly `3 * (lo + 256 * hi)` data bytes. -/
theorem dot24_print_block_reconstructs (pos : Nat) (blk : List Nat)
    (x_high print_even_dots : Bool) (bpp : Nat) (hmode : BlockMode x_high bpp)
    (hlen : blk.length % 3 = 0) (hcols : blk.length / 3 < 65536) :
    ∃ (body : List Nat) (cmds : List Cmd),
      dot24_print_block pos blk x_high print_even_dots bpp
        = [27, 36, pos % 256, pos / 256 % 256]
          ++ (if !print_even_dots then [27, 42, 40, 1, 0, 0, 0, 0] else [])
          ++ body ++ [13]
      ∧ readCmds (body.length + 1) (body ++ [13]) = (cmds, [13])
      ∧ cmds.flatMap Cmd.columns
          = stripBlank (if x_high then dot24_filter_bitmap blk print_even_dots else blk)
      ∧ ∀ n d, Cmd.run n d ∈ cmds → d.length = 3 * n := by
  obtain ⟨cmds, h1, h2, h3⟩ :=
    dot24_print_block_body pos blk x_high print_even_dots bpp hmode hlen hcols
  refine ⟨cmds.flatMap Cmd.encode, cmds, h1, ?_, h3, ?_⟩
  · exact readCmds_encode cmds _ (Nat.lt_succ_of_le (encode_length_ge cmds)) h2
  · intro n d hmem
    exact (h2 _ hmem).2.2

theorem dot24_print_block_reconstructs_witness :
    ∃ (body : List Nat) (cmds : List Cmd),
      dot24_print_block 5 [1, 0, 0, 0, 0, 0, 0, 0, 0, 0, 0, 0, 0, 0, 0, 0, 2, 0, 0, 0, 0]
          false true 9
        = [27, 36, 5 % 256, 5 / 256 % 256]
          ++ (if !true then [27, 42, 40, 1, 0, 0, 0, 0] else [])
          ++ body ++ [13]
      ∧ readCmds (body.length + 1) (body ++ [13]) = (cmds, [13])
      ∧ cmds.flatMap Cmd.columns
          = stripBlank (if false then
              dot24_filter_bitmap
                [1, 0, 0, 0, 0, 0, 0, 0, 0, 0, 0, 0, 0, 0, 0, 0, 2, 0, 0, 0, 0] true
            else [1, 0, 0, 0, 0, 0, 0, 0, 0, 0, 0, 0, 0, 0, 0, 0, 2, 0, 0, 0, 0])
      ∧ ∀ n d, Cmd.run n d ∈ cmds → d.length = 3 * n :=
  dot24_print_block_reconstructs 5
    [1, 0, 0, 0, 0, 0, 0, 0, 0, 0, 0, 0, 0, 0, 0, 0, 2, 0, 0, 0, 0] false true 9
    (Or.inl ⟨rfl, rfl⟩) (by decide) (by decide)


/-! ## Exact output of the segment loop on a buffer of known shape -/

theorem getD_slice (band : List Nat) (s n i : Nat) :
    ((band.drop s).take n).getD i 0 = if i < n then band.getD (s + i) 0 else 0 := by
  rw [List.getD_eq_getElem?_getD, List.getD_eq_getElem?_getD, List.getElem?_take]
  split
  · rw [List.getElem?_drop]
  · rfl

theorem zeroOn_slice (band : List Nat) (s n a b : Nat) (hb : b ≤ n) :
    zeroOn ((band.drop s).take n) a b ↔ zeroOn band (s + a) (s + b) := by
  constructor
  · intro h i h1 h2
    have := h (i - s) (by omega) (by omega)
    rw [getD_slice, if_pos (by omega)] at this
    rwa [show s + (i - s) = i by omega] at this
  · intro h i h1 h2
    rw [getD_slice, if_pos (by omega)]
    exact h (s + i) (by omega) (by omega)

theorem slice_slice (band : List Nat) (s n p q : Nat) (hq : q ≤ n) :
    (((band.drop s).take n).drop p).take (q - p) = (band.drop (s + p)).take (q - p) := by
  rw [List.drop_take, List.take_take, List.drop_drop]
  congr 1
  omega

theorem segLoop_done (data : List Nat) (len f s : Nat) (h : len ≤ s) :
    segLoop data 3 len f s = [] := by
  cases f with
  | zero => rfl
  | succ f =>
    have : ¬ s < len := by omega
    simp [segLoop, this]

/-- The segment loop writes nothing more once the rest of the buffer is
zero. -/
theorem segLoop_zero (data : List Nat) (f s : Nat) (hz : zeroOn data s data.length) :
    segLoop data 3 data.length f s = [] := by
  cases f with
  | zero => rfl
  | succ f =>
    by_cases hlt : s < data.length
    · obtain ⟨k, hk, _, hexit⟩ := fwdBlkStart_spec data 3 data.length s (by omega)
      have hp : data.length ≤ segStart data 3 data.length (data.length - s) s := by
        show data.length ≤ fwdBlkStart data 3 data.length (data.length - s) s
        rw [hk]
        rcases hexit with h | h
        · exact h
        · exact absurd (zeroOn_mono hz (by omega) (by omega)) h
      simp only [segLoop, hlt, if_true]
      rw [if_pos hp]
    · exact segLoop_done data _ _ s (by omega)

/-- One iteration of the segment loop on a buffer of known shape: after the
all-zero dot-columns `[s, p)` comes a run `[p, q)` in which every position is
followed, within 4 dot-columns, by a non-zero byte, and `q` is the end of the
buffer or is followed by 4 all-zero dot-columns.  The loop writes the
relative move over `[s, p)` (if not empty) and the graphics run `[p, q)`. -/
theorem seg_exact (data : List Nat) (f s p q : Nat) (hs3 : s % 3 = 0) (hp3 : p % 3 = 0)
    (hq3 : q % 3 = 0) (hsp : s ≤ p) (hpq : p < q) (hql : q ≤ data.length)
    (hzsp : zeroOn data s p) (hnzp : ¬ zeroOn data p (p + 3))
    (hrun : ∀ t, p ≤ t → t < q → t % 3 = 0 → ¬ zeroOn data t (min (t + 12) data.length))
    (hend : q = data.length ∨ zeroOn data q (min (q + 12) data.length)) :
    segLoop data 3 data.length (f + 1) s
      = (if (p - s) / 3 ≠ 0 then (Out.move ((p - s) / 3)).encode else [])
        ++ (Out.run ((data.drop p).take (q - p))).encode
        ++ segLoop data 3 data.length f q := by
  have hp : segStart data 3 data.length (data.length - s) s = p := by
    obtain ⟨k, hk, hz, hexit⟩ := fwdBlkStart_spec data 3 data.length s (by omega)
    show fwdBlkStart data 3 data.length (data.length - s) s = p
    rw [hk]
    obtain ⟨i, hi1, hi2, hi3⟩ := not_zeroOn_exists hnzp
    by_contra hne
    by_cases hlt : s + k * 3 < p
    · rcases hexit with h | h
      · omega
      · exact h (zeroOn_mono hzsp (by omega) (by omega))
    · exact hi3 (hz i (by omega) (by omega))
  have hq : (if segEnd data 3 data.length (data.length - p) p ≥ data.length
      then data.length else segEnd data 3 data.length (data.length - p) p) = q := by
    obtain ⟨k, hk, hbefore, hexit⟩ := segEnd_spec data data.length p
    rw [hk]
    have hge : q ≤ p + k * 3 := by
      by_contra hlt
      rcases hexit with h | h
      · omega
      · exact hrun (p + k * 3) (by omega) (by omega) (by omega) h
    have hle : p + k * 3 ≤ q := by
      by_contra hgt
      obtain ⟨h1, h2⟩ := hbefore ((q - p) / 3) (by omega)
      rw [show p + (q - p) / 3 * 3 = q by omega] at h1 h2
      rcases hend with h | h
      · omega
      · exact h2 h
    split <;> omega
  simp only [segLoop]
  rw [if_pos (by omega), hp, hq, if_neg (by omega)]
  simp only [Out.encode]


theorem zeroOn_cols (data : List Nat) (a b : Nat)
    (h : ∀ c, a ≤ c → c < b → zeroOn data (3 * c) (3 * c + 3)) :
    zeroOn data (3 * a) (3 * b) := by
  intro i h1 h2
  exact h (i / 3) (by omega) (by omega) i (by omega) (by omega)

theorem not_zeroOn_mono {data : List Nat} {a b a' b' : Nat} (h : ¬ zeroOn data a' b')
    (ha : a ≤ a') (hb : b' ≤ b) : ¬ zeroOn data a b :=
  fun hz => h (zeroOn_mono hz ha hb)

theorem TwoRuns.zero_before {band : List Nat} {a0 a1 b0 b1 : Nat}
    (h : TwoRuns band a0 a1 b0 b1) : zeroOn band 0 (3 * a0) := by
  have h01 := h.h01
  have h12 := h.h12
  have := zeroOn_cols band 0 a0 (fun c _ hc => h.blank c (by omega))
  simpa using this

theorem TwoRuns.zero_gap {band : List Nat} {a0 a1 b0 b1 : Nat}
    (h : TwoRuns band a0 a1 b0 b1) : zeroOn band (3 * a1) (3 * b0) := by
  have h01 := h.h01
  have h12 := h.h12
  exact zeroOn_cols band a1 b0 (fun c _ _ => h.blank c (by omega))

theorem TwoRuns.zero_after {band : List Nat} {a0 a1 b0 b1 : Nat}
    (h : TwoRuns band a0 a1 b0 b1) : zeroOn band (3 * b1) band.length := by
  have h01 := h.h01
  have h12 := h.h12
  have h23 := h.h23
  intro i h1 h2
  exact h.blank (i / 3) (by omega) i (by omega) (by omega)

theorem OneRun.lead_zero {data : List Nat} {a0 a1 : Nat}
    (h : OneRun data a0 a1) : zeroOn data 0 (3 * a0) := by
  have := zeroOn_cols data 0 a0 (fun c _ hc => h.blank c (by omega))
  simpa using this

theorem OneRun.tail_zero {data : List Nat} {a0 a1 : Nat}
    (h : OneRun data a0 a1) : zeroOn data (3 * a1) data.length := by
  have h01 := h.h01
  intro i h1 h2
  exact h.blank (i / 3) (by omega) i (by omega) (by omega)

/-- The segment loop on a buffer with one run of marked dot-columns: a
relative move over the leading blank columns (if any) and one graphics
run. -/
theorem segLoop_oneRun (data : List Nat) (a0 a1 : Nat) (h : OneRun data a0 a1) :
    segLoop data 3 data.length data.length 0
      = encodeOut ((if a0 ≠ 0 then [Out.move a0] else []) ++ [Out.run (columns data a0 a1)]) := by
  have hl := h.hlen
  have h01 := h.h01
  obtain ⟨f, hf⟩ : ∃ f, data.length = f + 1 := ⟨data.length - 1, by omega⟩
  conv_lhs => rw [show segLoop data 3 data.length data.length 0
    = segLoop data 3 data.length (f + 1) 0 by rw [← hf]]
  rw [seg_exact data f 0 (3 * a0) (3 * a1) rfl (by omega) (by omega) (Nat.zero_le _)
    (by omega) hl h.lead_zero (h.marked a0 (by omega))
    (by
      intro t h1 h2 h3
      have := h.marked (t / 3) (by omega)
      exact not_zeroOn_mono this (by omega) (by omega))
    (Or.inr (zeroOn_mono h.tail_zero (le_refl _) (by omega)))]
  rw [segLoop_zero data f (3 * a1) h.tail_zero]
  have e1 : (3 * a0 - 0) / 3 = a0 := by omega
  have e2 : 3 * a1 - 3 * a0 = 3 * (a1 - a0) := by omega
  rw [e1, e2]
  by_cases ha : a0 = 0 <;> simp [ha, encodeOut, columns]

/-- The segment loop on a buffer with two runs of marked dot-columns at
least 4 columns apart: two graphics runs joined by a relative move over the
gap. -/
theorem segLoop_twoRuns_far (data : List Nat) (a0 a1 b0 b1 : Nat)
    (h : TwoRuns data a0 a1 b0 b1) (hgap : 4 ≤ b0 - a1) :
    segLoop data 3 data.length data.length 0
      = encodeOut ((if a0 ≠ 0 then [Out.move a0] else [])
          ++ [Out.run (columns data a0 a1), Out.move (b0 - a1),
              Out.run (columns data b0 b1)]) := by
  have hl := h.hlen
  have h01 := h.h01
  have h12 := h.h12
  have h23 := h.h23
  obtain ⟨f, hf⟩ : ∃ f, data.length = f + 1 + 1 := ⟨data.length - 2, by omega⟩
  conv_lhs => rw [show segLoop data 3 data.length data.length 0
    = segLoop data 3 data.length (f + 1 + 1) 0 by rw [← hf]]
  rw [seg_exact data (f + 1) 0 (3 * a0) (3 * a1) rfl (by omega) (by omega) (Nat.zero_le _)
    (by omega) (by omega) h.zero_before (h.marked a0 (by omega))
    (by
      intro t h1 h2 h3
      have := h.marked (t / 3) (by omega)
      exact not_zeroOn_mono this (by omega) (by omega))
    (Or.inr (zeroOn_mono h.zero_gap (le_refl _) (by omega)))]
  rw [seg_exact data f (3 * a1) (3 * b0) (3 * b1) (by omega) (by omega) (by omega)
    (by omega) (by omega) hl h.zero_gap (h.marked b0 (by omega))
    (by
      intro t h1 h2 h3
      have := h.marked (t / 3) (by omega)
      exact not_zeroOn_mono this (by omega) (by omega))
    (Or.inr (zeroOn_mono h.zero_after (le_refl _) (by omega)))]
  rw [segLoop_zero data f (3 * b1) h.zero_after]
  have e1 : (3 * a0 - 0) / 3 = a0 := by omega
  have e2 : 3 * a1 - 3 * a0 = 3 * (a1 - a0) := by omega
  have e3 : (3 * b0 - 3 * a1) / 3 = b0 - a1 := by omega
  have e4 : 3 * b1 - 3 * b0 = 3 * (b1 - b0) := by omega
  have e5 : b0 - a1 ≠ 0 := by omega
  rw [e1, e2, e3, e4]
  by_cases ha : a0 = 0 <;> simp [ha, e5, encodeOut, columns]

/-- The segment loop on a buffer with two runs of marked dot-columns fewer
than 4 columns apart: one graphics run that spans both runs and the gap. -/
theorem segLoop_twoRuns_near (data : List Nat) (a0 a1 b0 b1 : Nat)
    (h : TwoRuns data a0 a1 b0 b1) (hgap : b0 - a1 < 4) :
    segLoop data 3 data.length data.length 0
      = encodeOut ((if a0 ≠ 0 then [Out.move a0] else [])
          ++ [Out.run (columns data a0 b1)]) := by
  have hl := h.hlen
  have h01 := h.h01
  have h12 := h.h12
  have h23 := h.h23
  obtain ⟨f, hf⟩ : ∃ f, data.length = f + 1 := ⟨data.length - 1, by omega⟩
  conv_lhs => rw [show segLoop data 3 data.length data.length 0
    = segLoop data 3 data.length (f + 1) 0 by rw [← hf]]
  rw [seg_exact data f 0 (3 * a0) (3 * b1) rfl (by omega) (by omega) (Nat.zero_le _)
    (by omega) hl h.zero_before (h.marked a0 (by omega))
    (by
      intro t h1 h2 h3
      by_cases hc : t / 3 < a1 ∨ b0 ≤ t / 3
      · have := h.marked (t / 3) (by omega)
        exact not_zeroOn_mono this (by omega) (by omega)
      · have := h.marked b0 (by omega)
        exact not_zeroOn_mono this (by omega) (by omega))
    (Or.inr (zeroOn_mono h.zero_after (le_refl _) (by omega)))]
  rw [segLoop_zero data f (3 * b1) h.zero_after]
  have e1 : (3 * a0 - 0) / 3 = a0 := by omega
  have e2 : 3 * b1 - 3 * a0 = 3 * (b1 - a0) := by omega
  rw [e1, e2]
  by_cases ha : a0 = 0 <;> simp [ha, encodeOut, columns]


/-! ## `dot24_print_line` on a band with two runs of marked dot-columns -/

theorem trimEnd_twoRuns (band : List Nat) (a0 a1 b0 b1 : Nat) (h : TwoRuns band a0 a1 b0 b1) :
    trimEnd band 0 band.length band.length = 3 * b1 := by
  obtain ⟨k, hk, hz, hlast⟩ := trimEnd_spec band band.length band.length (by omega)
  have hl3 := h.len3
  have hl := h.hlen
  have h01 := h.h01
  have h12 := h.h12
  have h23 := h.h23
  generalize trimEnd band 0 band.length band.length = r at *
  by_contra hne
  by_cases hlt : r < 3 * b1
  · exact h.marked (b1 - 1) (by omega) (zeroOn_mono hz (by omega) (by omega))
  · have hb := h.blank (r / 3 - 1) (by omega)
    apply hlast (by omega)
    exact ⟨hb _ (by omega) (by omega), hb _ (by omega) (by omega), hb _ (by omega) (by omega)⟩

/-- The block-start seek stops at the first aligned position whose bytes are
not all zero. -/
theorem fwdBlkStart_eq (buf : List Nat) (bpp e s p : Nat) (hbpp : 0 < bpp)
    (hs : bpp ∣ s) (hp : bpp ∣ p) (hsp : s ≤ p) (hpe : p < e)
    (hz : zeroOn buf s p) (hnz : ¬ zeroOn buf p (min (p + bpp) e)) :
    fwdBlkStart buf bpp e (e - s) s = p := by
  obtain ⟨k, hk, hzk, hexit⟩ := fwdBlkStart_spec buf bpp e s hbpp
  rw [hk]
  obtain ⟨i, hi1, hi2, hi3⟩ := not_zeroOn_exists hnz
  obtain ⟨c, rfl⟩ := hs
  obtain ⟨d, rfl⟩ := hp
  have hcd : c ≤ d := Nat.le_of_mul_le_mul_left hsp hbpp
  have e1 : bpp * c + k * bpp = bpp * (c + k) := by ring
  rw [e1] at hzk hexit ⊢
  congr 1
  by_contra hne
  by_cases hlt : c + k < d
  · have h1 : bpp * (c + k + 1) ≤ bpp * d := Nat.mul_le_mul_left bpp (by omega)
    have h2 : bpp * (c + k + 1) = bpp * (c + k) + bpp := by ring
    have h3 : bpp * c ≤ bpp * (c + k) := Nat.mul_le_mul_left bpp (by omega)
    rcases hexit with h | h
    · omega
    · exact h (zeroOn_mono hz (by omega) (by omega))
  · have h1 : bpp * (d + 1) ≤ bpp * (c + k) := Nat.mul_le_mul_left bpp (by omega)
    have h2 : bpp * (d + 1) = bpp * d + bpp := by ring
    exact hi3 (hzk i (by omega) (by omega))

/-- The block-end seek runs to the end of the trimmed band when no aligned
position after the block start is followed by a zero gap. -/
theorem fwdEndOf_full (buf : List Nat) (xres bpp e p : Nat) (hbpp : 0 < bpp)
    (hrun : ∀ j, p + bpp + j * bpp < e →
      ¬ zeroOn buf (p + bpp + j * bpp) (min (p + bpp + j * bpp + xres * 3 / 2) e)) :
    fwdEndOf buf xres bpp e p = e := by
  obtain ⟨k, hk, _, hexit⟩ := fwdBlkEnd_spec buf xres bpp e p hbpp
  simp only [fwdEndOf, hk]
  rcases hexit with h | h
  · split <;> omega
  · have : e ≤ p + bpp + k * bpp := by
      by_contra hlt
      exact hrun k (by omega) h
    split <;> omega

theorem fwdLoop_single (buf : List Nat) (xres bpp e s p : Nat) (hbpp : 0 < bpp)
    (hse : s < e) (hp : fwdBlkStart buf bpp e (e - s) s = p) (hpe : p < e)
    (hq : fwdEndOf buf xres bpp e p = e) :
    fwdLoop buf xres bpp e (e - s) s = [⟨p / bpp, p, e⟩] := by
  rw [fwdLoop_canon buf xres bpp e s hbpp, if_pos hse, hp, hq, if_neg (by omega),
    fwdLoop_done buf xres bpp e _ e (le_refl _)]

theorem columns_slice (band : List Nat) (c0 n a b : Nat) (hab : a ≤ b) (hc : c0 ≤ a)
    (hn : 3 * b ≤ 3 * c0 + n) :
    columns ((band.drop (3 * c0)).take n) (a - c0) (b - c0) = columns band a b := by
  simp only [columns]
  have h := slice_slice band (3 * c0) n (3 * (a - c0)) (3 * (b - c0)) (by omega)
  rw [show 3 * (b - c0) - 3 * (a - c0) = 3 * (b - c0 - (a - c0)) by omega] at h
  rw [h]
  congr 2
  · omega
  · omega

theorem zeroOn_full_slice (band : List Nat) (s n a b : Nat) :
    zeroOn band (s + a) (s + b) → zeroOn ((band.drop s).take n) a b := by
  intro h i h1 h2
  rw [getD_slice]
  split
  · exact h (s + i) (by omega) (by omega)
  · rfl

/-- The block from an aligned column `c0` at or before the first run to the
end of the second run holds the two runs, shifted by `c0`. -/
theorem slice_twoRuns (band : List Nat) (a0 a1 b0 b1 c0 : Nat) (h : TwoRuns band a0 a1 b0 b1)
    (hc : c0 ≤ a0) :
    TwoRuns ((band.drop (3 * c0)).take (3 * b1 - 3 * c0))
      (a0 - c0) (a1 - c0) (b0 - c0) (b1 - c0) := by
  have hl := h.hlen
  have h01 := h.h01
  have h12 := h.h12
  have h23 := h.h23
  refine ⟨?_, by omega, by omega, by omega, ?_, ?_, ?_⟩
  · simp only [List.length_take, List.length_drop]; omega
  · simp only [List.length_take, List.length_drop]; omega
  · intro c hcm
    rw [zeroOn_slice band _ _ _ _ (by omega)]
    have := h.marked (c + c0) (by omega)
    rwa [show 3 * c0 + 3 * c = 3 * (c + c0) by omega,
      show 3 * c0 + (3 * c + 3) = 3 * (c + c0) + 3 by omega]
  · intro c hcm
    apply zeroOn_full_slice
    have := h.blank (c + c0) (by omega)
    rwa [show 3 * c0 + 3 * c = 3 * (c + c0) by omega,
      show 3 * c0 + (3 * c + 3) = 3 * (c + c0) + 3 by omega]

/-- The block from an aligned column `c0` at or before the first run to a
column `cq` inside the gap holds the first run only. -/
theorem slice_first_run (band : List Nat) (a0 a1 b0 b1 c0 cq : Nat)
    (h : TwoRuns band a0 a1 b0 b1) (hc : c0 ≤ a0) (hq1 : a1 ≤ cq) (hq2 : cq ≤ b0) :
    OneRun ((band.drop (3 * c0)).take (3 * cq - 3 * c0)) (a0 - c0) (a1 - c0) := by
  have hl := h.hlen
  have h01 := h.h01
  have h12 := h.h12
  have h23 := h.h23
  refine ⟨?_, by omega, ?_, ?_, ?_⟩
  · simp only [List.length_take, List.length_drop]; omega
  · simp only [List.length_take, List.length_drop]; omega
  · intro c hcm
    rw [zeroOn_slice band _ _ _ _ (by omega)]
    have := h.marked (c + c0) (by omega)
    rwa [show 3 * c0 + 3 * c = 3 * (c + c0) by omega,
      show 3 * c0 + (3 * c + 3) = 3 * (c + c0) + 3 by omega]
  · intro c hcm
    by_cases hcq : c + c0 < cq
    · apply zeroOn_full_slice
      have := h.blank (c + c0) (by omega)
      rwa [show 3 * c0 + 3 * c = 3 * (c + c0) by omega,
        show 3 * c0 + (3 * c + 3) = 3 * (c + c0) + 3 by omega]
    · intro i h1 h2
      rw [getD_slice, if_neg (by omega)]

/-- The block from an aligned column `c2` inside the gap, or at the start of
the second run, to the end of the second run holds the second run only. -/
theorem slice_second_run (band : List Nat) (a0 a1 b0 b1 c2 : Nat)
    (h : TwoRuns band a0 a1 b0 b1) (hc1 : a1 ≤ c2) (hc2 : c2 ≤ b0) :
    OneRun ((band.drop (3 * c2)).take (3 * b1 - 3 * c2)) (b0 - c2) (b1 - c2) := by
  have hl := h.hlen
  have h01 := h.h01
  have h12 := h.h12
  have h23 := h.h23
  refine ⟨?_, by omega, ?_, ?_, ?_⟩
  · simp only [List.length_take, List.length_drop]; omega
  · simp only [List.length_take, List.length_drop]; omega
  · intro c hcm
    rw [zeroOn_slice band _ _ _ _ (by omega)]
    have := h.marked (c + c2) (by omega)
    rwa [show 3 * c2 + 3 * c = 3 * (c + c2) by omega,
      show 3 * c2 + (3 * c + 3) = 3 * (c + c2) + 3 by omega]
  · intro c hcm
    apply zeroOn_full_slice
    have := h.blank (c + c2) (by omega)
    rwa [show 3 * c2 + 3 * c = 3 * (c + c2) by omega,
      show 3 * c2 + (3 * c + 3) = 3 * (c + c2) + 3 by omega]

/-- The bytes of `dot24_print_block` without horizontal doubling. -/
theorem dot24_print_block_low (pos : Nat) (blk : List Nat) (ped : Bool) :
    dot24_print_block pos blk false ped 9
      = encodeOut ([Out.pos pos] ++ (if ped then [] else [Out.phase]))
        ++ segLoop blk 3 blk.length blk.length 0 ++ encodeOut [Out.cr] := by
  cases ped <;> simp [dot24_print_block, encodeOut, Out.encode]


theorem twoRuns_first_start (band : List Nat) (xres bpp a0 a1 b0 b1 : Nat)
    (hmode : Mode xres bpp) (h : TwoRuns band a0 a1 b0 b1) :
    fwdBlkStart band bpp (3 * b1) (3 * b1 - 0) 0 = 3 * a0 / bpp * bpp
      ∧ 3 * a0 / bpp * bpp ≤ 3 * a0 ∧ 3 * a0 + 3 ≤ 3 * a0 / bpp * bpp + bpp
      ∧ 3 * a0 / bpp * bpp % 3 = 0 := by
  have hb := hmode.bpp_cases
  have hbpp := hmode.bpp_pos
  have h01 := h.h01
  have h12 := h.h12
  have h23 := h.h23
  have harith : 3 * a0 / bpp * bpp ≤ 3 * a0 ∧ 3 * a0 + 3 ≤ 3 * a0 / bpp * bpp + bpp
      ∧ 3 * a0 / bpp * bpp % 3 = 0 := by
    rcases hb with rfl | rfl <;> omega
  refine ⟨?_, harith⟩
  apply fwdBlkStart_eq band bpp (3 * b1) 0 _ hbpp (dvd_zero _) (Dvd.intro_left _ rfl)
    (Nat.zero_le _) (by omega) (zeroOn_mono h.zero_before (le_refl _) (by omega))
  exact not_zeroOn_mono (h.marked a0 (by omega)) (by omega) (by omega)

/-- Blocks of a band with two runs less than `xres * 3 / 2` bytes apart: one
block, from the position that holds the first marked dot-column to the end
of the last one. -/
theorem twoRuns_blocks_near (band : List Nat) (xres bpp a0 a1 b0 b1 : Nat)
    (hmode : Mode xres bpp) (h : TwoRuns band a0 a1 b0 b1)
    (hgap : 3 * (b0 - a1) < xres * 3 / 2) :
    dot24_print_line_blocks band xres bpp
      = [⟨3 * a0 / bpp, 3 * a0 / bpp * bpp, 3 * b1⟩] := by
  have hb := hmode.bpp_cases
  have hbpp := hmode.bpp_pos
  have hg := hmode.gap_eq
  have h01 := h.h01
  have h12 := h.h12
  have h23 := h.h23
  obtain ⟨hs, hs1, hs2, hs3⟩ := twoRuns_first_start band xres bpp a0 a1 b0 b1 hmode h
  simp only [dot24_print_line_blocks, trimEnd_twoRuns band a0 a1 b0 b1 h]
  have hq : fwdEndOf band xres bpp (3 * b1) (3 * a0 / bpp * bpp) = 3 * b1 := by
    apply fwdEndOf_full band xres bpp (3 * b1) _ hbpp
    intro j hj
    rw [hg] at hgap ⊢
    generalize ht : 3 * a0 / bpp * bpp + bpp + j * bpp = t at *
    have ht3 : t % 3 = 0 := by rcases hb with rfl | rfl <;> omega
    by_cases hc : t / 3 < a1 ∨ b0 ≤ t / 3
    · exact not_zeroOn_mono (h.marked (t / 3) (by omega)) (by omega)
        (by rcases hb with rfl | rfl <;> omega)
    · exact not_zeroOn_mono (h.marked b0 (by omega)) (by omega)
        (by rcases hb with rfl | rfl <;> omega)
  have := fwdLoop_single band xres bpp (3 * b1) 0 _ hbpp (by omega) hs (by omega) hq
  simp only [Nat.sub_zero] at this
  rw [this]
  congr 2
  exact Nat.mul_div_cancel _ hbpp

theorem encodeOut_append (x y : List Out) : encodeOut (x ++ y) = encodeOut x ++ encodeOut y := by
  simp [encodeOut]

/-- C7 as stated fails: at 180 dpi two marks 5 dot-columns apart (a gap of 12
zero bytes, below the threshold of 270) are written as two graphics runs
joined by a relative move, not as one; and at 360 dpi two marks in odd
columns are not written at all in the even phase. -/
theorem two_near_marks_not_one_run :
    readOut 10 (dot24_print_line [1, 0, 0, 0, 0, 0, 0, 0, 0, 0, 0, 0, 0, 0, 0, 1, 0, 0]
        false true 180 9)
      = ([Out.pos 0, Out.run [1, 0, 0], Out.move 4, Out.run [1, 0, 0], Out.cr], [])
    ∧ countRuns (readOut 10
        (dot24_print_line [1, 0, 0, 0, 0, 0, 0, 0, 0, 0, 0, 0, 0, 0, 0, 1, 0, 0]
          false true 180 9)).1 ≠ 1
    ∧ readOut 10 (dot24_print_line [0, 0, 0, 1, 0, 0, 0, 0, 0, 1, 0, 0] true true 360 18)
      = ([Out.pos 0, Out.cr], [])
    ∧ countRuns (readOut 10
        (dot24_print_line [0, 0, 0, 1, 0, 0, 0, 0, 0, 1, 0, 0] true true 360 18)).1 ≠ 1 := by
  refine ⟨by decide, by decide, by decide, by decide⟩

/-- C7, amended: for a band with exactly two runs of non-blank dot-columns
less than `xres * 3 / 2` bytes apart, `dot24_print_line` makes one call of
`dot24_print_block` (one absolute-position command) for a block that spans
both runs and the gap; at 180 dpi that block is written as one graphics run
spanning both runs and the gap when the gap is shorter than 4 dot-columns,
and as two graphics runs joined by one relative move over the gap
otherwise. -/
theorem dot24_print_line_two_near (band : List Nat) (xres bpp a0 a1 b0 b1 : Nat)
    (hmode : Mode xres bpp) (h : TwoRuns band a0 a1 b0 b1)
    (hgap : 3 * (b0 - a1) < xres * 3 / 2) :
    dot24_print_line_blocks band xres bpp = [⟨3 * a0 / bpp, 3 * a0 / bpp * bpp, 3 * b1⟩]
    ∧ (xres = 180 → ∀ ped : Bool,
        dot24_print_line band false ped xres bpp
          = encodeOut ([Out.pos (a0 / 3)] ++ (if ped then [] else [Out.phase])
              ++ (if a0 % 3 ≠ 0 then [Out.move (a0 % 3)] else [])
              ++ (if b0 - a1 < 4 then [Out.run (columns band a0 b1)]
                  else [Out.run (columns band a0 a1), Out.move (b0 - a1),
                        Out.run (columns band b0 b1)])
              ++ [Out.cr])) := by
  have hblocks := twoRuns_blocks_near band xres bpp a0 a1 b0 b1 hmode h hgap
  refine ⟨hblocks, ?_⟩
  intro hx ped
  have hbpp9 : bpp = 9 := by
    rcases hmode with ⟨_, h2⟩ | ⟨h1, _⟩
    · exact h2
    · omega
  subst hx hbpp9
  have h01 := h.h01
  have h12 := h.h12
  have h23 := h.h23
  have hs : 3 * a0 / 9 * 9 = 3 * (a0 / 3 * 3) := by omega
  have hc0 : a0 / 3 * 3 ≤ a0 := by omega
  have hshape := slice_twoRuns band a0 a1 b0 b1 (a0 / 3 * 3) h hc0
  have hlenblk : 3 * (a0 / 3 * 3) + (3 * b1 - 3 * (a0 / 3 * 3)) = 3 * b1 := by omega
  simp only [dot24_print_line, hblocks, emitBlocks, List.flatMap_cons, List.flatMap_nil,
    List.append_nil, hs]
  rw [dot24_print_block_low]
  rw [show 3 * a0 / 9 = a0 / 3 by omega]
  have hm : a0 - a0 / 3 * 3 = a0 % 3 := by omega
  have hgp : b0 - a0 / 3 * 3 - (a1 - a0 / 3 * 3) = b0 - a1 := by omega
  by_cases hnear : b0 - a1 < 4
  · rw [segLoop_twoRuns_near _ _ _ _ _ hshape (by omega),
      columns_slice band _ _ a0 b1 (by omega) hc0 (by omega), hm]
    simp only [hnear, if_true, encodeOut_append, List.append_assoc]
  · rw [segLoop_twoRuns_far _ _ _ _ _ hshape (by omega),
      columns_slice band _ _ a0 a1 (by omega) hc0 (by omega),
      columns_slice band _ _ b0 b1 (by omega) (by omega) (by omega), hm, hgp]
    simp only [hnear, if_false, encodeOut_append, List.append_assoc]

theorem dot24_print_line_two_near_witness :
    dot24_print_line_blocks [1, 0, 0, 0, 0, 0, 0, 0, 0, 0, 0, 0, 0, 0, 0, 1, 0, 0] 180 9
      = [⟨3 * 0 / 9, 3 * 0 / 9 * 9, 3 * 6⟩]
    ∧ ((180 : Nat) = 180 → ∀ ped : Bool,
        dot24_print_line [1, 0, 0, 0, 0, 0, 0, 0, 0, 0, 0, 0, 0, 0, 0, 1, 0, 0] false ped 180 9
          = encodeOut ([Out.pos (0 / 3)] ++ (if ped then [] else [Out.phase])
              ++ (if 0 % 3 ≠ 0 then [Out.move (0 % 3)] else [])
              ++ (if 5 - 1 < 4 then
                    [Out.run (columns [1, 0, 0, 0, 0, 0, 0, 0, 0, 0, 0, 0, 0, 0, 0, 1, 0, 0] 0 6)]
                  else [Out.run (columns [1, 0, 0, 0, 0, 0, 0, 0, 0, 0, 0, 0, 0, 0, 0, 1, 0, 0] 0 1),
                        Out.move (5 - 1),
                        Out.run
                          (columns [1, 0, 0, 0, 0, 0, 0, 0, 0, 0, 0, 0, 0, 0, 0, 1, 0, 0] 5 6)])
              ++ [Out.cr])) :=
  dot24_print_line_two_near [1, 0, 0, 0, 0, 0, 0, 0, 0, 0, 0, 0, 0, 0, 0, 1, 0, 0] 180 9
    0 1 5 6 (Or.inl ⟨rfl, rfl⟩)
    ⟨by decide, by decide, by decide, by decide, by decide,
      by
        intro c hc
        have : c = 0 ∨ c = 5 := by omega
        rcases this with rfl | rfl
        · intro hz; exact absurd (hz 0 (by omega) (by omega)) (by decide)
        · intro hz; exact absurd (hz 15 (by omega) (by omega)) (by decide),
      by
        intro c hc i h1 h2
        have hi : i < 18 ∨ 18 ≤ i := by omega
        rcases hi with hi | hi
        · have : i = 3 ∨ i = 4 ∨ i = 5 ∨ i = 6 ∨ i = 7 ∨ i = 8 ∨ i = 9 ∨ i = 10 ∨ i = 11
              ∨ i = 12 ∨ i = 13 ∨ i = 14 := by omega
          rcases this with h | h | h | h | h | h | h | h | h | h | h | h <;> subst h <;> rfl
        · rw [List.getD_eq_getElem?_getD, List.getElem?_eq_none (by simpa using hi)]
          rfl⟩
    (by decide)


/-- Blocks of a band with two runs more than `xres * 3 / 2` bytes apart: one
block spanning both runs, or two blocks split at an aligned offset `q` of the
gap, the second starting at the position that holds the first marked
dot-column of the second run. -/
theorem twoRuns_blocks_far (band : List Nat) (xres bpp a0 a1 b0 b1 : Nat)
    (hmode : Mode xres bpp) (h : TwoRuns band a0 a1 b0 b1) :
    dot24_print_line_blocks band xres bpp
        = [⟨3 * a0 / bpp, 3 * a0 / bpp * bpp, 3 * b1⟩]
    ∨ ∃ q, 3 * a1 ≤ q ∧ q ≤ 3 * b0 ∧ q % 3 = 0
        ∧ dot24_print_line_blocks band xres bpp
          = [⟨3 * a0 / bpp, 3 * a0 / bpp * bpp, q⟩,
             ⟨3 * b0 / bpp, 3 * b0 / bpp * bpp, 3 * b1⟩] := by
  have hb := hmode.bpp_cases
  have hbpp := hmode.bpp_pos
  have hg := hmode.gap_eq
  have h01 := h.h01
  have h12 := h.h12
  have h23 := h.h23
  obtain ⟨hs, hs1, hs2, hs3⟩ := twoRuns_first_start band xres bpp a0 a1 b0 b1 hmode h
  have he := trimEnd_twoRuns band a0 a1 b0 b1 h
  have htrim : Trimmed band (3 * b1) := by
    have := trimmed_of_band band h.len3
    rwa [he] at this
  obtain ⟨-, -, -, -, hpq, hqle, -, -, hq⟩ :=
    back_block band xres bpp (3 * b1) 0 _ _ hmode htrim (dvd_zero _) (by omega) (Or.inl rfl)
      rfl rfl
  rw [hs] at hpq hqle hq
  simp only [dot24_print_line_blocks, he]
  have hpos : 3 * a0 / bpp * bpp / bpp = 3 * a0 / bpp := Nat.mul_div_cancel _ hbpp
  have hcanon := fwdLoop_canon band xres bpp (3 * b1) 0 hbpp
  rw [if_pos (by omega), hs, if_neg (by omega), hpos] at hcanon
  simp only [Nat.sub_zero] at hcanon
  rw [hcanon]
  generalize fwdEndOf band xres bpp (3 * b1) (3 * a0 / bpp * bpp) = q at *
  by_cases hqe : q < 3 * b1
  · right
    obtain ⟨hdq, hzq⟩ := hq hqe
    rw [hg] at hzq
    have hq3 : q % 3 = 0 := by rcases hb with rfl | rfl <;> omega
    have hqlow : 3 * a0 + 3 ≤ q := by rcases hb with rfl | rfl <;> omega
    have hqa : 3 * a1 ≤ q := by
      by_contra hlt
      exact h.marked (q / 3) (by omega) (zeroOn_mono hzq (by omega)
        (by rcases hb with rfl | rfl <;> omega))
    have hqb : q ≤ 3 * b0 := by
      by_contra hgt
      exact h.marked (q / 3) (by omega) (zeroOn_mono hzq (by omega)
        (by rcases hb with rfl | rfl <;> omega))
    refine ⟨q, hqa, hqb, hq3, ?_⟩
    have hs2 : fwdBlkStart band bpp (3 * b1) (3 * b1 - q) q = 3 * b0 / bpp * bpp := by
      apply fwdBlkStart_eq band bpp (3 * b1) q _ hbpp hdq (Dvd.intro_left _ rfl)
        (by rcases hb with rfl | rfl <;> omega) (by rcases hb with rfl | rfl <;> omega)
        (zeroOn_mono h.zero_gap (by omega) (by rcases hb with rfl | rfl <;> omega))
      exact not_zeroOn_mono (h.marked b0 (by omega))
        (by rcases hb with rfl | rfl <;> omega) (by rcases hb with rfl | rfl <;> omega)
    have hq2 : fwdEndOf band xres bpp (3 * b1) (3 * b0 / bpp * bpp) = 3 * b1 := by
      apply fwdEndOf_full band xres bpp (3 * b1) _ hbpp
      intro j hj
      rw [hg]
      generalize ht : 3 * b0 / bpp * bpp + bpp + j * bpp = t at *
      have ht3 : t % 3 = 0 := by rcases hb with rfl | rfl <;> omega
      exact not_zeroOn_mono (h.marked (t / 3) (by rcases hb with rfl | rfl <;> omega))
        (by omega) (by rcases hb with rfl | rfl <;> omega)
    rw [fwdLoop_single band xres bpp (3 * b1) q _ hbpp hqe hs2
      (by rcases hb with rfl | rfl <;> omega) hq2]
    rw [Nat.mul_div_cancel _ hbpp]
  · left
    have : q = 3 * b1 := by omega
    rw [this, fwdLoop_done band xres bpp (3 * b1) _ (3 * b1) (le_refl _)]

/-- The block-end seek of `dot24_print_line` stops at the latest at the first
aligned offset followed by a zero gap. -/
theorem fwdEndOf_le_of_zero (buf : List Nat) (xres bpp e p j : Nat) (hbpp : 0 < bpp)
    (hz : zeroOn buf (p + bpp + j * bpp) (min (p + bpp + j * bpp + xres * 3 / 2) e)) :
    fwdEndOf buf xres bpp e p ≤ p + bpp + j * bpp := by
  obtain ⟨k, hk, hbefore, _⟩ := fwdBlkEnd_spec buf xres bpp e p hbpp
  have hkj : k ≤ j := by
    by_contra hlt
    exact (hbefore j (by omega)).2 hz
  have hmul : k * bpp ≤ j * bpp := Nat.mul_le_mul_right bpp hkj
  simp only [fwdEndOf, hk]
  split <;> omega

/-- Blocks of a band with two runs at least `xres * 3 / 2 + bytes_per_pos - 3`
bytes apart: the aligned offset at or after the end of the first run is
followed by `xres * 3 / 2` zero bytes, so the first block ends in the gap and
the second run gets a block of its own. -/
theorem twoRuns_blocks_split (band : List Nat) (xres bpp a0 a1 b0 b1 : Nat)
    (hmode : Mode xres bpp) (h : TwoRuns band a0 a1 b0 b1)
    (hgap : xres * 3 / 2 + bpp ≤ 3 * (b0 - a1) + 3) :
    ∃ q, 3 * a1 ≤ q ∧ q ≤ 3 * b0 ∧ q % 3 = 0
      ∧ dot24_print_line_blocks band xres bpp
        = [⟨3 * a0 / bpp, 3 * a0 / bpp * bpp, q⟩,
           ⟨3 * b0 / bpp, 3 * b0 / bpp * bpp, 3 * b1⟩] := by
  rcases twoRuns_blocks_far band xres bpp a0 a1 b0 b1 hmode h with h1 | h2
  · exfalso
    have hb := hmode.bpp_cases
    have hbpp := hmode.bpp_pos
    have hg := hmode.gap_eq
    have h01 := h.h01
    have h12 := h.h12
    have h23 := h.h23
    obtain ⟨hs, hs1, hs2, hs3⟩ := twoRuns_first_start band xres bpp a0 a1 b0 b1 hmode h
    have he := trimEnd_twoRuns band a0 a1 b0 b1 h
    have hcanon := fwdLoop_canon band xres bpp (3 * b1) 0 hbpp
    rw [if_pos (by omega), hs, if_neg (by omega)] at hcanon
    simp only [Nat.sub_zero] at hcanon
    simp only [dot24_print_line_blocks, he] at h1
    rw [hcanon] at h1
    have hq : fwdEndOf band xres bpp (3 * b1) (3 * a0 / bpp * bpp) = 3 * b1 := by
      have := (List.cons.inj h1).1
      simp only [Block.mk.injEq] at this
      exact this.2.2
    have hle : ∃ j, 3 * a0 / bpp * bpp + bpp + j * bpp < 3 * b0
        ∧ 3 * a1 ≤ 3 * a0 / bpp * bpp + bpp + j * bpp
        ∧ 3 * a0 / bpp * bpp + bpp + j * bpp + xres * 3 / 2 ≤ 3 * b0 := by
      rw [hg] at hgap ⊢
      rcases hb with rfl | rfl
      · exact ⟨((3 * a1 + 8) / 9 * 9 - 3 * a0 / 9 * 9 - 9) / 9, by omega, by omega, by omega⟩
      · exact ⟨((3 * a1 + 17) / 18 * 18 - 3 * a0 / 18 * 18 - 18) / 18, by omega, by omega,
          by omega⟩
    obtain ⟨j, hj1, hj2, hj3⟩ := hle
    have hz : zeroOn band (3 * a0 / bpp * bpp + bpp + j * bpp)
        (min (3 * a0 / bpp * bpp + bpp + j * bpp + xres * 3 / 2) (3 * b1)) :=
      zeroOn_mono h.zero_gap hj2 (by omega)
    have := fwdEndOf_le_of_zero band xres bpp (3 * b1) (3 * a0 / bpp * bpp) j hbpp hz
    omega
  · exact h2

set_option maxRecDepth 1000000 in
set_option maxHeartbeats 4000000 in
/-- C8 as stated fails: at 180 dpi two marks 93 dot-columns apart (a gap of
276 zero bytes, above the threshold of 270) are written as two graphics runs
in two blocks with no relative move between them; two marks 92 dot-columns
apart (a gap of 273 zero bytes, also above the threshold) are kept in one
block, because no aligned offset of the gap is followed by 270 zero bytes;
and at 360 dpi two marks in odd columns 186 columns apart are not written at
all in the even phase. -/
theorem two_far_marks_not_one_move :
    readOut 10 (dot24_print_line ([1, 0, 0] ++ List.replicate 276 0 ++ [1, 0, 0])
        false true 180 9)
      = ([Out.pos 0, Out.run [1, 0, 0], Out.cr, Out.pos 31, Out.run [1, 0, 0], Out.cr], [])
    ∧ dot24_print_line_blocks ([1, 0, 0] ++ List.replicate 273 0 ++ [1, 0, 0]) 180 9
      = [⟨0, 0, 279⟩]
    ∧ readOut 10 (dot24_print_line ([0, 0, 0, 1, 0, 0] ++ List.replicate 555 0 ++ [1, 0, 0])
        true true 360 18)
      = ([Out.pos 0, Out.cr, Out.pos 31, Out.cr], []) := by
  refine ⟨by decide, by decide, by decide⟩

/-- C8, amended: for a band with exactly two runs of non-blank dot-columns
separated by a zero gap of at least `xres * 3 / 2 + bytes_per_pos - 3` bytes
(276 at 180 dpi, 555 at 360 dpi), `dot24_print_line` makes two calls of
`dot24_print_block`: the first block ends inside the gap and the second
starts at the position that holds the first dot-column of the second run; at
180 dpi its output contains exactly two graphics runs, one per run of
dot-columns, and between them stand the carriage return of the first block
and the absolute-position command of the second, followed by a relative move
only when the second run does not start on a position boundary. -/
theorem dot24_print_line_two_far (band : List Nat) (xres bpp a0 a1 b0 b1 : Nat)
    (hmode : Mode xres bpp) (h : TwoRuns band a0 a1 b0 b1)
    (hgap : xres * 3 / 2 + bpp ≤ 3 * (b0 - a1) + 3) :
    (∃ q, 3 * a1 ≤ q ∧ q ≤ 3 * b0
        ∧ dot24_print_line_blocks band xres bpp
          = [⟨3 * a0 / bpp, 3 * a0 / bpp * bpp, q⟩,
             ⟨3 * b0 / bpp, 3 * b0 / bpp * bpp, 3 * b1⟩])
    ∧ (xres = 180 → ∀ ped : Bool,
        dot24_print_line band false ped xres bpp
          = encodeOut ([Out.pos (a0 / 3)] ++ (if ped then [] else [Out.phase])
              ++ (if a0 % 3 ≠ 0 then [Out.move (a0 % 3)] else [])
              ++ [Out.run (columns band a0 a1)]
              ++ [Out.cr, Out.pos (b0 / 3)] ++ (if ped then [] else [Out.phase])
              ++ (if b0 % 3 ≠ 0 then [Out.move (b0 % 3)] else [])
              ++ [Out.run (columns band b0 b1), Out.cr])) := by
  obtain ⟨q, hq1, hq2, hq3, hq4⟩ := twoRuns_blocks_split band xres bpp a0 a1 b0 b1 hmode h hgap
  refine ⟨⟨q, hq1, hq2, hq4⟩, ?_⟩
  intro hx ped
  have hbpp9 : bpp = 9 := by
    rcases hmode with ⟨_, h2⟩ | ⟨h1, _⟩
    · exact h2
    · omega
  subst hx hbpp9
  have h01 := h.h01
  have h12 := h.h12
  have h23 := h.h23
  have hs : 3 * a0 / 9 * 9 = 3 * (a0 / 3 * 3) := by omega
  have hc0 : a0 / 3 * 3 ≤ a0 := by omega
  have hm : a0 - a0 / 3 * 3 = a0 % 3 := by omega
  have hs' : 3 * b0 / 9 * 9 = 3 * (b0 / 3 * 3) := by omega
  have hq' : q = 3 * (q / 3) := by omega
  have hshape1 := slice_first_run band a0 a1 b0 b1 (a0 / 3 * 3) (q / 3) h hc0 (by omega)
    (by omega)
  have hshape2 := slice_second_run band a0 a1 b0 b1 (b0 / 3 * 3) h (by omega) (by omega)
  have hm2 : b0 - b0 / 3 * 3 = b0 % 3 := by omega
  simp only [dot24_print_line, hq4, emitBlocks, List.flatMap_cons, List.flatMap_nil,
    List.append_nil, hs, hs']
  rw [dot24_print_block_low, dot24_print_block_low, show 3 * a0 / 9 = a0 / 3 by omega,
    show 3 * b0 / 9 = b0 / 3 by omega]
  conv_lhs => rw [hq']
  rw [segLoop_oneRun _ _ _ hshape1, segLoop_oneRun _ _ _ hshape2,
    columns_slice band _ _ a0 a1 (by omega) hc0 (by omega),
    columns_slice band _ _ b0 b1 (by omega) (by omega) (by omega), hm, hm2]
  simp only [encodeOut_append, List.append_assoc, List.singleton_append, List.cons_append,
    List.nil_append]
  simp [encodeOut]

set_option maxRecDepth 1000000 in
/-- Two marks 102 dot-columns apart at 180 dpi, the first in dot-column 1:
the second block starts at position 34 and, the second mark being in
dot-column 103, opens with a relative move over one dot-column. -/
theorem dot24_print_line_two_far_witness :
    180 * 3 / 2 + 9 ≤ 3 * (103 - 2) + 3
    ∧ (∃ q, 3 * 2 ≤ q ∧ q ≤ 3 * 103
        ∧ dot24_print_line_blocks
            ([0, 0, 0, 1, 0, 0] ++ List.replicate 303 0 ++ [1, 0, 0]) 180 9
          = [⟨3 * 1 / 9, 3 * 1 / 9 * 9, q⟩, ⟨3 * 103 / 9, 3 * 103 / 9 * 9, 3 * 104⟩])
    ∧ ((180 : Nat) = 180 → ∀ ped : Bool,
        dot24_print_line ([0, 0, 0, 1, 0, 0] ++ List.replicate 303 0 ++ [1, 0, 0])
            false ped 180 9
          = encodeOut ([Out.pos (1 / 3)] ++ (if ped then [] else [Out.phase])
              ++ (if 1 % 3 ≠ 0 then [Out.move (1 % 3)] else [])
              ++ [Out.run (columns
                    ([0, 0, 0, 1, 0, 0] ++ List.replicate 303 0 ++ [1, 0, 0]) 1 2)]
              ++ [Out.cr, Out.pos (103 / 3)] ++ (if ped then [] else [Out.phase])
              ++ (if 103 % 3 ≠ 0 then [Out.move (103 % 3)] else [])
              ++ [Out.run (columns
                    ([0, 0, 0, 1, 0, 0] ++ List.replicate 303 0 ++ [1, 0, 0]) 103 104),
                  Out.cr])) :=
  ⟨by decide,
    dot24_print_line_two_far ([0, 0, 0, 1, 0, 0] ++ List.replicate 303 0 ++ [1, 0, 0])
      180 9 1 2 103 104 (Or.inl ⟨rfl, rfl⟩)
      ⟨by decide, by decide, by decide, by decide, by decide,
        by
          intro c hc
          have : c = 1 ∨ c = 103 := by omega
          rcases this with rfl | rfl
          · intro hz; exact absurd (hz 3 (by omega) (by omega)) (by decide)
          · intro hz
            have h0 := hz 309 (by omega) (by omega)
            rw [List.getD_eq_getElem?_getD,
              List.getElem?_append_right (by simp)] at h0
            simp at h0,
        by
          intro c hc i h1 h2
          have hi2 : i < 3 ∨ (6 ≤ i ∧ i < 309) ∨ 312 ≤ i := by omega
          rw [List.getD_eq_getElem?_getD]
          rcases hi2 with hi2 | hi2 | hi2
          · rw [List.getElem?_append_left (by simp; omega),
              List.getElem?_append_left (by simp; omega)]
            have : i = 0 ∨ i = 1 ∨ i = 2 := by omega
            rcases this with rfl | rfl | rfl <;> rfl
          · rw [List.getElem?_append_left (by simp; omega),
              List.getElem?_append_right (by simp; omega)]
            simp only [List.length_cons, List.length_nil, List.getElem?_replicate]
            rw [if_pos (by omega)]
            rfl
          · rw [List.getElem?_eq_none (by simp; omega)]
            rfl⟩
      (by decide)⟩


/-! ## Band assembly: which page row each slot holds -/

theorem slot_assembleBand (fetch : Fetch) (ls : Nat) (yh : Bool) (lnum : Int) (k : Nat)
    (hk : k < (bandLines yh lnum).length) :
    slot (assembleBand fetch ls yh lnum) ls k
      = fetchRow fetch ls ((bandLines yh lnum).getD k 0) := by
  unfold slot
  rw [Nat.mul_comm]
  exact assembleBand_slot fetch ls yh lnum k hk

theorem assembleBand_length (fetch : Fetch) (ls : Nat) (yh : Bool) (lnum : Int) :
    (assembleBand fetch ls yh lnum).length = (if yh then 48 else 24) * ls := by
  rw [assembleBand_eq]
  have h : ∀ (ls' : List Int),
      ((ls'.map (fetchRow fetch ls)).flatten).length = ls'.length * ls := by
    intro ls'
    induction ls' with
    | nil => simp
    | cons a t ih =>
      simp only [List.map_cons, List.flatten_cons, List.length_append, ih, fetchRow_length,
        List.length_cons]
      ring
  rw [h, bandLines_length]

theorem fetchRow_absent (fetch : Fetch) (ls : Nat) (line : Int)
    (h : line < 0 ∨ fetch line = none) : fetchRow fetch ls line = List.replicate ls 0 := by
  unfold fetchRow
  rcases h with h | h
  · simp [h]
  · split
    · rfl
    · simp [h]

theorem fetchRow_present (fetch : Fetch) (ls : Nat) (line : Int) (row : List Nat)
    (h0 : 0 ≤ line) (h : fetch line = some row) (hlen : row.length = ls) :
    fetchRow fetch ls line = row := by
  unfold fetchRow
  rw [if_neg (by omega), h]
  simp only [fitRow]
  rw [List.take_append_of_le_length (by omega)]
  exact List.take_of_length_le (by omega)

/-- C12: after band assembly at logical row `lnum`, under vertical doubling
slot `k` (`k < 24`) holds page row `lnum + 2k` and slot `24 + k` holds page
row `lnum + 2k + 1`; without vertical doubling slot `k` holds page row
`lnum + k`.  "Holds page row `r`" is: the slot is what the copy loop leaves
for row `r`, which is all zero when `r` is negative or the source reports the
row absent, and the bytes of the row when the source delivers them.  The
buffer has 48 (doubling) or 24 slots. -/
theorem assembleBand_slots (fetch : Fetch) (ls : Nat) (lnum : Int) (k : Nat) (hk : k < 24) :
    slot (assembleBand fetch ls true lnum) ls k = fetchRow fetch ls (lnum + 2 * k)
    ∧ slot (assembleBand fetch ls true lnum) ls (24 + k) = fetchRow fetch ls (lnum + 2 * k + 1)
    ∧ slot (assembleBand fetch ls false lnum) ls k = fetchRow fetch ls (lnum + k)
    ∧ (∀ line : Int, line < 0 ∨ fetch line = none →
        fetchRow fetch ls line = List.replicate ls 0)
    ∧ (∀ (line : Int) (row : List Nat), 0 ≤ line → fetch line = some row → row.length = ls →
        fetchRow fetch ls line = row)
    ∧ (assembleBand fetch ls true lnum).length = 48 * ls
    ∧ (assembleBand fetch ls false lnum).length = 24 * ls := by
  refine ⟨?_, ?_, ?_, fetchRow_absent fetch ls, fetchRow_present fetch ls, ?_, ?_⟩
  · have h := bandLines_high lnum (2 * k) (by omega)
    have e1 : 2 * k / 2 + (if 2 * k % 2 = 0 then 0 else 24) = k := by
      rw [if_pos (by omega)]; omega
    rw [e1] at h
    rw [slot_assembleBand fetch ls true lnum k (by rw [bandLines_length]; simp; omega), h]
    push_cast
    rfl
  · have h := bandLines_high lnum (2 * k + 1) (by omega)
    have e1 : (2 * k + 1) / 2 + (if (2 * k + 1) % 2 = 0 then 0 else 24) = 24 + k := by
      rw [if_neg (by omega)]; omega
    rw [e1] at h
    rw [slot_assembleBand fetch ls true lnum (24 + k) (by rw [bandLines_length]; simp; omega), h]
    push_cast
    rw [Int.add_assoc]
  · rw [slot_assembleBand fetch ls false lnum k (by rw [bandLines_length]; simp; omega),
      bandLines_low lnum k hk]
  · simpa using assembleBand_length fetch ls true lnum
  · simpa using assembleBand_length fetch ls false lnum

theorem assembleBand_slots_witness :
    slot (assembleBand (fun line => if line = 3 then some [7, 9] else none) 2 true (-1)) 2 2
        = fetchRow (fun line => if line = 3 then some [7, 9] else none) 2 (-1 + 2 * (2 : Nat))
    ∧ slot (assembleBand (fun line => if line = 3 then some [7, 9] else none) 2 true (-1)) 2
          (24 + 2)
        = fetchRow (fun line => if line = 3 then some [7, 9] else none) 2
            (-1 + 2 * (2 : Nat) + 1)
    ∧ slot (assembleBand (fun line => if line = 3 then some [7, 9] else none) 2 false (-1)) 2 2
        = fetchRow (fun line => if line = 3 then some [7, 9] else none) 2 (-1 + (2 : Nat))
    ∧ (∀ line : Int, line < 0 ∨ (fun line => if line = 3 then some [7, 9] else none) line = none →
        fetchRow (fun line => if line = 3 then some [7, 9] else none) 2 line
          = List.replicate 2 0)
    ∧ (∀ (line : Int) (row : List Nat), 0 ≤ line →
        (fun line => if line = 3 then some [7, 9] else none) line = some row → row.length = 2 →
        fetchRow (fun line => if line = 3 then some [7, 9] else none) 2 line = row)
    ∧ (assembleBand (fun line => if line = 3 then some [7, 9] else none) 2 true (-1)).length
        = 48 * 2
    ∧ (assembleBand (fun line => if line = 3 then some [7, 9] else none) 2 false (-1)).length
        = 24 * 2 :=
  assembleBand_slots (fun line => if line = 3 then some [7, 9] else none) 2 (-1) 2 (by decide)

/-- C20: under vertical doubling, for every `e < 48` the slot index
`e / 2 + (24 if e is odd, else 0)` the blank-run counter compares at step `e`
is below 48 and is the slot into which band assembly put page row
`lnum + e`; and when row `lnum` is all zero, the `empty_lines` the counter
ends with is the number of consecutive all-zero page rows from row `lnum` on,
capped at 48. -/
theorem emptyLines_page_order (c : PageCfg) (fetch : Fetch) (lnum : Int)
    (hx : c.xres = 180 ∨ c.xres = 360) (hy : c.yres = 360) :
    (∀ e : Nat, e < 48 →
      e / 2 + (if e % 2 = 0 then 0 else 24) < 48
      ∧ slot (assembleBand fetch c.line_size c.y_high lnum) c.line_size
          (e / 2 + (if e % 2 = 0 then 0 else 24))
        = fetchRow fetch c.line_size (lnum + e))
    ∧ (rowBlank fetch c.line_size lnum = true →
        (emptyLines c (assembleBand fetch c.line_size c.y_high lnum)).1
          = leadingBlank fetch c.line_size lnum 48
        ∧ (emptyLines c (assembleBand fetch c.line_size c.y_high lnum)).1
          = emptyLinesHigh (assembleBand fetch c.line_size true lnum) c.line_size 48 0) := by
  have hyh : c.y_high = true := by simp [PageCfg.y_high, hy]
  constructor
  · intro e he
    have hlt : e / 2 + (if e % 2 = 0 then 0 else 24) < 48 := by split <;> omega
    refine ⟨hlt, ?_⟩
    rw [hyh, slot_assembleBand fetch c.line_size true lnum _
      (by rw [bandLines_length]; simpa using hlt), bandLines_high lnum e he]
  · intro h0
    have h := emptyLines_eq c fetch lnum hx (Or.inr hy) h0
    have hcap : blankCap c = 48 := by simp [blankCap, hyh]
    rw [h, hcap]
    refine ⟨rfl, ?_⟩
    have h1 := emptyLinesHigh_spec fetch c.line_size lnum h0 48 0 (by omega) (by omega)
    simp only [Nat.cast_zero, Int.add_zero, Nat.sub_zero, Nat.zero_add] at h1
    rw [h1]

theorem emptyLines_page_order_witness :
    (∀ e : Nat, e < 48 →
      e / 2 + (if e % 2 = 0 then 0 else 24) < 48
      ∧ slot (assembleBand (fun line => if line = 3 then some [7] else none)
            (PageCfg.mk 360 360 1 48 false).line_size
            (PageCfg.mk 360 360 1 48 false).y_high (-2))
          (PageCfg.mk 360 360 1 48 false).line_size
          (e / 2 + (if e % 2 = 0 then 0 else 24))
        = fetchRow (fun line => if line = 3 then some [7] else none)
            (PageCfg.mk 360 360 1 48 false).line_size (-2 + e))
    ∧ (rowBlank (fun line => if line = 3 then some [7] else none)
          (PageCfg.mk 360 360 1 48 false).line_size (-2) = true →
        (emptyLines (PageCfg.mk 360 360 1 48 false)
            (assembleBand (fun line => if line = 3 then some [7] else none)
              (PageCfg.mk 360 360 1 48 false).line_size
              (PageCfg.mk 360 360 1 48 false).y_high (-2))).1
          = leadingBlank (fun line => if line = 3 then some [7] else none)
              (PageCfg.mk 360 360 1 48 false).line_size (-2) 48
        ∧ (emptyLines (PageCfg.mk 360 360 1 48 false)
            (assembleBand (fun line => if line = 3 then some [7] else none)
              (PageCfg.mk 360 360 1 48 false).line_size
              (PageCfg.mk 360 360 1 48 false).y_high (-2))).1
          = emptyLinesHigh
              (assembleBand (fun line => if line = 3 then some [7] else none)
                (PageCfg.mk 360 360 1 48 false).line_size true (-2))
              (PageCfg.mk 360 360 1 48 false).line_size 48 0) :=
  emptyLines_page_order (PageCfg.mk 360 360 1 48 false)
    (fun line => if line = 3 then some [7] else none) (-2) (by decide) (by decide)


/-! ## `dot24_filter_bitmap`: every other dot-column -/

theorem filterLoop_eq_trace (data : List Nat) (count : Nat) : ∀ (f i : Nat),
    filterLoop data count f i = (filterTrace count f i).map fun pr => data.getD pr.2 0 := by
  intro f
  induction f with
  | zero => intro i; rfl
  | succ f ih =>
    intro i
    by_cases hlt : i < count
    · simp [filterLoop, filterTrace, hlt, ih]
    · simp [filterLoop, filterTrace, hlt]

theorem filterTrace_reads (count : Nat) (hc : count % 3 = 0) : ∀ (f i : Nat), i % 3 = 0 →
    ∀ pr ∈ filterTrace count f i, pr.2 < count := by
  intro f
  induction f with
  | zero => intro i _ pr h; simp [filterTrace] at h
  | succ f ih =>
    intro i hi pr h
    by_cases hlt : i < count
    · simp only [filterTrace, hlt, if_true, List.cons_append, List.nil_append,
        List.mem_cons] at h
      rcases h with h | h | h | h
      · subst h; simp only []; omega
      · subst h; simp only []; omega
      · subst h; simp only []; omega
      · exact ih (i + 6) (by omega) pr h
    · simp [filterTrace, hlt] at h

theorem filterTrace_writes (count : Nat) : ∀ (f i : Nat), count - i ≤ f →
    (filterTrace count f i).map Prod.fst
      = List.range' (i / 6 * 3) (3 * ((count - i + 5) / 6)) := by
  intro f
  induction f with
  | zero =>
    intro i hf
    have : (count - i + 5) / 6 = 0 := by omega
    simp [filterTrace, this]
  | succ f ih =>
    intro i hf
    by_cases hlt : i < count
    · have e1 : (count - i + 5) / 6 = (count - (i + 6) + 5) / 6 + 1 := by omega
      have e2 : (i + 6) / 6 * 3 = i / 6 * 3 + 3 := by omega
      simp only [filterTrace, hlt, if_true, List.cons_append, List.nil_append, List.map_cons,
        ih (i + 6) (by omega), e1, e2]
      rw [show 3 * ((count - (i + 6) + 5) / 6 + 1) = (3 * ((count - (i + 6) + 5) / 6)) + 1 + 1 + 1
        by ring]
      simp only [List.range'_succ, Nat.add_zero]
    · have : (count - i + 5) / 6 = 0 := by omega
      simp [filterTrace, hlt, this]

theorem filterLoop_count (data : List Nat) (count : Nat) : ∀ (f i : Nat), count - i ≤ f →
    (filterLoop data count f i).length = 3 * ((count - i + 5) / 6) := by
  intro f i hf
  rw [filterLoop_eq_trace, List.length_map, ← List.length_map (filterTrace count f i) Prod.fst,
    filterTrace_writes count f i hf, List.length_range']

theorem filterLoop_group (data : List Nat) (count : Nat) : ∀ (f i j : Nat), count - i ≤ f →
    i + 6 * j < count →
    ((filterLoop data count f i).drop (3 * j)).take 3
      = [data.getD (i + 6 * j) 0, data.getD (i + 6 * j + 1) 0, data.getD (i + 6 * j + 2) 0] := by
  intro f
  induction f with
  | zero => intro i j hf hj; omega
  | succ f ih =>
    intro i j hf hj
    have hlt : i < count := by omega
    cases j with
    | zero => simp [filterLoop, hlt]
    | succ j =>
      have := ih (i + 6) j (by omega) (by omega)
      simp only [filterLoop, hlt, if_true, List.cons_append, List.nil_append]
      rw [show 3 * (j + 1) = 3 * j + 1 + 1 + 1 by ring]
      simp only [List.drop_succ_cons]
      rw [this]
      rw [show i + 6 + 6 * j = i + 6 * (j + 1) by ring]

theorem take3_getD (data : List Nat) (k : Nat) (hk : k + 3 ≤ data.length) :
    (data.drop k).take 3 = [data.getD k 0, data.getD (k + 1) 0, data.getD (k + 2) 0] := by
  apply List.ext_getElem
  · simp; omega
  · intro n h1 h2
    simp only [List.length_cons, List.length_nil] at h2
    have hn : n = 0 ∨ n = 1 ∨ n = 2 := by omega
    rcases hn with h | h | h <;> subst h <;>
      simp [List.getElem_take, List.getElem_drop, List.getD_eq_getElem?_getD,
        List.getElem?_eq_getElem (show k < data.length by omega),
        List.getElem?_eq_getElem (show k + 1 < data.length by omega),
        List.getElem?_eq_getElem (show k + 2 < data.length by omega)]

/-- C13: for `data` of `count` bytes, `count` a multiple of 3, and the phase
`p` (0 when `print_even_dots`, 1 otherwise), with `n` the number of `j` such
that `2j + p < count / 3`: the output of `dot24_filter_bitmap` has `3n`
bytes (the reported count), its group `j` is the input group `2j + p` for
every `j < n`, the loop writes the output indices `0, 1, .., 3n - 1` in
order, and every index it reads in `data` is below `count`. -/
theorem dot24_filter_bitmap_groups (data : List Nat) (print_even_dots : Bool) (p : Nat)
    (hp : p = if print_even_dots then 0 else 1) (hc : data.length % 3 = 0) :
    ∃ n : Nat, (∀ j : Nat, 2 * j + p < data.length / 3 ↔ j < n)
      ∧ (dot24_filter_bitmap data print_even_dots).length = 3 * n
      ∧ (∀ j : Nat, j < n →
          ((dot24_filter_bitmap data print_even_dots).drop (3 * j)).take 3
            = (data.drop (3 * (2 * j + p))).take 3
          ∧ ((data.drop (3 * (2 * j + p))).take 3).length = 3)
      ∧ dot24_filter_bitmap data print_even_dots
          = (filterTrace data.length data.length (if print_even_dots then 0 else 3)).map
              (fun pr => data.getD pr.2 0)
      ∧ (filterTrace data.length data.length (if print_even_dots then 0 else 3)).map Prod.fst
          = List.range (3 * n)
      ∧ (∀ pr ∈ filterTrace data.length data.length (if print_even_dots then 0 else 3),
          pr.2 < data.length) := by
  have hi : (if print_even_dots then 0 else 3) = 3 * p := by
    subst hp; cases print_even_dots <;> rfl
  have hp1 : p ≤ 1 := by subst hp; split <;> omega
  refine ⟨(data.length - 3 * p + 5) / 6, ?_, ?_, ?_, ?_, ?_, ?_⟩
  · intro j; omega
  · unfold dot24_filter_bitmap
    rw [hi]
    exact filterLoop_count data data.length data.length (3 * p) (by omega)
  · intro j hj
    have hlt : 3 * p + 6 * j < data.length := by omega
    have hk : 3 * (2 * j + p) + 3 ≤ data.length := by omega
    constructor
    · unfold dot24_filter_bitmap
      rw [hi, filterLoop_group data data.length data.length (3 * p) j (by omega) hlt,
        take3_getD data _ hk]
      rw [show 3 * (2 * j + p) = 3 * p + 6 * j by ring]
    · simp; omega
  · unfold dot24_filter_bitmap
    exact filterLoop_eq_trace data data.length data.length _
  · rw [hi, filterTrace_writes data.length data.length (3 * p) (by omega)]
    have : 3 * p / 6 * 3 = 0 := by omega
    rw [this, List.range_eq_range']
  · rw [hi]
    exact filterTrace_reads data.length hc data.length (3 * p) (by omega)

theorem dot24_filter_bitmap_groups_witness :
    ∃ n : Nat, (∀ j : Nat, 2 * j + 1 < [1, 2, 3, 4, 5, 6, 7, 8, 9].length / 3 ↔ j < n)
      ∧ (dot24_filter_bitmap [1, 2, 3, 4, 5, 6, 7, 8, 9] false).length = 3 * n
      ∧ (∀ j : Nat, j < n →
          ((dot24_filter_bitmap [1, 2, 3, 4, 5, 6, 7, 8, 9] false).drop (3 * j)).take 3
            = ([1, 2, 3, 4, 5, 6, 7, 8, 9].drop (3 * (2 * j + 1))).take 3
          ∧ (([1, 2, 3, 4, 5, 6, 7, 8, 9].drop (3 * (2 * j + 1))).take 3).length = 3)
      ∧ dot24_filter_bitmap [1, 2, 3, 4, 5, 6, 7, 8, 9] false
          = (filterTrace [1, 2, 3, 4, 5, 6, 7, 8, 9].length [1, 2, 3, 4, 5, 6, 7, 8, 9].length
              (if false then 0 else 3)).map
              (fun pr => [1, 2, 3, 4, 5, 6, 7, 8, 9].getD pr.2 0)
      ∧ (filterTrace [1, 2, 3, 4, 5, 6, 7, 8, 9].length [1, 2, 3, 4, 5, 6, 7, 8, 9].length
            (if false then 0 else 3)).map Prod.fst
          = List.range (3 * n)
      ∧ (∀ pr ∈ filterTrace [1, 2, 3, 4, 5, 6, 7, 8, 9].length
            [1, 2, 3, 4, 5, 6, 7, 8, 9].length (if false then 0 else 3),
          pr.2 < [1, 2, 3, 4, 5, 6, 7, 8, 9].length) :=
  dot24_filter_bitmap_groups [1, 2, 3, 4, 5, 6, 7, 8, 9] false 1 (by decide) (by decide)


/-! ## The band transposition -/

theorem range8 : List.range 8 = [0, 1, 2, 3, 4, 5, 6, 7] := by decide

theorem bitMsb_bits (x0 x1 x2 x3 x4 x5 x6 x7 : Nat) (h0 : x0 < 2) (h1 : x1 < 2) (h2 : x2 < 2)
    (h3 : x3 < 2) (h4 : x4 < 2) (h5 : x5 < 2) (h6 : x6 < 2) (h7 : x7 < 2) (k : Nat)
    (hk : k < 8) :
    bitMsb (2 * (2 * (2 * (2 * (2 * (2 * (2 * (2 * 0 + x0) + x1) + x2) + x3) + x4) + x5) + x6)
      + x7) k = [x0, x1, x2, x3, x4, x5, x6, x7].getD k 0 := by
  unfold bitMsb
  interval_cases k <;> simp <;> omega

theorem bits_bitMsb (x : Nat) (hx : x < 256) :
    (List.range 8).foldl (fun acc b => 2 * acc + bitMsb x b) 0 = x := by
  simp only [range8, List.foldl, bitMsb]
  norm_num
  omega

theorem bitMsb_lt (x i : Nat) : bitMsb x i < 2 := by
  unfold bitMsb
  exact Nat.mod_lt _ (by omega)

theorem memflip8x8_getD (rows : List Nat) (b : Nat) (hb : b < 8) :
    (memflip8x8 rows).getD b 0
      = (List.range 8).foldl (fun acc k => 2 * acc + bitMsb (rows.getD k 0) b) 0 := by
  simp only [memflip8x8, List.getD_eq_getElem?_getD, List.getElem?_map, List.getElem?_range hb,
    Option.map_some', Option.getD_some, bitMsb]

/-- Bit `k` of output byte `b` of the flip is bit `b` of input byte `k`. -/
theorem memflip8x8_bit (rows : List Nat) (b k : Nat) (hb : b < 8) (hk : k < 8) :
    bitMsb ((memflip8x8 rows).getD b 0) k = bitMsb (rows.getD k 0) b := by
  rw [memflip8x8_getD rows b hb]
  simp only [range8, List.foldl]
  rw [bitMsb_bits _ _ _ _ _ _ _ _ (bitMsb_lt _ _) (bitMsb_lt _ _) (bitMsb_lt _ _)
    (bitMsb_lt _ _) (bitMsb_lt _ _) (bitMsb_lt _ _) (bitMsb_lt _ _) (bitMsb_lt _ _) k hk]
  interval_cases k <;> rfl

theorem getD_chunk (l : List Nat) (m k j : Nat) (hj : j < m) :
    l.getD (m * k + j) 0 = ((l.drop (m * k)).take m).getD j 0 := by
  simp [List.getD_eq_getElem?_getD, List.getElem?_take, hj, List.getElem?_drop]

theorem getD_flatMap_range (f : Nat → List Nat) (m n : Nat) (hf : ∀ c, (f c).length = m)
    (c j : Nat) (hc : c < n) (hj : j < m) :
    ((List.range n).flatMap f).getD (m * c + j) 0 = (f c).getD j 0 := by
  rw [getD_chunk _ m c j hj]
  have h := flatten_slot m ((List.range n).map f) c
    (by intro r hr; obtain ⟨a, _, rfl⟩ := List.mem_map.1 hr; exact hf a) (by simpa using hc)
  rw [List.flatMap, h]
  simp [List.getD_eq_getElem?_getD, List.getElem?_map, List.getElem?_range hc]

theorem length_flatMap_range (f : Nat → List Nat) (m : Nat) (hf : ∀ c, (f c).length = m) :
    ∀ n, ((List.range n).flatMap f).length = m * n := by
  intro n
  induction n with
  | zero => simp
  | succ n ih =>
    rw [List.range_succ, List.flatMap_append, List.length_append, ih]
    simp [hf]
    ring

theorem transposeColumn_length (inb : List Nat) (ls c : Nat) :
    (transposeColumn inb ls c).length = 24 := by
  simp [transposeColumn]

theorem transposeBand_length (inb : List Nat) (ls : Nat) :
    (transposeBand inb ls).length = 24 * ls :=
  length_flatMap_range _ 24 (transposeColumn_length inb ls) ls

/-- The output byte `24 * c + 3 * b + g` is output byte `b` of the flip of
the rows `8 * g .. 8 * g + 7` at byte column `c`. -/
theorem transposeBand_getD (inb : List Nat) (ls c b g : Nat) (hc : c < ls) (hb : b < 8)
    (hg : g < 3) :
    (transposeBand inb ls).getD (24 * c + 3 * b + g) 0
      = (memflip8x8 ((List.range 8).map fun k => inb.getD ((8 * g + k) * ls + c) 0)).getD
          b 0 := by
  unfold transposeBand
  rw [Nat.add_assoc,
    getD_flatMap_range _ 24 ls (transposeColumn_length inb ls) c (3 * b + g) hc (by omega)]
  simp only [transposeColumn, List.getD_eq_getElem?_getD, List.getElem?_map,
    List.getElem?_range (show 3 * b + g < 24 by omega), Option.map_some', Option.getD_some]
  rw [show (3 * b + g) % 3 = g by omega, show (3 * b + g) / 3 = b by omega]

theorem transposeBand_bit (inb : List Nat) (ls c b g k : Nat) (hc : c < ls) (hb : b < 8)
    (hg : g < 3) (hk : k < 8) :
    bitMsb ((transposeBand inb ls).getD (24 * c + 3 * b + g) 0) k
      = bitMsb (inb.getD ((8 * g + k) * ls + c) 0) b := by
  rw [transposeBand_getD inb ls c b g hc hb hg, memflip8x8_bit _ b k hb hk]
  simp [List.getD_eq_getElem?_getD, List.getElem?_map, List.getElem?_range hk]

theorem ext_getD (l1 l2 : List Nat) (hlen : l1.length = l2.length)
    (h : ∀ i, i < l1.length → l1.getD i 0 = l2.getD i 0) : l1 = l2 := by
  apply List.ext_getElem hlen
  intro i h1 h2
  have := h i h1
  rw [List.getD_eq_getElem?_getD, List.getD_eq_getElem?_getD, List.getElem?_eq_getElem h1,
    List.getElem?_eq_getElem h2] at this
  simpa using this

theorem getD_lt_of_all (l : List Nat) (n : Nat) (hn : 0 < n) (h : ∀ x ∈ l, x < n) (i : Nat) :
    l.getD i 0 < n := by
  rw [List.getD_eq_getElem?_getD]
  by_cases hi : i < l.length
  · rw [List.getElem?_eq_getElem hi]
    exact h _ (List.getElem_mem _)
  · rw [List.getElem?_eq_none (by omega)]
    exact hn

/-- C11: with `memflip8x8` the 8x8 bit-matrix transpose, the transposition
loop writes exactly `24 * line_size` bytes; bit `k` (most significant first)
of output byte `24 * c + 3 * b + g` is bit `b` of band byte
`(8 * g + k) * line_size + c`, for `c < line_size`, `b < 8`, `g < 3`,
`k < 8`; and the inverse transpose of the output is the 24 printed rows of
the band, for every band of bytes (values below 256). -/
theorem transposeBand_lossless (inb : List Nat) (ls : Nat) (hbytes : ∀ x ∈ inb, x < 256)
    (hlen : 24 * ls ≤ inb.length) :
    (transposeBand inb ls).length = 24 * ls
    ∧ (∀ c b g k : Nat, c < ls → b < 8 → g < 3 → k < 8 →
        bitMsb ((transposeBand inb ls).getD (24 * c + 3 * b + g) 0) k
          = bitMsb (inb.getD ((8 * g + k) * ls + c) 0) b)
    ∧ untransposeBand (transposeBand inb ls) ls = inb.take (24 * ls) := by
  refine ⟨transposeBand_length inb ls, fun c b g k => transposeBand_bit inb ls c b g k, ?_⟩
  have hrow : ∀ r : Nat, ((List.range ls).map fun c =>
      (List.range 8).foldl
        (fun acc b =>
          2 * acc + bitMsb ((transposeBand inb ls).getD (24 * c + 3 * b + r / 8) 0) (r % 8))
        0).length = ls := by
    intro r; simp
  apply ext_getD
  · rw [untransposeBand, length_flatMap_range _ ls hrow 24, List.length_take]
    omega
  · intro i hi
    rw [untransposeBand, length_flatMap_range _ ls hrow 24] at hi
    have hls : 0 < ls := by
      rcases Nat.eq_zero_or_pos ls with h | h
      · subst h; omega
      · exact h
    have hr : i / ls < 24 := (Nat.div_lt_iff_lt_mul hls).2 (by rw [Nat.mul_comm]; exact hi)
    have hc : i % ls < ls := Nat.mod_lt _ hls
    have hi' : i = ls * (i / ls) + i % ls := (Nat.div_add_mod i ls).symm
    have hget : (inb.take (24 * ls)).getD i 0 = inb.getD i 0 := by
      have hi2 : i < 24 * ls := by omega
      simp [List.getD_eq_getElem?_getD, List.getElem?_take, hi2]
    rw [hget]
    conv_lhs => rw [hi']
    rw [untransposeBand, getD_flatMap_range _ ls 24 hrow (i / ls) (i % ls) hr hc]
    simp only [List.getD_eq_getElem?_getD, List.getElem?_map, List.getElem?_range hc,
      Option.map_some', Option.getD_some]
    simp only [← List.getD_eq_getElem?_getD]
    have hbit : ∀ b : Nat, b < 8 →
        bitMsb ((transposeBand inb ls).getD (24 * (i % ls) + 3 * b + i / ls / 8) 0)
          (i / ls % 8) = bitMsb (inb.getD i 0) b := by
      intro b hb
      rw [transposeBand_bit inb ls (i % ls) b (i / ls / 8) (i / ls % 8) hc hb (by omega)
        (by omega)]
      congr 2
      rw [show 8 * (i / ls / 8) + i / ls % 8 = i / ls by omega, Nat.mul_comm]
      exact hi'.symm
    simp only [range8, List.foldl]
    rw [hbit 0 (by omega), hbit 1 (by omega), hbit 2 (by omega), hbit 3 (by omega),
      hbit 4 (by omega), hbit 5 (by omega), hbit 6 (by omega), hbit 7 (by omega)]
    have := bits_bitMsb (inb.getD i 0) (getD_lt_of_all inb 256 (by omega) hbytes i)
    simpa only [range8, List.foldl] using this

theorem transposeBand_lossless_witness :
    (transposeBand (List.replicate 24 129) 1).length = 24 * 1
    ∧ (∀ c b g k : Nat, c < 1 → b < 8 → g < 3 → k < 8 →
        bitMsb ((transposeBand (List.replicate 24 129) 1).getD (24 * c + 3 * b + g) 0) k
          = bitMsb ((List.replicate 24 129).getD ((8 * g + k) * 1 + c) 0) b)
    ∧ untransposeBand (transposeBand (List.replicate 24 129) 1) 1
        = (List.replicate 24 129).take (24 * 1) :=
  transposeBand_lossless (List.replicate 24 129) 1
    (by intro x hx; rw [(List.mem_replicate.1 hx).2]; decide) (by decide)


/-! ## The paths of one iteration of the page loop -/

theorem printBand_eq (c : PageCfg) (st : PageState) (inb : List Nat) :
    printBand c st inb
      = (reconcile c st inb).map fun r =>
          { lnum := nextLnum c st.lnum, printer_lnum := r.1, cycle := (st.cycle + 1) % 4,
            forward := if c.bidirectional then !st.forward else st.forward,
            out := st.out ++ r.2.1 ++ printedBytes c st r.2.2 } := by
  unfold printBand reconcile
  simp only []
  rfl

theorem pageStep_of_skips (c : PageCfg) (fetch : Fetch) (st : PageState)
    (h : skipsBand c fetch st = true) :
    pageStep c fetch st
      = .ok { st with lnum := st.lnum
          + (((emptyLines c (assembleBand fetch c.line_size c.y_high st.lnum)).1 : Int)
            - (emptyLines c (assembleBand fetch c.line_size c.y_high st.lnum)).2) } := by
  simp only [skipsBand, Bool.and_eq_true, decide_eq_true_eq] at h
  unfold pageStep
  simp only [h.1, and_self, if_true]
  rw [if_pos h.2]

theorem pageStep_of_not_skips (c : PageCfg) (fetch : Fetch) (st : PageState)
    (h : skipsBand c fetch st = false) :
    pageStep c fetch st = printBand c st (assembleBand fetch c.line_size c.y_high st.lnum) := by
  unfold pageStep
  simp only []
  split
  · rename_i h1
    have h2 : ¬ (emptyLines c (assembleBand fetch c.line_size c.y_high st.lnum)).1
        > (emptyLines c (assembleBand fetch c.line_size c.y_high st.lnum)).2 := by
      intro h2
      have : skipsBand c fetch st = true := by
        simp only [skipsBand, Bool.and_eq_true, decide_eq_true_eq]
        exact ⟨h1, h2⟩
      rw [h] at this
      exact Bool.false_ne_true this
    rw [if_neg h2]
  · rfl

theorem skipsBand_advance (c : PageCfg) (fetch : Fetch) (st : PageState)
    (h : skipsBand c fetch st = true) :
    0 < ((emptyLines c (assembleBand fetch c.line_size c.y_high st.lnum)).1 : Int)
      - (emptyLines c (assembleBand fetch c.line_size c.y_high st.lnum)).2 := by
  simp only [skipsBand, Bool.and_eq_true, decide_eq_true_eq] at h
  omega

theorem nextLnum_ge (c : PageCfg) (lnum : Int) :
    lnum + 11 ≤ nextLnum c lnum ∧ nextLnum c lnum ≤ lnum + 25 := by
  unfold nextLnum
  split
  · split <;> omega
  · split
    · omega
    · split <;> omega

/-- The correction path: entered with `printer_lnum < 4`; `printer_lnum` is
kept when the parities agree and advanced by one row, after a one-row feed,
when they differ. -/
theorem reconcile_correction (c : PageCfg) (st : PageState) (inb : List Nat)
    (r : Int × List Nat × List Nat)
    (hc : st.lnum < 0 ∨ st.lnum < st.printer_lnum) (h : reconcile c st inb = .ok r) :
    st.printer_lnum < 4
    ∧ ((st.lnum.tmod 2 = st.printer_lnum.tmod 2 ∧ r.1 = st.printer_lnum ∧ r.2.1 = [])
      ∨ (st.lnum.tmod 2 ≠ st.printer_lnum.tmod 2 ∧ r.1 = st.printer_lnum + 1
          ∧ r.2.1 = dot24_skip_lines 1 c.y_high))
    ∧ (r.1 - st.lnum).tmod 2 = 0
    ∧ shiftRows c.line_size st.lnum r.1 24 0 inb = .ok r.2.2 := by
  unfold reconcile at h
  rw [if_pos hc] at h
  by_cases h4 : st.printer_lnum < 4
  · rw [if_neg (by simpa using h4)] at h
    refine ⟨h4, ?_⟩
    by_cases hp : st.lnum.tmod 2 = st.printer_lnum.tmod 2
    · simp only [hp, ne_eq, not_true_eq_false, if_false] at h
      split at h
      · simp at h
      · rename_i hpar
        cases hs : shiftRows c.line_size st.lnum st.printer_lnum 24 0 inb with
        | error e => rw [hs] at h; simp [Except.map] at h
        | ok inb1 =>
          rw [hs] at h
          simp only [Except.map, Except.ok.injEq] at h
          subst h
          exact ⟨Or.inl ⟨hp, rfl, rfl⟩, by simpa using hpar, hs⟩
    · simp only [hp, ne_eq, not_false_eq_true, if_true] at h
      split at h
      · simp at h
      · rename_i hpar
        cases hs : shiftRows c.line_size st.lnum (st.printer_lnum + 1) 24 0 inb with
        | error e => rw [hs] at h; simp [Except.map] at h
        | ok inb1 =>
          rw [hs] at h
          simp only [Except.map, Except.ok.injEq] at h
          subst h
          exact ⟨Or.inr ⟨hp, rfl, rfl⟩, by simpa using hpar, hs⟩
  · rw [if_pos (by simpa using h4)] at h
    simp at h

theorem dot24_skip_lines_zero (y_high : Bool) : dot24_skip_lines 0 y_high = [] := by
  cases y_high <;> rfl

/-- The forward path: a feed over `lnum - printer_lnum` rows (nothing when
the two agree), after which `printer_lnum` is `lnum`; the band is printed as
assembled. -/
theorem reconcile_forward (c : PageCfg) (st : PageState) (inb : List Nat)
    (hc : ¬ (st.lnum < 0 ∨ st.lnum < st.printer_lnum)) :
    reconcile c st inb
      = .ok (st.lnum, dot24_skip_lines (st.lnum - st.printer_lnum).toNat c.y_high, inb) := by
  unfold reconcile
  rw [if_neg hc]
  by_cases he : st.printer_lnum = st.lnum
  · rw [if_neg (by simpa using he), he]
    simp [dot24_skip_lines_zero]
  · rw [if_pos he, if_neg (by simp; omega)]

/-- The effect of one successful iteration on the cursors and the output, by
the path taken. -/
theorem pageStep_paths (c : PageCfg) (fetch : Fetch) (st st1 : PageState)
    (h : pageStep c fetch st = .ok st1) :
    (skipsBand c fetch st = true ∧ st.lnum < st1.lnum ∧ st1.printer_lnum = st.printer_lnum
      ∧ st1.out = st.out ∧ st1.cycle = st.cycle ∧ st1.forward = st.forward)
    ∨ (skipsBand c fetch st = false ∧ st1.lnum = nextLnum c st.lnum
        ∧ st1.cycle = (st.cycle + 1) % 4
        ∧ ∃ r, reconcile c st (assembleBand fetch c.line_size c.y_high st.lnum) = .ok r
          ∧ st1.printer_lnum = r.1
          ∧ st1.out = st.out ++ r.2.1 ++ printedBytes c st r.2.2) := by
  cases hs : skipsBand c fetch st with
  | true =>
    left
    rw [pageStep_of_skips c fetch st hs] at h
    have hadv := skipsBand_advance c fetch st hs
    simp only [Except.ok.injEq] at h
    subst h
    refine ⟨rfl, ?_, rfl, rfl, rfl, rfl⟩
    simp only []
    omega
  | false =>
    right
    rw [pageStep_of_not_skips c fetch st hs, printBand_eq] at h
    cases hr : reconcile c st (assembleBand fetch c.line_size c.y_high st.lnum) with
    | error e => rw [hr] at h; simp [Except.map] at h
    | ok r =>
      rw [hr] at h
      simp only [Except.map, Except.ok.injEq] at h
      subst h
      exact ⟨rfl, rfl, rfl, r, rfl, rfl, rfl⟩


/-! ## The physical cursor `printer_lnum` across iterations -/

theorem takesCorrection_false (c : PageCfg) (fetch : Fetch) (st : PageState)
    (hn : takesCorrection c fetch st = false) (hs : skipsBand c fetch st = false) :
    ¬ (st.lnum < 0 ∨ st.lnum < st.printer_lnum) := by
  intro hc
  simp [takesCorrection, hs, hc] at hn

/-- C15: in an iteration of the page loop that does not take the
negative-position correction, `printer_lnum` does not decrease: it is
unchanged when the iteration leaves through the blank-run skip, and it
becomes `lnum`, which is not below it, when the band is printed after the
forward feed. -/
theorem printer_lnum_never_decreases (c : PageCfg) (fetch : Fetch) (st st1 : PageState)
    (h : pageStep c fetch st = .ok st1) (hn : takesCorrection c fetch st = false) :
    st.printer_lnum ≤ st1.printer_lnum
    ∧ (skipsBand c fetch st = true → st1.printer_lnum = st.printer_lnum)
    ∧ (skipsBand c fetch st = false →
        st1.printer_lnum = st.lnum ∧ st.printer_lnum ≤ st.lnum) := by
  rcases pageStep_paths c fetch st st1 h with ⟨hs, _, hpl, _⟩ | ⟨hs, _, _, r, hr, hpl, _⟩
  · refine ⟨by omega, fun _ => hpl, fun h2 => ?_⟩
    rw [hs] at h2
    exact absurd h2 (by decide)
  · have hc := takesCorrection_false c fetch st hn hs
    rw [reconcile_forward c st _ hc] at hr
    simp only [Except.ok.injEq] at hr
    subst hr
    simp only [] at hpl
    refine ⟨by omega, fun h2 => ?_, fun _ => ⟨hpl, by omega⟩⟩
    rw [hs] at h2
    exact absurd h2 (by decide)

theorem printer_lnum_never_decreases_witness :
    (PageState.mk 5 3 1 true []).printer_lnum
        ≤ (PageState.mk 17 5 2 true
          [27, 74, 2, 27, 36, 2, 0, 27, 92, 1, 0, 27, 42, 39, 1, 0, 128, 0, 0, 13]).printer_lnum
    ∧ (skipsBand ⟨180, 180, 1, 30, false⟩ (fun line => if line = 5 then some [1] else none)
          (PageState.mk 5 3 1 true []) = true →
        (PageState.mk 17 5 2 true
          [27, 74, 2, 27, 36, 2, 0, 27, 92, 1, 0, 27, 42, 39, 1, 0, 128, 0, 0, 13]).printer_lnum
          = (PageState.mk 5 3 1 true []).printer_lnum)
    ∧ (skipsBand ⟨180, 180, 1, 30, false⟩ (fun line => if line = 5 then some [1] else none)
          (PageState.mk 5 3 1 true []) = false →
        (PageState.mk 17 5 2 true
          [27, 74, 2, 27, 36, 2, 0, 27, 92, 1, 0, 27, 42, 39, 1, 0, 128, 0, 0, 13]).printer_lnum = (PageState.mk 5 3 1 true []).lnum
        ∧ (PageState.mk 5 3 1 true []).printer_lnum ≤ (PageState.mk 5 3 1 true []).lnum) :=
  printer_lnum_never_decreases ⟨180, 180, 1, 30, false⟩
    (fun line => if line = 5 then some [1] else none)
    (PageState.mk 5 3 1 true [])
    (PageState.mk 17 5 2 true
      [27, 74, 2, 27, 36, 2, 0, 27, 92, 1, 0, 27, 42, 39, 1, 0, 128, 0, 0, 13]) rfl rfl

theorem initialLnum_ge (c : PageCfg) : -36 ≤ initialLnum c := by
  unfold initialLnum
  split
  · omega
  · split
    · omega
    · split <;> omega

/-- The cursors of a reachable state: `printer_lnum` is not negative, and
either it is not ahead of `lnum`, or at most four corrections have happened
and each was followed by a stride of at least 11 rows. -/
theorem reachable_cursors (c : PageCfg) (fetch : Fetch) (st : PageState)
    (hr : Reachable c fetch st) :
    0 ≤ st.printer_lnum
    ∧ (st.printer_lnum ≤ st.lnum ∨ (st.printer_lnum ≤ 4 ∧ -36 + 11 * st.printer_lnum ≤ st.lnum)) := by
  induction hr with
  | init =>
    have := initialLnum_ge c
    exact ⟨le_refl _, Or.inr ⟨by simp, by simpa using this⟩⟩
  | @step st st1 _ _ hstep ih =>
    obtain ⟨h0, hinv⟩ := ih
    rcases pageStep_paths c fetch st st1 hstep with
      ⟨_, hl, hpl, _⟩ | ⟨_, hl, _, r, hrec, hpl, _⟩
    · rw [hpl]
      refine ⟨h0, ?_⟩
      rcases hinv with h | h
      · exact Or.inl (by omega)
      · exact Or.inr ⟨h.1, by omega⟩
    · have hn := nextLnum_ge c st.lnum
      by_cases hc : st.lnum < 0 ∨ st.lnum < st.printer_lnum
      · obtain ⟨h4, hcase, _⟩ := reconcile_correction c st _ r hc hrec
        have hsec : st.printer_lnum ≤ 4 ∧ -36 + 11 * st.printer_lnum ≤ st.lnum := by
          rcases hinv with h | h
          · omega
          · exact h
        rcases hcase with ⟨_, h1, _⟩ | ⟨_, h1, _⟩
        · exact ⟨by omega, Or.inr ⟨by omega, by omega⟩⟩
        · exact ⟨by omega, Or.inr ⟨by omega, by omega⟩⟩
      · rw [reconcile_forward c st _ hc] at hrec
        simp only [Except.ok.injEq] at hrec
        subst hrec
        simp only [] at hpl
        exact ⟨by omega, Or.inl (by omega)⟩

theorem reachable_lt_4 (c : PageCfg) (fetch : Fetch) (st : PageState)
    (hr : Reachable c fetch st) (hc : st.lnum < 0 ∨ st.lnum < st.printer_lnum) :
    st.printer_lnum < 4 := by
  obtain ⟨h0, hinv⟩ := reachable_cursors c fetch st hr
  omega

theorem map_ne_error {α β : Type} (r : Except PageError α) (g : α → β) (e : PageError)
    (h : r ≠ .error e) : r.map g ≠ .error e := by
  cases r with
  | error e1 =>
    intro h2
    simp only [Except.map, Except.error.injEq] at h2
    exact h (by rw [h2])
  | ok v => simp [Except.map]

theorem shiftRows_not_lt_4 (ls : Nat) (lnum pl : Int) : ∀ (k rl : Nat) (inb : List Nat),
    shiftRows ls lnum pl k rl inb ≠ .error .assert_printer_lnum_lt_4 := by
  intro k
  induction k with
  | zero => intro rl inb; simp [shiftRows]
  | succ k ih =>
    intro rl inb
    simp only [shiftRows]
    split
    · simp
    · split
      · simp
      · exact ih _ _

theorem reconcile_not_lt_4 (c : PageCfg) (st : PageState) (inb : List Nat)
    (h : (st.lnum < 0 ∨ st.lnum < st.printer_lnum) → st.printer_lnum < 4) :
    reconcile c st inb ≠ .error .assert_printer_lnum_lt_4 := by
  unfold reconcile
  by_cases hc : st.lnum < 0 ∨ st.lnum < st.printer_lnum
  · rw [if_pos hc, if_neg (by simpa using h hc)]
    by_cases hp : st.lnum.tmod 2 = st.printer_lnum.tmod 2
    · simp only [hp, ne_eq, not_true_eq_false, if_false]
      split
      · simp
      · exact map_ne_error _ _ _ (shiftRows_not_lt_4 _ _ _ _ _ _)
    · simp only [hp, ne_eq, not_false_eq_true, if_true]
      split
      · simp
      · exact map_ne_error _ _ _ (shiftRows_not_lt_4 _ _ _ _ _ _)
  · rw [if_neg hc]
    split
    · split <;> simp
    · simp

theorem pageStep_not_lt_4 (c : PageCfg) (fetch : Fetch) (st : PageState)
    (h : (st.lnum < 0 ∨ st.lnum < st.printer_lnum) → st.printer_lnum < 4) :
    pageStep c fetch st ≠ .error .assert_printer_lnum_lt_4 := by
  cases hs : skipsBand c fetch st with
  | true => rw [pageStep_of_skips c fetch st hs]; simp
  | false =>
    rw [pageStep_of_not_skips c fetch st hs, printBand_eq]
    intro he
    have := reconcile_not_lt_4 c st (assembleBand fetch c.line_size c.y_high st.lnum) h
    cases hr : reconcile c st (assembleBand fetch c.line_size c.y_high st.lnum) with
    | ok v => rw [hr] at he; simp [Except.map] at he
    | error e =>
      rw [hr] at he
      simp only [Except.map, Except.error.injEq] at he
      subst he
      exact this hr

theorem pageLoop_not_lt_4 (c : PageCfg) (fetch : Fetch) : ∀ (f : Nat) (st : PageState),
    Reachable c fetch st → pageLoop c fetch f st ≠ .error .assert_printer_lnum_lt_4 := by
  intro f
  induction f with
  | zero =>
    intro st _
    simp only [pageLoop]
    split <;> simp
  | succ f ih =>
    intro st hr
    simp only [pageLoop]
    split
    · rename_i hlt
      cases hs : pageStep c fetch st with
      | ok st1 => exact ih st1 (Reachable.step hr hlt hs)
      | error e =>
        simp only []
        intro he
        simp only [Except.error.injEq] at he
        subst he
        exact pageStep_not_lt_4 c fetch st (reachable_lt_4 c fetch st hr) hs
    · simp

/-- C14: for every configuration, scanline source and page height, in every
state the page loop reaches a cursor pair that enters the negative-position
correction (`lnum < 0` or `lnum < printer_lnum`) has `printer_lnum < 4`;
hence neither an iteration from a reachable state nor `dot24_print_page`
ends with the assertion `printer_lnum < 4` failed. -/
theorem correction_guard_holds (c : PageCfg) (fetch : Fetch) (st : PageState)
    (hr : Reachable c fetch st) :
    ((st.lnum < 0 ∨ st.lnum < st.printer_lnum) → st.printer_lnum < 4)
    ∧ pageStep c fetch st ≠ .error .assert_printer_lnum_lt_4
    ∧ dot24_print_page c fetch ≠ .error .assert_printer_lnum_lt_4 := by
  refine ⟨reachable_lt_4 c fetch st hr,
    pageStep_not_lt_4 c fetch st (reachable_lt_4 c fetch st hr), ?_⟩
  unfold dot24_print_page
  split
  · simp
  · have := pageLoop_not_lt_4 c fetch (c.height - initialLnum c).toNat _ Reachable.init
    revert this
    simp only []
    cases pageLoop c fetch (c.height - initialLnum c).toNat
      { lnum := initialLnum c, printer_lnum := 0, cycle := 0, forward := true, out := [] } with
    | error e =>
      intro h1 h2
      simp only [Except.error.injEq] at h2
      exact h1 (by rw [h2])
    | ok st => intro _; simp

theorem correction_guard_holds_witness :
    (((PageState.mk (-25) 0 1 true [27, 36, 0, 0, 27, 42, 39, 1, 0, 128, 0, 0, 13]).lnum < 0
        ∨ (PageState.mk (-25) 0 1 true [27, 36, 0, 0, 27, 42, 39, 1, 0, 128, 0, 0, 13]).lnum
          < (PageState.mk (-25) 0 1 true
              [27, 36, 0, 0, 27, 42, 39, 1, 0, 128, 0, 0, 13]).printer_lnum) →
      (PageState.mk (-25) 0 1 true [27, 36, 0, 0, 27, 42, 39, 1, 0, 128, 0, 0, 13]).printer_lnum
        < 4)
    ∧ pageStep ⟨360, 360, 1, 48, false⟩ (fun line => if line = 0 then some [128] else none)
        (PageState.mk (-25) 0 1 true [27, 36, 0, 0, 27, 42, 39, 1, 0, 128, 0, 0, 13])
        ≠ .error .assert_printer_lnum_lt_4
    ∧ dot24_print_page ⟨360, 360, 1, 48, false⟩
        (fun line => if line = 0 then some [128] else none)
        ≠ .error .assert_printer_lnum_lt_4 :=
  correction_guard_holds ⟨360, 360, 1, 48, false⟩
    (fun line => if line = 0 then some [128] else none)
    (PageState.mk (-25) 0 1 true [27, 36, 0, 0, 27, 42, 39, 1, 0, 128, 0, 0, 13])
    (Reachable.step Reachable.init (by decide) rfl)


/-! ## The row shift of the negative-position correction -/

theorem getD_splice (a mid : List Nat) (p i : Nat) (hp : p + mid.length ≤ a.length) :
    (a.take p ++ mid ++ a.drop (p + mid.length)).getD i 0
      = if i < p then a.getD i 0 else if i < p + mid.length then mid.getD (i - p) 0
        else a.getD i 0 := by
  have hlt : (a.take p).length = p := by simp; omega
  simp only [List.getD_eq_getElem?_getD, List.append_assoc, List.getElem?_append, hlt,
    List.getElem?_take, List.getElem?_drop]
  by_cases h1 : i < p
  · simp [h1]
  · by_cases h2 : i < p + mid.length
    · have h3 : i - p < mid.length := by omega
      simp [h1, h2, h3]
    · have h3 : ¬ i - p < mid.length := by omega
      simp only [h1, h2, h3, if_false]
      rw [show p + mid.length + (i - p - mid.length) = i by omega]

theorem length_splice (a mid : List Nat) (p : Nat) (hp : p + mid.length ≤ a.length) :
    (a.take p ++ mid ++ a.drop (p + mid.length)).length = a.length := by
  simp only [List.length_append, List.length_take, List.length_drop]
  omega

theorem cell_lt (ls j k i : Nat) (hi : i < ls) : j * ls + i < k * ls ↔ j < k := by
  constructor
  · intro h
    by_contra hcon
    have : k * ls ≤ j * ls := Nat.mul_le_mul_right ls (by omega)
    omega
  · intro h
    have : (j + 1) * ls ≤ k * ls := Nat.mul_le_mul_right ls (by omega)
    have e : (j + 1) * ls = j * ls + ls := by ring
    omega

theorem cell_in (ls j k i : Nat) (hi : i < ls) :
    (¬ j * ls + i < k * ls ∧ j * ls + i < k * ls + ls) ↔ j = k := by
  have h1 := cell_lt ls j k i hi
  have h2 := cell_lt ls j (k + 1) i hi
  have e : (k + 1) * ls = k * ls + ls := by ring
  rw [e] at h2
  constructor
  · intro h; have := h2.1 h.2; have := mt h1.2 h.1; omega
  · intro h; subst h; exact ⟨by omega, by omega⟩

theorem length_zeroRow (inb : List Nat) (ls k : Nat) (hk : k * ls + ls ≤ inb.length) :
    (zeroRow inb ls k).length = inb.length := by
  have := length_splice inb (List.replicate ls 0) (k * ls) (by simpa using hk)
  simpa [zeroRow] using this

theorem getD_zeroRow (inb : List Nat) (ls k j i : Nat) (hi : i < ls)
    (hk : k * ls + ls ≤ inb.length) :
    (zeroRow inb ls k).getD (j * ls + i) 0 = if j = k then 0 else inb.getD (j * ls + i) 0 := by
  have h := getD_splice inb (List.replicate ls 0) (k * ls) (j * ls + i) (by simpa using hk)
  simp only [List.length_replicate] at h
  unfold zeroRow
  rw [h]
  by_cases hjk : j = k
  · subst hjk
    rw [if_neg (by omega), if_pos (by omega), if_pos rfl]
    simp [List.getD_eq_getElem?_getD, List.getElem?_replicate, hi]
  · rw [if_neg hjk]
    by_cases h1 : j * ls + i < k * ls
    · rw [if_pos h1]
    · rw [if_neg h1, if_neg]
      intro h2
      exact hjk ((cell_in ls j k i hi).1 ⟨h1, h2⟩)

theorem length_copyRow (inb : List Nat) (ls dst src : Nat) (hd : dst * ls + ls ≤ inb.length)
    (hs : src * ls + ls ≤ inb.length) : (copyRow inb ls dst src).length = inb.length := by
  have hm : ((inb.drop (src * ls)).take ls).length = ls := by simp; omega
  have := length_splice inb ((inb.drop (src * ls)).take ls) (dst * ls) (by rw [hm]; exact hd)
  rw [hm] at this
  exact this

theorem getD_copyRow (inb : List Nat) (ls dst src j i : Nat) (hi : i < ls)
    (hd : dst * ls + ls ≤ inb.length) (hs : src * ls + ls ≤ inb.length) :
    (copyRow inb ls dst src).getD (j * ls + i) 0
      = if j = dst then inb.getD (src * ls + i) 0 else inb.getD (j * ls + i) 0 := by
  have hm : ((inb.drop (src * ls)).take ls).length = ls := by simp; omega
  have h := getD_splice inb ((inb.drop (src * ls)).take ls) (dst * ls) (j * ls + i)
    (by rw [hm]; exact hd)
  rw [hm] at h
  unfold copyRow
  rw [h]
  by_cases hjk : j = dst
  · subst hjk
    rw [if_neg (by omega), if_pos (by omega), if_pos rfl]
    rw [show j * ls + i - j * ls = i by omega]
    simp [List.getD_eq_getElem?_getD, List.getElem?_take, hi, List.getElem?_drop]
  · rw [if_neg hjk]
    by_cases h1 : j * ls + i < dst * ls
    · rw [if_pos h1]
    · rw [if_neg h1, if_neg]
      intro h2
      exact hjk ((cell_in ls j dst i hi).1 ⟨h1, h2⟩)

/-- The row-shift loop from `real_line = rl` on, when `printer_lnum - lnum`
is `2 * d` with `d ≥ 1`: no assertion fails, and if the rows below `rl` are
already shifted and zeroed, the loop ends with every row `j < 24` holding the
original row `j + d`, or zeros when `j + d ≥ 24`; the rows from 24 on are
untouched. -/
theorem shiftRows_inv (ls : Nat) (lnum pl : Int) (d : Nat) (hd : pl - lnum = 2 * (d : Int))
    (hd1 : 1 ≤ d) (inb : List Nat) (hlen : 24 * ls ≤ inb.length) :
    ∀ (k rl : Nat) (cur : List Nat), rl + k = 24 → cur.length = inb.length →
      (∀ j i : Nat, i < ls → cur.getD (j * ls + i) 0
        = if j < rl then (if j + d < rl then inb.getD ((j + d) * ls + i) 0 else 0)
          else inb.getD (j * ls + i) 0) →
      ∃ res, shiftRows ls lnum pl k rl cur = .ok res ∧ res.length = inb.length
        ∧ ∀ j i : Nat, i < ls → res.getD (j * ls + i) 0
          = if j < 24 then (if j + d < 24 then inb.getD ((j + d) * ls + i) 0 else 0)
            else inb.getD (j * ls + i) 0 := by
  intro k
  induction k with
  | zero =>
    intro rl cur hrl hl hinv
    have : rl = 24 := by omega
    subst this
    exact ⟨cur, rfl, hl, hinv⟩
  | succ k ih =>
    intro rl cur hrl hl hinv
    have hdoc : lnum + (rl : Int) * 2 - pl = 2 * ((rl : Int) - d) := by omega
    have hmod : (lnum + (rl : Int) * 2 - pl).tmod 2 = 0 := by
      rw [hdoc]; exact Int.mul_tmod_right _ _
    have hdiv : (lnum + (rl : Int) * 2 - pl).tdiv 2 = (rl : Int) - d := by
      rw [hdoc]; exact Int.mul_tdiv_cancel_left _ (by decide)
    have hrow : ∀ r : Nat, r < 24 → r * ls + ls ≤ cur.length := by
      intro r hr
      have : (r + 1) * ls ≤ 24 * ls := Nat.mul_le_mul_right ls (by omega)
      have e : (r + 1) * ls = r * ls + ls := by ring
      omega
    simp only [shiftRows, hmod, ne_eq, not_true_eq_false, if_false, hdiv]
    rw [if_neg (by omega)]
    have hrl1 : rl * ls + ls ≤ cur.length := hrow rl (by omega)
    by_cases hge : d ≤ rl
    · have hcond : (0 : Int) ≤ (rl : Int) - d ∧ (rl : Int) - d < 24 := by omega
      rw [if_pos hcond]
      have htn : ((rl : Int) - (d : Int)).toNat = rl - d := by omega
      rw [htn]
      have hrd : (rl - d) * ls + ls ≤ cur.length := hrow (rl - d) (by omega)
      have hl1 := length_copyRow cur ls (rl - d) rl hrd hrl1
      have hrl2 : rl * ls + ls ≤ (copyRow cur ls (rl - d) rl).length := by rw [hl1]; exact hrl1
      refine ih (rl + 1) _ (by omega) (by rw [length_zeroRow _ ls rl hrl2, hl1, hl]) ?_
      intro j i hi
      rw [getD_zeroRow _ ls rl j i hi hrl2, getD_copyRow cur ls (rl - d) rl j i hi hrd hrl1,
        hinv rl i hi, hinv j i hi]
      by_cases hj : j = rl
      · subst hj
        simp only [if_true, show j < j + 1 by omega, show ¬ j + d < j + 1 by omega, if_false]
      · by_cases hj2 : j = rl - d
        · have e : j + d = rl := by omega
          subst hj2
          simp only [hj, if_false, if_true, show ¬ rl < rl by omega,
            show rl - d < rl + 1 by omega, show rl - d + d < rl + 1 by omega]
          rw [show rl - d + d = rl by omega]
        · by_cases hj3 : j < rl
          · by_cases hj4 : j + d < rl
            · simp only [hj, hj2, hj3, hj4, if_true, if_false, show j < rl + 1 by omega,
                show j + d < rl + 1 by omega]
            · simp only [hj, hj2, hj3, hj4, if_true, if_false, show j < rl + 1 by omega,
                show ¬ j + d < rl + 1 by omega]
          · simp only [hj, hj2, hj3, if_false, show ¬ j < rl + 1 by omega]
    · have hcond : ¬ ((0 : Int) ≤ (rl : Int) - d ∧ (rl : Int) - d < 24) := by omega
      rw [if_neg hcond]
      refine ih (rl + 1) _ (by omega) (by rw [length_zeroRow _ ls rl hrl1, hl]) ?_
      intro j i hi
      rw [getD_zeroRow _ ls rl j i hi hrl1, hinv j i hi]
      by_cases hj : j = rl
      · subst hj
        simp only [if_true, show j < j + 1 by omega, show ¬ j + d < j + 1 by omega, if_false]
      · by_cases hj3 : j < rl
        · simp only [hj, hj3, if_true, if_false, show j < rl + 1 by omega,
            show ¬ j + d < rl by omega, show ¬ j + d < rl + 1 by omega]
        · simp only [hj, hj3, if_false, show ¬ j < rl + 1 by omega]

/-- The row shift of the correction for `printer_lnum - lnum = 2 * d`,
`d ≥ 1`: it ends without a failed assertion, row `j < 24` of the result is
row `j + d` of the band, or zeros when `j + d ≥ 24`, and the rows from 24 on
are unchanged. -/
theorem shiftRows_spec (ls : Nat) (lnum pl : Int) (d : Nat) (hd : pl - lnum = 2 * (d : Int))
    (hd1 : 1 ≤ d) (inb : List Nat) (hlen : 24 * ls ≤ inb.length) :
    ∃ res, shiftRows ls lnum pl 24 0 inb = .ok res ∧ res.length = inb.length
      ∧ ∀ j i : Nat, i < ls → res.getD (j * ls + i) 0
        = if j < 24 then (if j + d < 24 then inb.getD ((j + d) * ls + i) 0 else 0)
          else inb.getD (j * ls + i) 0 :=
  shiftRows_inv ls lnum pl d hd hd1 inb hlen 24 0 inb (by omega) rfl (by
    intro j i _
    rw [if_neg (by omega)])


/-! ## The page rows under the print-head pins -/

theorem getD_slot (inb : List Nat) (ls j i : Nat) (hi : i < ls) :
    (slot inb ls j).getD i 0 = inb.getD (j * ls + i) 0 := by
  unfold slot
  rw [Nat.mul_comm, getD_chunk inb ls j i hi]

theorem length_slot (inb : List Nat) (ls j : Nat) (h : j * ls + ls ≤ inb.length) :
    (slot inb ls j).length = ls := by
  simp only [slot, List.length_take, List.length_drop]
  omega

theorem row_bound (ls n j : Nat) (hj : j < n) : j * ls + ls ≤ n * ls := by
  have : (j + 1) * ls ≤ n * ls := Nat.mul_le_mul_right ls (by omega)
  have e : (j + 1) * ls = j * ls + ls := by ring
  omega

/-- Under vertical doubling, and on the forward path without it, every
printed slot `j < 24` of the band handed to the transposition holds the page
row under pin `j` (row `printer_lnum + 2j`, or `printer_lnum + j` without
doubling) or is all zero. -/
theorem reconcile_rows (c : PageCfg) (fetch : Fetch) (st : PageState)
    (r : Int × List Nat × List Nat) (hpl : 0 ≤ st.printer_lnum)
    (hpath : c.y_high = true ∨ ¬ (st.lnum < 0 ∨ st.lnum < st.printer_lnum))
    (h : reconcile c st (assembleBand fetch c.line_size c.y_high st.lnum) = .ok r)
    (j : Nat) (hj : j < 24) :
    slot r.2.2 c.line_size j
        = fetchRow fetch c.line_size (r.1 + (if c.y_high then 2 else 1) * (j : Int))
    ∨ slot r.2.2 c.line_size j = List.replicate c.line_size 0 := by
  by_cases hc : st.lnum < 0 ∨ st.lnum < st.printer_lnum
  · have hy : c.y_high = true := by
      rcases hpath with h1 | h1
      · exact h1
      · exact absurd hc h1
    rw [hy] at h ⊢
    obtain ⟨_, hcase, hpar, hshift⟩ := reconcile_correction c st _ r hc h
    have hpos : 0 < r.1 - st.lnum := by
      rcases hcase with ⟨_, h1, _⟩ | ⟨_, h1, _⟩ <;> omega
    obtain ⟨d, hd⟩ : ∃ d : Nat, r.1 - st.lnum = 2 * (d : Int) := by
      refine ⟨((r.1 - st.lnum) / 2).toNat, ?_⟩
      have := Int.tmod_eq_emod (a := r.1 - st.lnum) (b := 2) (by omega) (by omega)
      omega
    have hlen := assembleBand_length fetch c.line_size true st.lnum
    simp only [if_true] at hlen
    obtain ⟨res, hres, hrl, hcell⟩ := shiftRows_spec c.line_size st.lnum r.1 d hd (by omega)
      (assembleBand fetch c.line_size true st.lnum) (by omega)
    rw [hshift] at hres
    simp only [Except.ok.injEq] at hres
    have hb : j * c.line_size + c.line_size ≤ r.2.2.length := by
      have := row_bound c.line_size 48 j (by omega)
      rw [hres, hrl]; omega
    by_cases hjd : j + d < 24
    · left
      have hslot := (assembleBand_slots fetch c.line_size st.lnum (j + d) hjd).1
      simp only [if_true]
      rw [show r.1 + 2 * (j : Int) = st.lnum + 2 * ((j + d : Nat) : Int) by push_cast; omega,
        ← hslot]
      apply ext_getD
      · rw [length_slot _ _ _ hb, length_slot]
        have := row_bound c.line_size 48 (j + d) (by omega)
        omega
      · intro i hi
        rw [length_slot _ _ _ hb] at hi
        rw [getD_slot _ _ _ _ hi, getD_slot _ _ _ _ hi, hres, hcell j i hi, if_pos hj,
          if_pos hjd]
    · right
      apply ext_getD
      · rw [length_slot _ _ _ hb, List.length_replicate]
      · intro i hi
        rw [length_slot _ _ _ hb] at hi
        rw [getD_slot _ _ _ _ hi, hres, hcell j i hi, if_pos hj, if_neg hjd]
        simp [List.getD_eq_getElem?_getD, List.getElem?_replicate, hi]
  · left
    rw [reconcile_forward c st _ hc] at h
    simp only [Except.ok.injEq] at h
    subst h
    simp only []
    cases hy : c.y_high with
    | true =>
      simp only [if_true]
      exact (assembleBand_slots fetch c.line_size st.lnum j hj).1
    | false =>
      simp only [Bool.false_eq_true, if_false, Int.one_mul]
      exact (assembleBand_slots fetch c.line_size st.lnum j hj).2.2.1

set_option maxRecDepth 1000000 in
/-- C18, evaluated at 180x180 dpi on a page whose row 0 holds the byte 128
and whose other rows are zero: in the first iteration (`lnum = -12`,
`printer_lnum = 0`) the correction leaves `printer_lnum = 0` and hands a
band to the transposition whose slot 6 holds page row 0; the row under pin 6
is row `printer_lnum + 6 = 6`, which is all zero, and slot 0, under which
row 0 lies, is all zero.  So slot 6 is neither all zero nor the row under its
pin, and the iteration prints row 0 six rows too low. -/
theorem correction_misplaces_rows_at_180 :
    ∃ band : List Nat,
      reconcile ⟨180, 180, 1, 24, false⟩ ⟨-12, 0, 0, true, []⟩
          (assembleBand (fun line => if line = 0 then some [128] else some [0]) 1 false (-12))
        = .ok (0, [], band)
      ∧ slot band 1 6 = fetchRow (fun line => if line = 0 then some [128] else some [0]) 1 0
      ∧ slot band 1 6 = [128]
      ∧ fetchRow (fun line => if line = 0 then some [128] else some [0]) 1 (0 + 6) = [0]
      ∧ slot band 1 0 = [0]
      ∧ pageStep ⟨180, 180, 1, 24, false⟩ (fun line => if line = 0 then some [128] else some [0])
          ⟨-12, 0, 0, true, []⟩
        = .ok ⟨0, 0, 1, true, [27, 36, 0, 0, 27, 42, 39, 1, 0, 2, 0, 0, 13]⟩ :=
  ⟨[0, 0, 0, 0, 0, 0, 128, 0, 0, 0, 0, 0, 0, 0, 0, 0, 0, 0, 0, 0, 0, 0, 0, 0],
    rfl, rfl, rfl, rfl, rfl, rfl⟩


/-! ## Write failures -/

/-- Writing two chunks one after the other leaves the sink as writing their
concatenation does: the sink does not depend on how the page is cut into
write calls. -/
theorem Sink.write_append (s : Sink) (a b : List Nat) :
    (s.write a).write b = s.write (a ++ b) := by
  simp only [Sink.write, List.length_append, List.take_append_eq_append_take,
    List.append_assoc, Sink.mk.injEq]
  refine ⟨by omega, trivial, ?_⟩
  rw [Bool.eq_iff_iff]
  simp only [Bool.or_eq_true, decide_eq_true_eq, or_assoc]
  apply or_congr_right
  omega

/-- C17, at a 360x360 page of height 48 without scanlines and a sink that
accepts two more bytes: the write of the three trailer bytes fails (the
error indicator of the sink is set, the `@` is lost), and `dot24_print_page`
still returns 0. -/
theorem write_failure_not_propagated :
    ∃ r : Sink × Int,
      dot24_print_page_sink ⟨2, [], false⟩ ⟨360, 360, 1, 48, false⟩ (fun _ => none) = .ok r
      ∧ r.1.failed = true ∧ r.1.stored = [12, 27] ∧ r.2 = 0 :=
  ⟨(⟨0, [12, 27], true⟩, 0), rfl, rfl, rfl, rfl⟩

/-- C17 as amended: the results of the write calls are not looked at.  For
every sink, `dot24_print_page` ends as it does without regard to the sink:
with the same failed assertion, or, when the page loop runs to its end, with
the return value 0 after handing the sink the same bytes, of which the sink
keeps what it accepts. -/
theorem dot24_print_page_sink_result (s : Sink) (c : PageCfg) (fetch : Fetch) :
    (∀ e, dot24_print_page_sink s c fetch = .error e ↔ dot24_print_page c fetch = .error e)
    ∧ (∀ r, dot24_print_page_sink s c fetch = .ok r ↔
        r.2 = 0 ∧ ∃ bytes, dot24_print_page c fetch = .ok (bytes, 0) ∧ r.1 = s.write bytes) := by
  have hcode : ∀ bytes code, dot24_print_page c fetch = .ok (bytes, code) → code = 0 := by
    intro bytes code h
    unfold dot24_print_page at h
    split at h
    · simp at h
    · simp only [] at h
      split at h
      · simp only [Except.ok.injEq, Prod.mk.injEq] at h
        exact h.2.symm
      · simp at h
  unfold dot24_print_page_sink
  cases hp : dot24_print_page c fetch with
  | error e1 =>
    constructor
    · intro e; simp
    · intro r; simp
  | ok v =>
    obtain ⟨bytes, code⟩ := v
    have hc := hcode bytes code hp
    subst hc
    constructor
    · intro e; simp
    · intro r
      obtain ⟨r1, r2⟩ := r
      simp only [Except.ok.injEq, Prod.mk.injEq]
      constructor
      · rintro ⟨h1, h2⟩
        exact ⟨h2.symm, bytes, ⟨rfl, trivial⟩, h1.symm⟩
      · rintro ⟨h1, b, ⟨hb, _⟩, h2⟩
        subst hb
        exact ⟨h2.symm, h1.symm⟩


/-! ## The page body as a list of commands -/

theorem countPos_append (x y : List Op) : countPos (x ++ y) = countPos x + countPos y := by
  simp [countPos]

theorem countRun_append (x y : List Op) : countRun (x ++ y) = countRun x + countRun y := by
  simp [countRun]

theorem pageLoop_step (c : PageCfg) (fetch : Fetch) (f : Nat) (st st1 : PageState)
    (hlt : st.lnum < c.height) (hs : pageStep c fetch st = .ok st1) :
    pageLoop c fetch (f + 1) st = pageLoop c fetch f st1 := by
  simp only [pageLoop, hlt, if_true, hs]

theorem pageLoop_done (c : PageCfg) (fetch : Fetch) (f : Nat) (st : PageState)
    (hge : ¬ st.lnum < c.height) : pageLoop c fetch f st = .ok st := by
  cases f <;> simp [pageLoop, hge]

/-- The blank-run count when exactly the first `n` rows from `lnum` on are
all zero. -/
theorem leadingBlank_exact (fetch : Fetch) (ls : Nat) : ∀ (n cap : Nat) (lnum : Int),
    (∀ k : Nat, k < n → rowBlank fetch ls (lnum + k) = true) →
    rowBlank fetch ls (lnum + n) = false → n < cap →
    leadingBlank fetch ls lnum cap = n := by
  intro n
  induction n with
  | zero =>
    intro cap lnum _ hn hcap
    obtain ⟨m, rfl⟩ : ∃ m, cap = m + 1 := ⟨cap - 1, by omega⟩
    have : rowBlank fetch ls lnum = false := by simpa using hn
    simp [leadingBlank, this]
  | succ n ih =>
    intro cap lnum hall hn hcap
    obtain ⟨m, rfl⟩ : ∃ m, cap = m + 1 := ⟨cap - 1, by omega⟩
    have h0 : rowBlank fetch ls lnum = true := by simpa using hall 0 (by omega)
    rw [leadingBlank, if_pos h0, ih m (lnum + 1) _ _ (by omega)]
    · omega
    · intro k hk
      have := hall (k + 1) (by omega)
      rw [show lnum + 1 + (k : Int) = lnum + ((k + 1 : Nat) : Int) by push_cast; ring]
      exact this
    · rw [show lnum + 1 + (n : Int) = lnum + ((n + 1 : Nat) : Int) by push_cast; ring]
      exact hn

/-- The correction path evaluated: with `printer_lnum < 4`, the new
`printer_lnum` and the feed chosen by the parity test, and a distance of
`2 * d` rows, `d ≥ 1`, between `lnum` and the new `printer_lnum`, no
assertion fails and row `j < 24` of the band handed on is row `j + d` of the
assembled band, or zeros. -/
theorem reconcile_correction_eval (c : PageCfg) (st : PageState) (inb : List Nat)
    (hc : st.lnum < 0 ∨ st.lnum < st.printer_lnum) (h4 : st.printer_lnum < 4)
    (pl : Int) (o : List Nat)
    (hpar : (if st.lnum.tmod 2 ≠ st.printer_lnum.tmod 2 then
        (st.printer_lnum + 1, dot24_skip_lines 1 c.y_high) else (st.printer_lnum, []))
      = (pl, o))
    (d : Nat) (hd : pl - st.lnum = 2 * (d : Int)) (hd1 : 1 ≤ d)
    (hlen : 24 * c.line_size ≤ inb.length) :
    ∃ res, reconcile c st inb = .ok (pl, o, res) ∧ res.length = inb.length
      ∧ ∀ j i : Nat, i < c.line_size → res.getD (j * c.line_size + i) 0
        = if j < 24 then (if j + d < 24 then inb.getD ((j + d) * c.line_size + i) 0 else 0)
          else inb.getD (j * c.line_size + i) 0 := by
  obtain ⟨res, hres, hl, hcell⟩ := shiftRows_spec c.line_size st.lnum pl d hd hd1 inb hlen
  refine ⟨res, ?_, hl, hcell⟩
  unfold reconcile
  rw [if_pos hc, if_neg (by simpa using h4), hpar]
  simp only []
  have hmod : (pl - st.lnum).tmod 2 = 0 := by rw [hd]; exact Int.mul_tmod_right _ _
  rw [if_neg (by simpa using hmod), hres]
  rfl

/-- The transposition of a band whose printed rows are zero except for the
value `v` in byte 0 of row 0, `v` being 0 or 128. -/
theorem transposeBand_dot (res : List Nat) (ls : Nat) (v : Nat) (hv : v = 0 ∨ v = 128)
    (hcell : ∀ j i : Nat, j < 24 → i < ls →
      res.getD (j * ls + i) 0 = if j = 0 ∧ i = 0 then v else 0) :
    transposeBand res ls = (List.range (24 * ls)).map fun n => if n = 0 then v else 0 := by
  apply ext_getD
  · rw [transposeBand_length]; simp
  · intro n hn
    rw [transposeBand_length] at hn
    have hc : n / 24 < ls := by omega
    have hn' : n = 24 * (n / 24) + 3 * (n % 24 / 3) + n % 3 := by omega
    have hR : ((List.range (24 * ls)).map fun n => if n = 0 then v else 0).getD n 0
        = if n = 0 then v else 0 := by
      simp [List.getD_eq_getElem?_getD, List.getElem?_map, List.getElem?_range hn]
    rw [hR]
    conv_lhs => rw [hn']
    rw [transposeBand_getD res ls (n / 24) (n % 24 / 3) (n % 3) hc (by omega) (by omega)]
    have hf : ∀ k : Nat, k < 8 → res.getD ((8 * (n % 3) + k) * ls + n / 24) 0
        = if 8 * (n % 3) + k = 0 ∧ n / 24 = 0 then v else 0 :=
      fun k hk => hcell _ _ (by omega) hc
    simp only [range8, List.map_cons, List.map_nil, hf 0 (by omega), hf 1 (by omega),
      hf 2 (by omega), hf 3 (by omega), hf 4 (by omega), hf 5 (by omega), hf 6 (by omega),
      hf 7 (by omega)]
    have hb : n % 24 / 3 < 8 := by omega
    by_cases h0 : n % 3 = 0 ∧ n / 24 = 0
    · obtain ⟨h1, h2⟩ := h0
      simp only [h1, h2, Nat.mul_zero, Nat.zero_add, and_true, Nat.add_eq_zero_iff,
        OfNat.ofNat_ne_zero, one_ne_zero, and_false, false_and, if_false, true_and, if_true]
      have hn3 : n % 24 / 3 = n / 3 := by omega
      rw [hn3]
      rcases hv with hv | hv <;> subst hv
      · have : n / 3 < 8 := by omega
        have hz : (memflip8x8 [0, 0, 0, 0, 0, 0, 0, 0]).getD (n / 3) 0 = 0 := by
          interval_cases (n / 3) <;> rfl
        rw [hz, ite_self]
      · have : n / 3 < 8 := by omega
        have hz : (memflip8x8 [128, 0, 0, 0, 0, 0, 0, 0]).getD (n / 3) 0
            = if n / 3 = 0 then 128 else 0 := by
          interval_cases (n / 3) <;> rfl
        rw [hz]
        by_cases hn0 : n = 0
        · subst hn0; rfl
        · rw [if_neg hn0, if_neg (by omega)]
    · have hall : ∀ k : Nat, ¬ (8 * (n % 3) + k = 0 ∧ n / 24 = 0) := by
        intro k hk
        exact h0 ⟨by omega, hk.2⟩
      simp only [hall, if_false]
      have hz : (memflip8x8 [0, 0, 0, 0, 0, 0, 0, 0]).getD (n % 24 / 3) 0 = 0 := by
        interval_cases (n % 24 / 3) <;> rfl
      rw [hz, if_neg]
      intro hn0
      subst hn0
      exact h0 ⟨rfl, rfl⟩

theorem range_map_zero (m : Nat) :
    ((List.range m).map fun n => if n = 0 then (0 : Nat) else 0) = List.replicate m 0 := by
  apply ext_getD
  · simp
  · intro n hn
    simp only [List.length_map, List.length_range] at hn
    simp [List.getD_eq_getElem?_getD, List.getElem?_map, List.getElem?_range hn,
      List.getElem?_replicate, hn]

theorem range_map_dot (m : Nat) :
    ((List.range (m + 1)).map fun n => if n = 0 then (128 : Nat) else 0)
      = 128 :: List.replicate m 0 := by
  apply ext_getD
  · simp
  · intro n hn
    simp only [List.length_map, List.length_range] at hn
    cases n with
    | zero => simp [List.getD_eq_getElem?_getD, List.getElem?_map, List.getElem?_range hn]
    | succ n =>
      have hn2 : n < m := by omega
      simp [List.getD_eq_getElem?_getD, List.getElem?_map, List.getElem?_range hn,
        List.getElem?_replicate, hn2]

theorem getD_replicate_zero (m i : Nat) : (List.replicate m 0).getD i 0 = 0 := by
  simp only [List.getD_eq_getElem?_getD, List.getElem?_replicate]
  split <;> rfl

/-- An all-zero band prints nothing, in either direction. -/
theorem print_line_zero (m : Nat) (hm : m % 3 = 0) (x_high print_even_dots : Bool)
    (xres bpp : Nat) :
    dot24_print_line (List.replicate m 0) x_high print_even_dots xres bpp = []
    ∧ dot24_print_line_backwards (List.replicate m 0) x_high print_even_dots xres bpp = [] := by
  have ht := trimmed_of_band (List.replicate m 0) (by simpa using hm)
  have he : trimEnd (List.replicate m 0) 0 (List.replicate m 0).length
      (List.replicate m 0).length = 0 := by
    have h3 := ht.mod3
    by_contra hne
    exact ht.last (by omega) ⟨getD_replicate_zero _ _, getD_replicate_zero _ _,
      getD_replicate_zero _ _⟩
  constructor
  · simp only [dot24_print_line, dot24_print_line_blocks, he, fwdLoop, emitBlocks,
      List.flatMap_nil]
  · simp only [dot24_print_line_backwards, dot24_print_line_backwards_blocks, he, bwdLoop,
      emitBlocks, List.flatMap_nil]

/-- A band whose only non-zero byte is its first one, 128, prints at 360 dpi
in the even phase as one block at position 0 with one run of one
dot-column. -/
theorem print_line_dot (m : Nat) (hm : (m + 3) % 3 = 0) :
    dot24_print_line (128 :: 0 :: 0 :: List.replicate m 0) true true 360 18
      = [27, 36, 0, 0, 27, 42, 39, 1, 0, 128, 0, 0, 13] := by
  have hlen : (128 :: 0 :: 0 :: List.replicate m 0).length = m + 3 := by simp
  have ht := trimmed_of_band (128 :: 0 :: 0 :: List.replicate m 0) (by rw [hlen]; exact hm)
  have hzero : ∀ i, 3 ≤ i → (128 :: 0 :: 0 :: List.replicate m 0).getD i 0 = 0 := by
    intro i hi
    obtain ⟨k, rfl⟩ : ∃ k, i = k + 3 := ⟨i - 3, by omega⟩
    simp only [List.getD_cons_succ]
    exact getD_replicate_zero m k
  have he : trimEnd (128 :: 0 :: 0 :: List.replicate m 0) 0
      (128 :: 0 :: 0 :: List.replicate m 0).length
      (128 :: 0 :: 0 :: List.replicate m 0).length = 3 := by
    have h3 := ht.mod3
    have hza := trimEnd_zero_after (128 :: 0 :: 0 :: List.replicate m 0)
    generalize trimEnd (128 :: 0 :: 0 :: List.replicate m 0) 0
      (128 :: 0 :: 0 :: List.replicate m 0).length
      (128 :: 0 :: 0 :: List.replicate m 0).length = e at *
    by_contra hne
    by_cases h0 : e = 0
    · subst h0
      have := hza 0 (le_refl _) (by rw [hlen]; omega)
      simp at this
    · exact ht.last (by omega) ⟨hzero _ (by omega), hzero _ (by omega), hzero _ (by omega)⟩
  simp only [dot24_print_line, dot24_print_line_blocks, he]
  have hblocks : fwdLoop (128 :: 0 :: 0 :: List.replicate m 0) 360 18 3 3 0 = [⟨0, 0, 3⟩] := by
    simp [fwdLoop, fwdBlkStart, fwdBlkEnd, scanUp, scanZero]
  rw [hblocks]
  simp only [emitBlocks, List.flatMap_cons, List.flatMap_nil, List.append_nil, List.drop_zero,
    Nat.sub_zero]
  have : (128 :: 0 :: 0 :: List.replicate m 0).take 3 = [128, 0, 0] := by simp
  rw [this]
  rfl


/-! ## A 360x360 page with one pixel at row 0, column 0 -/

theorem dot_cfg (c : PageCfg) (hxr : c.xres = 360) (hyr : c.yres = 360) :
    c.x_high = true ∧ c.y_high = true ∧ c.bytes_per_pos = 18 ∧ threshold c = 36
      ∧ blankCap c = 48 := by
  simp [PageCfg.x_high, PageCfg.y_high, PageCfg.bytes_per_pos, threshold, blankCap, hxr, hyr]

theorem dot_row0 (fetch : Fetch) (ls : Nat)
    (h0 : fetchRow fetch ls 0 = 128 :: List.replicate (ls - 1) 0) :
    rowBlank fetch ls 0 = false := by
  simp [rowBlank, h0]

/-- The bytes of the even rows of the band assembled at `lnum`, for the page
whose only non-zero byte is the 128 at the start of row 0. -/
theorem dot_cells (fetch : Fetch) (ls : Nat)
    (h0 : fetchRow fetch ls 0 = 128 :: List.replicate (ls - 1) 0)
    (hz : ∀ line : Int, line ≠ 0 → rowBlank fetch ls line = true)
    (lnum : Int) (s i : Nat) (hs : s < 24) (hi : i < ls) :
    (assembleBand fetch ls true lnum).getD (s * ls + i) 0
      = if lnum + 2 * (s : Int) = 0 ∧ i = 0 then 128 else 0 := by
  rw [← getD_slot _ ls s i hi, (assembleBand_slots fetch ls lnum s hs).1]
  by_cases hrow : lnum + 2 * (s : Int) = 0
  · rw [hrow, h0]
    cases i with
    | zero => simp
    | succ i =>
      simp only [List.getD_cons_succ, hrow, true_and, Nat.add_one_ne_zero, if_false]
      exact getD_replicate_zero _ _
  · rw [(rowBlank_iff fetch ls _).1 (hz _ hrow), if_neg (fun h => hrow h.1)]
    exact getD_replicate_zero _ _

theorem dot_not_skip (c : PageCfg) (fetch : Fetch) (hxr : c.xres = 360) (hyr : c.yres = 360)
    (h0 : fetchRow fetch c.line_size 0 = 128 :: List.replicate (c.line_size - 1) 0)
    (hz : ∀ line : Int, line ≠ 0 → rowBlank fetch c.line_size line = true)
    (st : PageState) (hneg : st.lnum < 0) (hlow : -36 ≤ st.lnum) :
    skipsBand c fetch st = false := by
  obtain ⟨_, _, _, hthr, hcap⟩ := dot_cfg c hxr hyr
  have hb := hz st.lnum (by omega)
  have he := emptyLines_eq c fetch st.lnum (Or.inr hxr) (Or.inr hyr) hb
  have hlb : leadingBlank fetch c.line_size st.lnum 48 = (-st.lnum).toNat := by
    apply leadingBlank_exact
    · intro k hk
      exact hz _ (by omega)
    · rw [show st.lnum + (((-st.lnum).toNat : Nat) : Int) = 0 by omega]
      exact dot_row0 fetch c.line_size h0
    · omega
  simp only [skipsBand, he, hcap, hthr, hlb, Bool.and_eq_false_imp, decide_eq_true_eq,
    decide_eq_false_iff_not]
  intro _
  omega

theorem dot_skip (c : PageCfg) (fetch : Fetch) (hxr : c.xres = 360) (hyr : c.yres = 360)
    (hls : 1 ≤ c.line_size)
    (hz : ∀ line : Int, line ≠ 0 → rowBlank fetch c.line_size line = true)
    (st : PageState) (hpos : 0 < st.lnum) :
    pageStep c fetch st = .ok { st with lnum := st.lnum + 12 } := by
  obtain ⟨_, _, _, hthr, hcap⟩ := dot_cfg c hxr hyr
  have hall : leadingBlank fetch c.line_size st.lnum (blankCap c) = blankCap c :=
    leadingBlank_all fetch c.line_size (blankCap c) st.lnum (fun k _ => hz _ (by omega))
  have := pageStep_skip c fetch st (Or.inr hxr) (Or.inr hyr) hls (by rw [hall, hthr, hcap]; omega)
  rw [this, hall, hthr, hcap]
  rfl

/-- A printing iteration on the one-pixel page, entered with `lnum < 0`:
the correction runs, and the band printed is all zero except that row 0 of
the page, when it lies under pin 0, gives the byte 128 at its start. -/
theorem dot_print (c : PageCfg) (fetch : Fetch) (hxr : c.xres = 360) (hyr : c.yres = 360)
    (h0 : fetchRow fetch c.line_size 0 = 128 :: List.replicate (c.line_size - 1) 0)
    (hz : ∀ line : Int, line ≠ 0 → rowBlank fetch c.line_size line = true)
    (st : PageState) (hneg : st.lnum < 0) (hlow : -36 ≤ st.lnum)
    (hpl0 : 0 ≤ st.printer_lnum) (h4 : st.printer_lnum < 4)
    (pl : Int) (o : List Nat)
    (hpar : (if st.lnum.tmod 2 ≠ st.printer_lnum.tmod 2 then
        (st.printer_lnum + 1, dot24_skip_lines 1 c.y_high) else (st.printer_lnum, []))
      = (pl, o))
    (d : Nat) (hd : pl - st.lnum = 2 * (d : Int)) :
    ∃ res, pageStep c fetch st
        = .ok { lnum := nextLnum c st.lnum, printer_lnum := pl, cycle := (st.cycle + 1) % 4,
                forward := if c.bidirectional then !st.forward else st.forward,
                out := st.out ++ o ++ printedBytes c st res }
      ∧ transposeBand res c.line_size
          = (List.range (24 * c.line_size)).map fun n =>
              if n = 0 then (if pl = 0 then 128 else 0) else 0 := by
  obtain ⟨_, hyh, _, _, _⟩ := dot_cfg c hxr hyr
  have hlen := assembleBand_length fetch c.line_size c.y_high st.lnum
  rw [hyh] at hlen
  simp only [if_true] at hlen
  have hpl : st.printer_lnum ≤ pl := by
    split at hpar <;> simp only [Prod.mk.injEq] at hpar <;> omega
  obtain ⟨res, hres, _, hcell⟩ := reconcile_correction_eval c st
    (assembleBand fetch c.line_size c.y_high st.lnum) (Or.inl hneg) h4 pl o hpar d hd (by omega)
    (by rw [hyh, hlen]; omega)
  refine ⟨res, ?_, ?_⟩
  · rw [pageStep_of_not_skips c fetch st (dot_not_skip c fetch hxr hyr h0 hz st hneg hlow),
      printBand_eq, hres]
    rfl
  · apply transposeBand_dot
    · split
      · exact Or.inr rfl
      · exact Or.inl rfl
    · intro j i hj hi
      rw [hcell j i hi, if_pos hj]
      by_cases hjd : j + d < 24
      · rw [if_pos hjd, hyh, dot_cells fetch c.line_size h0 hz st.lnum (j + d) i hjd hi]
        by_cases hcond : j = 0 ∧ i = 0
        · obtain ⟨hj0, hi0⟩ := hcond
          subst hj0 hi0
          simp only [and_self, if_true, and_true]
          by_cases hp : pl = 0
          · rw [if_pos hp, if_pos (by push_cast; omega)]
          · rw [if_neg hp, if_neg (by push_cast; omega)]
        · rw [if_neg hcond, if_neg]
          rintro ⟨h1, h2⟩
          apply hcond
          refine ⟨?_, h2⟩
          push_cast at h1
          omega
      · rw [if_neg hjd]
        by_cases hcond : j = 0 ∧ i = 0
        · obtain ⟨hj0, hi0⟩ := hcond
          subst hj0 hi0
          simp only [and_self, if_true]
          rw [if_neg (by omega)]
        · rw [if_neg hcond]

theorem dot_first_iter (c : PageCfg) (fetch : Fetch) (hxr : c.xres = 360) (hyr : c.yres = 360)
    (hls : 1 ≤ c.line_size)
    (h0 : fetchRow fetch c.line_size 0 = 128 :: List.replicate (c.line_size - 1) 0)
    (hz : ∀ line : Int, line ≠ 0 → rowBlank fetch c.line_size line = true) :
    pageStep c fetch ⟨-36, 0, 0, true, []⟩
      = .ok ⟨-25, 0, 1, if c.bidirectional then false else true,
          [27, 36, 0, 0, 27, 42, 39, 1, 0, 128, 0, 0, 13]⟩ := by
  obtain ⟨hxh, hyh, hbpp, _, _⟩ := dot_cfg c hxr hyr
  obtain ⟨res, hstep, hband⟩ := dot_print c fetch hxr hyr h0 hz ⟨-36, 0, 0, true, []⟩
    (by decide) (by decide) (by decide) (by decide) 0 []
    (by rw [if_neg (by decide)]) 18 (by decide)
  rw [hstep]
  have hnext : nextLnum c (-36) = -25 := by
    simp only [nextLnum, hxh, hyh, Bool.and_self, if_true]
    rfl
  have hb : transposeBand res c.line_size
      = 128 :: 0 :: 0 :: List.replicate (24 * c.line_size - 3) 0 := by
    rw [hband]
    simp only [reduceIte]
    rw [show 24 * c.line_size = (24 * c.line_size - 3 + 1 + 1) + 1 by omega, range_map_dot]
    simp only [List.replicate_succ]
    rw [show 24 * c.line_size - 3 + 1 + 1 + 1 - 3 = 24 * c.line_size - 3 by omega]
  have hp : printedBytes c ⟨-36, 0, 0, true, []⟩ res
      = [27, 36, 0, 0, 27, 42, 39, 1, 0, 128, 0, 0, 13] := by
    simp only [printedBytes, hb, hxh, hxr, hbpp, if_true]
    exact print_line_dot (24 * c.line_size - 3) (by omega)
  rw [hp, hnext]
  rfl

theorem dot_blank_iter (c : PageCfg) (fetch : Fetch) (hxr : c.xres = 360) (hyr : c.yres = 360)
    (h0 : fetchRow fetch c.line_size 0 = 128 :: List.replicate (c.line_size - 1) 0)
    (hz : ∀ line : Int, line ≠ 0 → rowBlank fetch c.line_size line = true)
    (st : PageState)
    (hcase : (st.lnum = -25 ∧ st.printer_lnum = 0) ∨ (st.lnum = -12 ∧ st.printer_lnum = 1)
      ∨ (st.lnum = -1 ∧ st.printer_lnum = 2)) :
    pageStep c fetch st
      = .ok { lnum := nextLnum c st.lnum, printer_lnum := st.printer_lnum + 1,
              cycle := (st.cycle + 1) % 4,
              forward := if c.bidirectional then !st.forward else st.forward,
              out := st.out ++ [27, 43, 1, 10, 27, 43, 0] } := by
  obtain ⟨hxh, hyh, hbpp, _, _⟩ := dot_cfg c hxr hyr
  have hpar : (if st.lnum.tmod 2 ≠ st.printer_lnum.tmod 2 then
        (st.printer_lnum + 1, dot24_skip_lines 1 c.y_high) else (st.printer_lnum, []))
      = (st.printer_lnum + 1, [27, 43, 1, 10, 27, 43, 0]) := by
    rw [hyh]
    rcases hcase with ⟨h1, h2⟩ | ⟨h1, h2⟩ | ⟨h1, h2⟩ <;> rw [h1, h2] <;> rfl
  obtain ⟨d, hd⟩ : ∃ d : Nat, st.printer_lnum + 1 - st.lnum = 2 * (d : Int) := by
    rcases hcase with ⟨h1, h2⟩ | ⟨h1, h2⟩ | ⟨h1, h2⟩
    · exact ⟨13, by rw [h1, h2]; rfl⟩
    · exact ⟨7, by rw [h1, h2]; rfl⟩
    · exact ⟨2, by rw [h1, h2]; rfl⟩
  obtain ⟨res, hstep, hband⟩ := dot_print c fetch hxr hyr h0 hz st (by omega) (by omega)
    (by omega) (by omega) (st.printer_lnum + 1) [27, 43, 1, 10, 27, 43, 0] hpar d hd
  rw [hstep]
  have hb : transposeBand res c.line_size = List.replicate (24 * c.line_size) 0 := by
    rw [hband, if_neg (by omega)]
    exact range_map_zero _
  have hp : printedBytes c st res = [] := by
    simp only [printedBytes, hb]
    have hzero := print_line_zero (24 * c.line_size) (by omega) c.x_high
      (!c.x_high || decide (st.cycle < 2)) c.xres c.bytes_per_pos
    split
    · exact hzero.1
    · exact hzero.2
  rw [hp, List.append_nil]

theorem dot_nextLnum (c : PageCfg) (hxr : c.xres = 360) (hyr : c.yres = 360) (l : Int) :
    nextLnum c l = l + (if l.tmod 2 = 0 then 11 else 13) := by
  obtain ⟨hxh, hyh, _⟩ := dot_cfg c hxr hyr
  simp only [nextLnum, hxh, hyh, Bool.and_self, if_true]

/-- The page loop on the one-pixel page: one printed block, three bands that
print nothing after a one-row feed each, three blank-run skips. -/
theorem dot_pageLoop (c : PageCfg) (fetch : Fetch) (hxr : c.xres = 360) (hyr : c.yres = 360)
    (hh : c.height = 48) (hls : 1 ≤ c.line_size)
    (h0 : fetchRow fetch c.line_size 0 = 128 :: List.replicate (c.line_size - 1) 0)
    (hz : ∀ line : Int, line ≠ 0 → rowBlank fetch c.line_size line = true) :
    ∃ st : PageState, pageLoop c fetch 84 ⟨-36, 0, 0, true, []⟩ = .ok st
      ∧ st.out = [27, 36, 0, 0, 27, 42, 39, 1, 0, 128, 0, 0, 13]
          ++ [27, 43, 1, 10, 27, 43, 0] ++ [27, 43, 1, 10, 27, 43, 0]
          ++ [27, 43, 1, 10, 27, 43, 0] := by
  have e1 := dot_first_iter c fetch hxr hyr hls h0 hz
  generalize (if c.bidirectional then false else true) = f1 at e1
  have e2 : pageStep c fetch ⟨-25, 0, 1, f1, [27, 36, 0, 0, 27, 42, 39, 1, 0, 128, 0, 0, 13]⟩
      = .ok ⟨-12, 1, 2, if c.bidirectional then !f1 else f1,
          [27, 36, 0, 0, 27, 42, 39, 1, 0, 128, 0, 0, 13] ++ [27, 43, 1, 10, 27, 43, 0]⟩ := by
    have := dot_blank_iter c fetch hxr hyr h0 hz
      ⟨-25, 0, 1, f1, [27, 36, 0, 0, 27, 42, 39, 1, 0, 128, 0, 0, 13]⟩ (Or.inl ⟨rfl, rfl⟩)
    rw [dot_nextLnum c hxr hyr] at this
    have hl : (-25 : Int) + (if (-25 : Int).tmod 2 = 0 then 11 else 13) = -12 := by decide
    simp only [] at this
    rw [hl] at this
    exact this
  generalize (if c.bidirectional then !f1 else f1) = f2 at e2
  have e3 : pageStep c fetch ⟨-12, 1, 2, f2, [27, 36, 0, 0, 27, 42, 39, 1, 0, 128, 0, 0, 13] ++ [27, 43, 1, 10, 27, 43, 0]⟩
      = .ok ⟨-1, 2, 3, if c.bidirectional then !f2 else f2,
          [27, 36, 0, 0, 27, 42, 39, 1, 0, 128, 0, 0, 13] ++ [27, 43, 1, 10, 27, 43, 0] ++ [27, 43, 1, 10, 27, 43, 0]⟩ := by
    have := dot_blank_iter c fetch hxr hyr h0 hz
      ⟨-12, 1, 2, f2, [27, 36, 0, 0, 27, 42, 39, 1, 0, 128, 0, 0, 13] ++ [27, 43, 1, 10, 27, 43, 0]⟩ (Or.inr (Or.inl ⟨rfl, rfl⟩))
    rw [dot_nextLnum c hxr hyr] at this
    have hl : (-12 : Int) + (if (-12 : Int).tmod 2 = 0 then 11 else 13) = -1 := by decide
    simp only [] at this
    rw [hl] at this
    exact this
  generalize (if c.bidirectional then !f2 else f2) = f3 at e3
  have e4 : pageStep c fetch ⟨-1, 2, 3, f3, [27, 36, 0, 0, 27, 42, 39, 1, 0, 128, 0, 0, 13] ++ [27, 43, 1, 10, 27, 43, 0] ++ [27, 43, 1, 10, 27, 43, 0]⟩
      = .ok ⟨12, 3, 0, if c.bidirectional then !f3 else f3,
          [27, 36, 0, 0, 27, 42, 39, 1, 0, 128, 0, 0, 13] ++ [27, 43, 1, 10, 27, 43, 0] ++ [27, 43, 1, 10, 27, 43, 0] ++ [27, 43, 1, 10, 27, 43, 0]⟩ := by
    have := dot_blank_iter c fetch hxr hyr h0 hz
      ⟨-1, 2, 3, f3, [27, 36, 0, 0, 27, 42, 39, 1, 0, 128, 0, 0, 13] ++ [27, 43, 1, 10, 27, 43, 0] ++ [27, 43, 1, 10, 27, 43, 0]⟩ (Or.inr (Or.inr ⟨rfl, rfl⟩))
    rw [dot_nextLnum c hxr hyr] at this
    have hl : (-1 : Int) + (if (-1 : Int).tmod 2 = 0 then 11 else 13) = 12 := by decide
    simp only [] at this
    rw [hl] at this
    exact this
  generalize (if c.bidirectional then !f3 else f3) = f4 at e4
  have e5 : pageStep c fetch ⟨12, 3, 0, f4, [27, 36, 0, 0, 27, 42, 39, 1, 0, 128, 0, 0, 13] ++ [27, 43, 1, 10, 27, 43, 0] ++ [27, 43, 1, 10, 27, 43, 0] ++ [27, 43, 1, 10, 27, 43, 0]⟩
      = .ok ⟨24, 3, 0, f4, [27, 36, 0, 0, 27, 42, 39, 1, 0, 128, 0, 0, 13] ++ [27, 43, 1, 10, 27, 43, 0] ++ [27, 43, 1, 10, 27, 43, 0] ++ [27, 43, 1, 10, 27, 43, 0]⟩ :=
    dot_skip c fetch hxr hyr hls hz ⟨12, 3, 0, f4, [27, 36, 0, 0, 27, 42, 39, 1, 0, 128, 0, 0, 13] ++ [27, 43, 1, 10, 27, 43, 0] ++ [27, 43, 1, 10, 27, 43, 0] ++ [27, 43, 1, 10, 27, 43, 0]⟩
      (by show (0 : Int) < 12; decide)
  have e6 : pageStep c fetch ⟨24, 3, 0, f4, [27, 36, 0, 0, 27, 42, 39, 1, 0, 128, 0, 0, 13] ++ [27, 43, 1, 10, 27, 43, 0] ++ [27, 43, 1, 10, 27, 43, 0] ++ [27, 43, 1, 10, 27, 43, 0]⟩
      = .ok ⟨36, 3, 0, f4, [27, 36, 0, 0, 27, 42, 39, 1, 0, 128, 0, 0, 13] ++ [27, 43, 1, 10, 27, 43, 0] ++ [27, 43, 1, 10, 27, 43, 0] ++ [27, 43, 1, 10, 27, 43, 0]⟩ :=
    dot_skip c fetch hxr hyr hls hz ⟨24, 3, 0, f4, [27, 36, 0, 0, 27, 42, 39, 1, 0, 128, 0, 0, 13] ++ [27, 43, 1, 10, 27, 43, 0] ++ [27, 43, 1, 10, 27, 43, 0] ++ [27, 43, 1, 10, 27, 43, 0]⟩
      (by show (0 : Int) < 24; decide)
  have e7 : pageStep c fetch ⟨36, 3, 0, f4, [27, 36, 0, 0, 27, 42, 39, 1, 0, 128, 0, 0, 13] ++ [27, 43, 1, 10, 27, 43, 0] ++ [27, 43, 1, 10, 27, 43, 0] ++ [27, 43, 1, 10, 27, 43, 0]⟩
      = .ok ⟨48, 3, 0, f4, [27, 36, 0, 0, 27, 42, 39, 1, 0, 128, 0, 0, 13] ++ [27, 43, 1, 10, 27, 43, 0] ++ [27, 43, 1, 10, 27, 43, 0] ++ [27, 43, 1, 10, 27, 43, 0]⟩ :=
    dot_skip c fetch hxr hyr hls hz ⟨36, 3, 0, f4, [27, 36, 0, 0, 27, 42, 39, 1, 0, 128, 0, 0, 13] ++ [27, 43, 1, 10, 27, 43, 0] ++ [27, 43, 1, 10, 27, 43, 0] ++ [27, 43, 1, 10, 27, 43, 0]⟩
      (by show (0 : Int) < 36; decide)
  refine ⟨⟨48, 3, 0, f4, [27, 36, 0, 0, 27, 42, 39, 1, 0, 128, 0, 0, 13] ++ [27, 43, 1, 10, 27, 43, 0] ++ [27, 43, 1, 10, 27, 43, 0] ++ [27, 43, 1, 10, 27, 43, 0]⟩, ?_, rfl⟩
  rw [pageLoop_step c fetch 83 _ _ (by rw [hh]; decide) e1,
    pageLoop_step c fetch 82 _ _ (by rw [hh]; show (-25 : Int) < 48; decide) e2,
    pageLoop_step c fetch 81 _ _ (by rw [hh]; show (-12 : Int) < 48; decide) e3,
    pageLoop_step c fetch 80 _ _ (by rw [hh]; show (-1 : Int) < 48; decide) e4,
    pageLoop_step c fetch 79 _ _ (by rw [hh]; show (12 : Int) < 48; decide) e5,
    pageLoop_step c fetch 78 _ _ (by rw [hh]; show (24 : Int) < 48; decide) e6,
    pageLoop_step c fetch 77 _ _ (by rw [hh]; show (36 : Int) < 48; decide) e7]
  exact pageLoop_done c fetch 77 _ (by rw [hh]; show ¬ (48 : Int) < 48; decide)

/-- C16: at 360x360 dpi, height 48, any line size `≥ 1`, either
bidirectional setting, for the page whose row 0 starts with the byte 128
(the pixel of column 0) and is zero elsewhere, all other rows being zero or
absent: `dot24_print_page` returns 0 and the body it writes reads as exactly
one absolute-position command (position 0), one graphics run of one
dot-column with the data bytes 128, 0, 0, a carriage return, three
micro-feeds, and the form-feed and reset trailer at the end. -/
theorem one_pixel_page (c : PageCfg) (fetch : Fetch) (hxr : c.xres = 360) (hyr : c.yres = 360)
    (hh : c.height = 48) (hls : 1 ≤ c.line_size)
    (h0 : fetchRow fetch c.line_size 0 = 128 :: List.replicate (c.line_size - 1) 0)
    (hz : ∀ line : Int, line ≠ 0 → rowBlank fetch c.line_size line = true) :
    ∃ (bytes : List Nat) (ops : List Op),
      dot24_print_page c fetch = .ok (bytes, 0)
      ∧ readPage (bytes.length + 1) bytes = (ops, [])
      ∧ ops = [Op.pos 0, Op.run [128, 0, 0], Op.cr, Op.micro, Op.micro, Op.micro, Op.eject]
      ∧ countPos ops = 1 ∧ countRun ops = 1
      ∧ (∀ d, Op.run d ∈ ops → d.length = 3 ∧ ∃ b ∈ d, b ≠ 0)
      ∧ ops.getLast? = some Op.eject := by
  obtain ⟨st, hloop, hout⟩ := dot_pageLoop c fetch hxr hyr hh hls h0 hz
  obtain ⟨hxh, hyh, _⟩ := dot_cfg c hxr hyr
  refine ⟨[27, 36, 0, 0, 27, 42, 39, 1, 0, 128, 0, 0, 13]
      ++ [27, 43, 1, 10, 27, 43, 0] ++ [27, 43, 1, 10, 27, 43, 0]
      ++ [27, 43, 1, 10, 27, 43, 0] ++ [12, 27, 64],
    [Op.pos 0, Op.run [128, 0, 0], Op.cr, Op.micro, Op.micro, Op.micro, Op.eject],
    ?_, by decide, rfl, by decide, by decide, ?_, rfl⟩
  · have hres : (c.xres = 180 ∨ c.xres = 360) ∧ (c.yres = 180 ∨ c.yres = 360) :=
      ⟨Or.inr hxr, Or.inr hyr⟩
    have hinit : initialLnum c = -36 := by simp [initialLnum, hxh, hyh]
    have hfuel : (c.height - -36).toNat = 84 := by rw [hh]; rfl
    simp only [dot24_print_page, hres, not_true_eq_false, if_false, hinit, hfuel, hloop, hout]
    simp
  · intro d hd
    simp only [List.mem_cons, Op.run.injEq, List.mem_singleton, List.mem_nil_iff, or_false,
      reduceCtorEq, false_or] at hd
    subst hd
    exact ⟨rfl, 128, by simp, by decide⟩

theorem one_pixel_page_witness :
    ∃ (bytes : List Nat) (ops : List Op),
      dot24_print_page ⟨360, 360, 2, 48, true⟩
          (fun line => if line = 0 then some [128, 0] else if line < 48 then some [0, 0] else none)
        = .ok (bytes, 0)
      ∧ readPage (bytes.length + 1) bytes = (ops, [])
      ∧ ops = [Op.pos 0, Op.run [128, 0, 0], Op.cr, Op.micro, Op.micro, Op.micro, Op.eject]
      ∧ countPos ops = 1 ∧ countRun ops = 1
      ∧ (∀ d, Op.run d ∈ ops → d.length = 3 ∧ ∃ b ∈ d, b ≠ 0)
      ∧ ops.getLast? = some Op.eject :=
  one_pixel_page ⟨360, 360, 2, 48, true⟩
    (fun line => if line = 0 then some [128, 0] else if line < 48 then some [0, 0] else none)
    rfl rfl rfl (by decide) rfl
    (by
      intro line hne
      rw [rowBlank_iff]
      unfold fetchRow
      by_cases hneg : line < 0
      · simp [hneg]
      · by_cases h48 : line < 48
        · simp [hneg, hne, h48, fitRow]
        · simp [hneg, hne, h48])


/-! ## The shape of the graphics runs of a block -/

/-- One iteration of the segment loop, with the shape of the run it finds:
from `blk_start = s` at or below the trimmed end `e`, either no dot-column
from `s` on is marked, or the loop finds the run `[p, q)` after the all-zero
bytes `[s, p)`; the run has the shape `RunShape` and ends at the end of the
buffer or before four all-zero dot-columns. -/
theorem seg_shape_step (data : List Nat) (e s p q : Nat) (ht : Trimmed data e)
    (hze : zeroOn data e data.length) (hel : e ≤ data.length) (hlen : data.length % 3 = 0)
    (hse : s ≤ e) (hs3 : s % 3 = 0)
    (hp : p = segStart data 3 data.length (data.length - s) s)
    (hq : q = if segEnd data 3 data.length (data.length - p) p ≥ data.length
              then data.length else segEnd data 3 data.length (data.length - p) p) :
    (data.length ≤ p ∧ s = e)
    ∨ (p < data.length ∧ s ≤ p ∧ zeroOn data s p ∧ q ≤ e ∧ RunShape data p q
        ∧ (q = data.length ∨ zeroOn data q (min (q + 12) data.length))) := by
  rcases seg_step data e s p q ht hze hel hlen hse hs3 hp hq with
    h | ⟨hpl, hsp, hp3, hzsp, hpq, hqe, hq3⟩
  · exact Or.inl h
  · right
    obtain ⟨k, hk, _, hexit⟩ := fwdBlkStart_spec data 3 data.length s (by omega)
    have hpk : p = s + k * 3 := by rw [hp]; exact hk
    rw [← hpk] at hexit
    have hfirst : ¬ zeroOn data p (p + 3) := by
      rcases hexit with h | h
      · omega
      · rwa [show min (p + 3) data.length = p + 3 by omega] at h
    obtain ⟨k2, hk2, hbefore, hqexit⟩ := segEnd_spec data data.length p
    rw [hk2] at hq
    have hk2pos : 0 < k2 := by
      by_contra hcon
      have hk0 : k2 = 0 := by omega
      subst hk0
      rcases hqexit with h | h
      · omega
      · exact hfirst (zeroOn_mono h (by omega) (by omega))
    have hlastwin := hbefore (k2 - 1) (by omega)
    have hqeq : q = p + k2 * 3 := by
      rw [hq]
      split
      · omega
      · rfl
    have hzq : zeroOn data q (min (q + 12) data.length) := by
      rcases hqexit with h | h
      · intro i h1 h2; omega
      · rw [hqeq]; exact h
    refine ⟨hpl, hsp, hzsp, hqe, ⟨hpq, hp3, hq3, by omega, hfirst, ?_, ?_⟩, ?_⟩
    · intro hz
      apply hlastwin.2
      intro i h1 h2
      by_cases hi : i < q
      · exact hz i (by omega) hi
      · exact hzq i (by omega) (by omega)
    · intro t ht3 hpt htq hz
      have hj : (t - p) / 3 < k2 := by omega
      have hb := (hbefore ((t - p) / 3) hj).2
      apply hb
      rw [show p + (t - p) / 3 * 3 = t by omega]
      exact zeroOn_mono hz (le_refl _) (by omega)
    · by_cases hql : q = data.length
      · exact Or.inl hql
      · exact Or.inr hzq

theorem segCmds_valid (data : List Nat) (hcols : data.length / 3 < 65536) :
    ∀ (segs : List (Nat × Nat)) (cur : Nat), (∀ sg ∈ segs, RunShape data sg.1 sg.2) →
      ∀ c ∈ segCmds data cur segs, c.valid := by
  intro segs
  induction segs with
  | nil => intro cur _ c hc; simp [segCmds] at hc
  | cons sg rest ih =>
    intro cur hshape c hc
    obtain ⟨p, q⟩ := sg
    have hs := hshape (p, q) (List.mem_cons_self _ _)
    have hl := hs.lt
    have h1 := hs.start3
    have h2 := hs.end3
    have h3 := hs.le
    simp only [segCmds, List.mem_append, List.mem_cons] at hc
    rcases hc with hc | hc | hc
    · split at hc
      · simp only [List.mem_singleton] at hc
        subst hc
        simp only [Cmd.valid]
        omega
      · simp at hc
    · subst hc
      simp only [Cmd.valid, List.length_take, List.length_drop]
      omega
    · exact ih q (fun sg h => hshape sg (List.mem_cons_of_mem _ h)) c hc

/-- A graphics run among the commands of `segs` is the run of one of the
segments. -/
theorem mem_segCmds_run (data : List Nat) : ∀ (segs : List (Nat × Nat)) (cur n : Nat)
    (d : List Nat), Cmd.run n d ∈ segCmds data cur segs →
    ∃ sg ∈ segs, n = (sg.2 - sg.1) / 3 ∧ d = (data.drop sg.1).take (sg.2 - sg.1) := by
  intro segs
  induction segs with
  | nil => intro cur n d h; simp [segCmds] at h
  | cons sg rest ih =>
    intro cur n d h
    obtain ⟨p, q⟩ := sg
    simp only [segCmds, List.mem_append, List.mem_cons] at h
    rcases h with h | h | h
    · split at h
      · simp at h
      · simp at h
    · simp only [Cmd.run.injEq] at h
      exact ⟨(p, q), List.mem_cons_self _ _, h.1, h.2⟩
    · obtain ⟨sg, hsg, h1, h2⟩ := ih q n d h
      exact ⟨sg, List.mem_cons_of_mem _ hsg, h1, h2⟩

/-- The segment loop writes the commands of a list of runs, each of the
shape `RunShape`; the bytes between the cursor and the first run are zero,
and each run is followed, before the next one, by at least four all-zero
dot-columns. -/
theorem segLoop_segs (data : List Nat) (e : Nat) (ht : Trimmed data e)
    (hze : zeroOn data e data.length) (hel : e ≤ data.length) (hlen : data.length % 3 = 0) :
    ∀ (f s : Nat), data.length - s ≤ f → s ≤ e → s % 3 = 0 →
      ∃ segs : List (Nat × Nat),
        segLoop data 3 data.length f s = (segCmds data s segs).flatMap Cmd.encode
        ∧ (∀ sg ∈ segs, RunShape data sg.1 sg.2)
        ∧ (∀ sg, segs.head? = some sg → s ≤ sg.1 ∧ zeroOn data s sg.1)
        ∧ segs.Chain' (fun a b => a.2 + 12 ≤ b.1 ∧ zeroOn data a.2 b.1) := by
  intro f
  induction f with
  | zero =>
    intro s _ _ _
    exact ⟨[], by simp [segLoop, segCmds], by simp, by simp, List.chain'_nil⟩
  | succ f ih =>
    intro s hf hse hs3
    by_cases hlt : s < data.length
    · rcases seg_shape_step data e s _ _ ht hze hel hlen hse hs3 rfl rfl with
        ⟨hpl, _⟩ | ⟨hpl, hsp, hzsp, hqe, hshape, hend⟩
      · refine ⟨[], ?_, by simp, by simp, List.chain'_nil⟩
        simp only [segLoop, hlt, if_true]
        rw [if_pos hpl]
        rfl
      · generalize hpdef : segStart data 3 data.length (data.length - s) s = p at *
        generalize hqdef : (if segEnd data 3 data.length (data.length - p) p ≥ data.length
              then data.length else segEnd data 3 data.length (data.length - p) p) = q at *
        have hpq := hshape.lt
        have hq3 := hshape.end3
        obtain ⟨segs, hcs, hsh, hhead, hchain⟩ := ih q (by omega) hqe hq3
        have hrun : ((data.drop p).take (q - p)).length ≠ 0 := by
          simp only [List.length_take, List.length_drop]
          omega
        have hrun3 : ((data.drop p).take (q - p)).length / 3 = (q - p) / 3 := by
          simp only [List.length_take, List.length_drop]
          congr 1
          omega
        have hL : segLoop data 3 data.length (f + 1) s
            = (if (p - s) / 3 ≠ 0 then [27, 92, (p - s) / 3 % 256, (p - s) / 3 / 256 % 256]
                else [])
              ++ dot24_output_run ((data.drop p).take (q - p))
              ++ segLoop data 3 data.length f q := by
          simp only [segLoop, hlt, if_true, hpdef, hqdef]
          rw [if_neg (by omega)]
        refine ⟨(p, q) :: segs, ?_, ?_, ?_, ?_⟩
        · rw [hL, hcs]
          simp only [segCmds, List.flatMap_append, List.flatMap_cons, Cmd.encode,
            dot24_output_run, hrun, if_false, hrun3]
          by_cases hrel : (p - s) / 3 ≠ 0
          · simp [hrel, Cmd.encode]
          · simp [hrel]
        · intro sg hsg
          rcases List.mem_cons.1 hsg with h | h
          · subst h; exact hshape
          · exact hsh sg h
        · intro sg hsg
          simp only [List.head?_cons, Option.some.injEq] at hsg
          subst hsg
          exact ⟨hsp, hzsp⟩
        · cases segs with
          | nil => exact List.chain'_singleton _
          | cons sg2 rest =>
            rw [List.chain'_cons]
            refine ⟨?_, hchain⟩
            obtain ⟨hq2, hz2⟩ := hhead sg2 rfl
            have hs2 := hsh sg2 (List.mem_cons_self _ _)
            have g1 := hs2.lt
            have g2 := hs2.start3
            have g3 := hs2.end3
            have g4 := hs2.le
            refine ⟨?_, hz2⟩
            by_contra hcon
            simp only [] at hcon
            rcases hend with h | h
            · omega
            · exact hs2.first (zeroOn_mono h hq2 (by omega))
    · exact ⟨[], by simp [segLoop, hlt, segCmds], by simp, by simp, List.chain'_nil⟩

/-- C23: for a block whose length is a multiple of 3, in either setting of
`dot24_print_block`, the commands written between the position commands and
the carriage return are those of a list of runs `[p, q)` of the buffered
data (the block, filtered when `x_high`), in order.  Every run is a whole,
non-zero number of dot-columns, begins and ends with a dot-column that is not
blank, and holds no four consecutive all-zero dot-columns; between the end of
a run and the start of the next lie at least four dot-columns, all zero.  The
same holds for the data of every graphics run read back from the bytes
(which read back as these commands when the block has fewer than 65536
dot-columns). -/
theorem dot24_print_block_runs (pos : Nat) (blk : List Nat) (x_high print_even_dots : Bool)
    (bpp : Nat) (hmode : BlockMode x_high bpp) (hlen : blk.length % 3 = 0) :
    ∃ (data : List Nat) (segs : List (Nat × Nat)) (cmds : List Cmd),
      data = (if x_high then dot24_filter_bitmap blk print_even_dots else blk)
      ∧ dot24_print_block pos blk x_high print_even_dots bpp
          = [27, 36, pos % 256, pos / 256 % 256]
            ++ (if !print_even_dots then [27, 42, 40, 1, 0, 0, 0, 0] else [])
            ++ cmds.flatMap Cmd.encode ++ [13]
      ∧ cmds = segCmds data 0 segs
      ∧ (blk.length / 3 < 65536 →
          readCmds ((cmds.flatMap Cmd.encode).length + 1) (cmds.flatMap Cmd.encode ++ [13])
            = (cmds, [13]))
      ∧ (∀ sg ∈ segs, RunShape data sg.1 sg.2)
      ∧ segs.Chain' (fun a b => a.2 + 12 ≤ b.1 ∧ zeroOn data a.2 b.1)
      ∧ (∀ n d, Cmd.run n d ∈ cmds →
          0 < n ∧ d.length = 3 * n ∧ ¬ zeroOn d 0 3 ∧ ¬ zeroOn d (d.length - 3) d.length
          ∧ ∀ t, t % 3 = 0 → t + 12 ≤ d.length → ¬ zeroOn d t (t + 12)) := by
  have hf := dot24_filter_bitmap_length blk print_even_dots hlen
  have hd3 : (if x_high then dot24_filter_bitmap blk print_even_dots else blk).length % 3 = 0 := by
    split
    · exact hf.1
    · exact hlen
  have hdl : (if x_high then dot24_filter_bitmap blk print_even_dots else blk).length
      ≤ blk.length := by
    split
    · exact hf.2
    · exact le_refl _
  generalize hdata : (if x_high then dot24_filter_bitmap blk print_even_dots else blk) = data
    at hd3 hdl
  obtain ⟨segs, h1, h2, _, h4⟩ := segLoop_segs data _ (trimmed_of_band data hd3)
    (trimEnd_zero_after data) (trimEnd_le data) hd3 data.length 0 (by omega) (Nat.zero_le _) rfl
  refine ⟨data, segs, segCmds data 0 segs, rfl, ?_, rfl, ?_, h2, h4, ?_⟩
  · simp only [dot24_print_block, hmode.rel_pos, hdata, h1]
  · intro hcols
    have hv := segCmds_valid data (by omega) segs 0 h2
    exact readCmds_encode _ _ (Nat.lt_succ_of_le (encode_length_ge _)) hv
  · intro n d hmem
    obtain ⟨sg, hsg, hn, hd⟩ := mem_segCmds_run data segs 0 n d hmem
    have hs := h2 sg hsg
    have g1 := hs.lt
    have g2 := hs.start3
    have g3 := hs.end3
    have g4 := hs.le
    have hlen_d : d.length = sg.2 - sg.1 := by
      rw [hd]
      simp only [List.length_take, List.length_drop]
      omega
    refine ⟨by omega, by omega, ?_, ?_, ?_⟩
    · rw [hd, zeroOn_slice data sg.1 (sg.2 - sg.1) 0 3 (by omega)]
      exact hs.first
    · rw [hlen_d, hd, zeroOn_slice data sg.1 (sg.2 - sg.1) _ _ (le_refl _)]
      rw [show sg.1 + (sg.2 - sg.1 - 3) = sg.2 - 3 by omega,
        show sg.1 + (sg.2 - sg.1) = sg.2 by omega]
      exact hs.last
    · intro t ht3 htl
      rw [hd, zeroOn_slice data sg.1 (sg.2 - sg.1) t (t + 12) (by omega)]
      rw [show sg.1 + (t + 12) = sg.1 + t + 12 by omega]
      exact hs.dense (sg.1 + t) (by omega) (by omega) (by omega)

theorem dot24_print_block_runs_witness :
    ∃ (data : List Nat) (segs : List (Nat × Nat)) (cmds : List Cmd),
      data = (if false then
          dot24_filter_bitmap [1, 0, 0, 0, 0, 0, 0, 0, 0, 0, 0, 0, 0, 0, 0, 0, 2, 0, 0, 0, 0] true
        else [1, 0, 0, 0, 0, 0, 0, 0, 0, 0, 0, 0, 0, 0, 0, 0, 2, 0, 0, 0, 0])
      ∧ dot24_print_block 5 [1, 0, 0, 0, 0, 0, 0, 0, 0, 0, 0, 0, 0, 0, 0, 0, 2, 0, 0, 0, 0]
            false true 9
          = [27, 36, 5 % 256, 5 / 256 % 256]
            ++ (if !true then [27, 42, 40, 1, 0, 0, 0, 0] else [])
            ++ cmds.flatMap Cmd.encode ++ [13]
      ∧ cmds = segCmds data 0 segs
      ∧ ([1, 0, 0, 0, 0, 0, 0, 0, 0, 0, 0, 0, 0, 0, 0, 0, 2, 0, 0, 0, 0].length / 3 < 65536 →
          readCmds ((cmds.flatMap Cmd.encode).length + 1) (cmds.flatMap Cmd.encode ++ [13])
            = (cmds, [13]))
      ∧ (∀ sg ∈ segs, RunShape data sg.1 sg.2)
      ∧ segs.Chain' (fun a b => a.2 + 12 ≤ b.1 ∧ zeroOn data a.2 b.1)
      ∧ (∀ n d, Cmd.run n d ∈ cmds →
          0 < n ∧ d.length = 3 * n ∧ ¬ zeroOn d 0 3 ∧ ¬ zeroOn d (d.length - 3) d.length
          ∧ ∀ t, t % 3 = 0 → t + 12 ≤ d.length → ¬ zeroOn d t (t + 12)) :=
  dot24_print_block_runs 5
    [1, 0, 0, 0, 0, 0, 0, 0, 0, 0, 0, 0, 0, 0, 0, 0, 2, 0, 0, 0, 0] false true 9
    (Or.inl ⟨rfl, rfl⟩) (by decide)


/-! ## The assertions of the negative-position correction -/

/-- C's `x % 2` in terms of the mathematical remainder. -/
theorem tmod_two (x : Int) : x.tmod 2 = if 0 ≤ x then x % 2 else -((-x) % 2) := by
  by_cases h : 0 ≤ x
  · rw [if_pos h, Int.tmod_eq_emod h (by omega)]
  · rw [if_neg h, Int.tmod_def]
    have hd : x.tdiv 2 = -((-x) / 2) := by
      have := Int.neg_tdiv (-x) 2
      rw [Int.neg_neg] at this
      rw [this, Int.tdiv_eq_ediv (by omega) (by omega)]
    rw [hd]
    omega

theorem tmod_two_even (x : Int) (h : x % 2 = 0) : x.tmod 2 = 0 := by
  rw [tmod_two]
  split <;> omega

theorem even_of_tmod_two (x : Int) (h : x.tmod 2 = 0) : x % 2 = 0 := by
  rw [tmod_two] at h
  split at h <;> omega

theorem rowBlank_neg (fetch : Fetch) (ls : Nat) (line : Int) (h : line < 0) :
    rowBlank fetch ls line = true :=
  (rowBlank_iff fetch ls line).2 (fetchRow_absent fetch ls line (Or.inl h))

theorem nonneg_of_not_blank (fetch : Fetch) (ls : Nat) (line : Int)
    (h : rowBlank fetch ls line = false) : 0 ≤ line := by
  by_contra hneg
  rw [rowBlank_neg fetch ls line (by omega)] at h
  exact absurd h (by decide)

/-- A row that is not blank bounds the blank-run count. -/
theorem leadingBlank_le_of_nonblank (fetch : Fetch) (ls : Nat) : ∀ (cap k : Nat) (lnum : Int),
    rowBlank fetch ls (lnum + k) = false → leadingBlank fetch ls lnum cap ≤ k := by
  intro cap
  induction cap with
  | zero => intro k lnum _; simp [leadingBlank]
  | succ cap ih =>
    intro k lnum h
    rw [leadingBlank]
    split
    · rename_i hb
      cases k with
      | zero =>
        simp only [Nat.cast_zero, Int.add_zero] at h
        rw [hb] at h
        exact absurd h (by decide)
      | succ k =>
        have := ih k (lnum + 1) (by
          rw [show lnum + 1 + (k : Int) = lnum + ((k + 1 : Nat) : Int) by push_cast; ring]
          exact h)
        omega
    · omega

/-- A blank-run count below its cap stops at a row that is not blank. -/
theorem leadingBlank_nonblank (fetch : Fetch) (ls : Nat) : ∀ (cap : Nat) (lnum : Int),
    leadingBlank fetch ls lnum cap < cap →
    rowBlank fetch ls (lnum + (leadingBlank fetch ls lnum cap : Nat)) = false := by
  intro cap
  induction cap with
  | zero => intro lnum h; omega
  | succ cap ih =>
    intro lnum h
    rw [leadingBlank] at h ⊢
    split
    · rename_i hb
      rw [if_pos hb] at h
      have := ih (lnum + 1) (by omega)
      rw [show lnum + ((1 + leadingBlank fetch ls (lnum + 1) cap : Nat) : Int)
        = lnum + 1 + ((leadingBlank fetch ls (lnum + 1) cap : Nat) : Int) by push_cast; ring]
      exact this
    · rename_i hb
      simp only [Nat.cast_zero, Int.add_zero]
      simpa using hb

/-- The first-row test of the blank-run seek succeeds on a band whose row
`lnum` is all zero, for every line size. -/
theorem firstRow_test_band (fetch : Fetch) (ls : Nat) (yh : Bool) (lnum : Int)
    (hb : rowBlank fetch ls lnum = true) :
    (assembleBand fetch ls yh lnum).getD 0 0 = 0
      ∧ memEq (assembleBand fetch ls yh lnum) 0 1 (ls - 1) = true := by
  rcases Nat.eq_zero_or_pos ls with h0 | hpos
  · subst h0
    have hl := assembleBand_length fetch 0 yh lnum
    rw [Nat.mul_zero] at hl
    have he : assembleBand fetch 0 yh lnum = [] := List.length_eq_zero.1 hl
    rw [he]
    exact ⟨rfl, rfl⟩
  · apply firstRow_test _ ls hpos
    have := assembleBand_slot fetch ls yh lnum 0 (by rw [bandLines_length]; split <;> omega)
    have hl : (bandLines yh lnum).getD 0 0 = lnum := by
      cases yh
      · simpa using bandLines_low lnum 0 (by omega)
      · simpa using bandLines_high lnum 0 (by omega)
    rw [hl, (rowBlank_iff fetch ls lnum).1 hb] at this
    simpa using this

/-- On a band whose row `lnum` is all zero, the iteration takes the
blank-run skip exactly when the page-order count of leading blank rows
exceeds the threshold of the mode. -/
theorem skipsBand_eq (c : PageCfg) (fetch : Fetch) (st : PageState)
    (hx : c.xres = 180 ∨ c.xres = 360) (hy : c.yres = 180 ∨ c.yres = 360)
    (hb : rowBlank fetch c.line_size st.lnum = true) :
    skipsBand c fetch st
      = decide (threshold c < leadingBlank fetch c.line_size st.lnum (blankCap c)) := by
  have ht := firstRow_test_band fetch c.line_size c.y_high st.lnum hb
  have he := emptyLines_eq c fetch st.lnum hx hy hb
  simp only [skipsBand, ht, and_self, decide_True, Bool.true_and, he]

/-- A band entered with `lnum < 0` that is printed holds a row that is not
blank among its first `threshold + 1` rows in page order. -/
theorem printed_band_row (c : PageCfg) (fetch : Fetch) (st : PageState)
    (hx : c.xres = 180 ∨ c.xres = 360) (hy : c.yres = 180 ∨ c.yres = 360)
    (hneg : st.lnum < 0) (hs : skipsBand c fetch st = false) :
    ∃ r : Int, 0 ≤ r ∧ r ≤ st.lnum + threshold c ∧ rowBlank fetch c.line_size r = false := by
  have hb := rowBlank_neg fetch c.line_size st.lnum hneg
  rw [skipsBand_eq c fetch st hx hy hb] at hs
  simp only [decide_eq_false_iff_not, Nat.not_lt] at hs
  have hcap := threshold_lt_cap c hy
  have hnb := leadingBlank_nonblank fetch c.line_size (blankCap c) st.lnum (by omega)
  exact ⟨_, nonneg_of_not_blank fetch c.line_size _ hnb, by omega, hnb⟩

theorem stride_clears (c : PageCfg) (h : ¬ (c.x_high = true ∧ c.y_high = true)) (l : Int)
    (hl : initialLnum c ≤ l) : 0 ≤ nextLnum c l := by
  unfold initialLnum at hl
  unfold nextLnum
  cases hxh : c.x_high <;> cases hyh : c.y_high <;> simp only [hxh, hyh] at h hl ⊢ <;>
    simp at h hl ⊢ <;> omega

theorem threshold_high (c : PageCfg) (hxh : c.x_high = true) (hyh : c.y_high = true) :
    threshold c = 36 := by
  have h1 : c.xres = 360 := by simpa [PageCfg.x_high] using hxh
  have h2 : c.yres = 360 := by simpa [PageCfg.y_high] using hyh
  simp [threshold, h1, h2]

theorem nextLnum_high (c : PageCfg) (hxh : c.x_high = true) (hyh : c.y_high = true) (l : Int) :
    nextLnum c l = l + 11 ∨ nextLnum c l = l + 13 := by
  simp only [nextLnum, hxh, hyh, Bool.and_self, if_true]
  split
  · exact Or.inl rfl
  · exact Or.inr rfl

/-- The parities of the cursors in a reachable state: `printer_lnum` is not
negative and `lnum` is not below its initial value; and once
`printer_lnum` is positive while `lnum` is still negative, the mode is
360x360, the two cursors differ in parity, and a row that is not blank lies
within 25 rows of `lnum`, so that the band is not skipped. -/
theorem reachable_parity (c : PageCfg) (fetch : Fetch) (hx : c.xres = 180 ∨ c.xres = 360)
    (hy : c.yres = 180 ∨ c.yres = 360) (st : PageState) (hr : Reachable c fetch st) :
    0 ≤ st.printer_lnum ∧ initialLnum c ≤ st.lnum
    ∧ (st.printer_lnum = 0 ∨ 0 ≤ st.lnum
      ∨ (c.x_high = true ∧ c.y_high = true ∧ (st.printer_lnum - st.lnum) % 2 = 1
          ∧ ∃ r : Int, 0 ≤ r ∧ r ≤ st.lnum + 25 ∧ rowBlank fetch c.line_size r = false)) := by
  induction hr with
  | init => exact ⟨le_refl _, le_refl _, Or.inl rfl⟩
  | @step st st1 _ _ hstep ih =>
    obtain ⟨hpl0, hinit, hinv⟩ := ih
    rcases pageStep_paths c fetch st st1 hstep with
      ⟨hs, hl, hpl, _⟩ | ⟨hs, hl, _, r, hrec, hpl, _⟩
    · refine ⟨by omega, by omega, ?_⟩
      rcases hinv with h | h | ⟨hxh, hyh, _, r, hr0, hr25, hrb⟩
      · exact Or.inl (by omega)
      · exact Or.inr (Or.inl (by omega))
      · by_cases hneg : st.lnum < 0
        swap
        · exact Or.inr (Or.inl (by omega))
        exfalso
        have hb := rowBlank_neg fetch c.line_size st.lnum hneg
        rw [skipsBand_eq c fetch st hx hy hb, threshold_high c hxh hyh] at hs
        simp only [decide_eq_true_eq] at hs
        have hk : rowBlank fetch c.line_size (st.lnum + ((r - st.lnum).toNat : Nat)) = false := by
          rw [show st.lnum + (((r - st.lnum).toNat : Nat) : Int) = r by omega]
          exact hrb
        have := leadingBlank_le_of_nonblank fetch c.line_size (blankCap c) _ st.lnum hk
        omega
    · have hn := nextLnum_ge c st.lnum
      by_cases hc : st.lnum < 0 ∨ st.lnum < st.printer_lnum
      · obtain ⟨_, hcase, hpar, _⟩ := reconcile_correction c st _ r hc hrec
        have hev := even_of_tmod_two _ hpar
        have hr1 : st.printer_lnum ≤ r.1 := by
          rcases hcase with ⟨_, h1, _⟩ | ⟨_, h1, _⟩ <;> omega
        refine ⟨by omega, by omega, ?_⟩
        by_cases hl1 : 0 ≤ st1.lnum
        · exact Or.inr (Or.inl hl1)
        · by_cases hp1 : st1.printer_lnum = 0
          · exact Or.inl hp1
          · right; right
            have hneg : st.lnum < 0 := by omega
            have hmode : c.x_high = true ∧ c.y_high = true := by
              by_contra hcon
              have := stride_clears c hcon st.lnum hinit
              omega
            obtain ⟨hxh, hyh⟩ := hmode
            obtain ⟨row, hr0, hrt, hrb⟩ := printed_band_row c fetch st hx hy hneg hs
            rw [threshold_high c hxh hyh] at hrt
            refine ⟨hxh, hyh, ?_, row, hr0, ?_, hrb⟩
            · rcases nextLnum_high c hxh hyh st.lnum with h | h <;> omega
            · rcases nextLnum_high c hxh hyh st.lnum with h | h <;> omega
      · rw [reconcile_forward c st _ hc] at hrec
        simp only [Except.ok.injEq] at hrec
        subst hrec
        simp only [] at hpl
        exact ⟨by omega, by omega, Or.inr (Or.inl (by omega))⟩

/-- The parity step of the correction in a reachable state: the value of
`printer_lnum` after the optional one-row skip differs from `lnum` by
`2 * d` rows with `d ≥ 1`. -/
theorem reachable_correction_distance (c : PageCfg) (fetch : Fetch)
    (hx : c.xres = 180 ∨ c.xres = 360) (hy : c.yres = 180 ∨ c.yres = 360) (st : PageState)
    (hr : Reachable c fetch st) (hc : st.lnum < 0 ∨ st.lnum < st.printer_lnum) :
    ∃ d : Nat, 1 ≤ d
      ∧ (if st.lnum.tmod 2 ≠ st.printer_lnum.tmod 2 then st.printer_lnum + 1
          else st.printer_lnum) - st.lnum = 2 * (d : Int) := by
  obtain ⟨hpl0, _, hinv⟩ := reachable_parity c fetch hx hy st hr
  have h1 := tmod_two st.lnum
  have h2 := tmod_two st.printer_lnum
  rw [if_pos hpl0] at h2
  have hgoal : ∀ x : Int, st.printer_lnum ≤ x → (x - st.lnum) % 2 = 0 →
      ∃ d : Nat, 1 ≤ d ∧ x - st.lnum = 2 * (d : Int) := by
    intro x hx1 hx2
    refine ⟨((x - st.lnum) / 2).toNat, by omega, by omega⟩
  by_cases hne : st.lnum.tmod 2 ≠ st.printer_lnum.tmod 2
  · rw [if_pos hne]
    apply hgoal _ (by omega)
    rw [h1, h2] at hne
    split at hne
    · omega
    · rcases hinv with h | h | ⟨_, _, h, _⟩ <;> omega
  · rw [if_neg hne]
    apply hgoal _ (le_refl _)
    have heq : st.lnum.tmod 2 = st.printer_lnum.tmod 2 := by
      by_contra h; exact hne h
    rw [h1, h2] at heq
    split at heq <;> omega

/-- The cursor reconciliation of a reachable state ends without a failed
assertion. -/
theorem reachable_reconcile_ok (c : PageCfg) (fetch : Fetch)
    (hx : c.xres = 180 ∨ c.xres = 360) (hy : c.yres = 180 ∨ c.yres = 360) (st : PageState)
    (hr : Reachable c fetch st) :
    ∃ r, reconcile c st (assembleBand fetch c.line_size c.y_high st.lnum) = .ok r := by
  by_cases hc : st.lnum < 0 ∨ st.lnum < st.printer_lnum
  · obtain ⟨d, hd1, hd⟩ := reachable_correction_distance c fetch hx hy st hr hc
    have hlen : 24 * c.line_size
        ≤ (assembleBand fetch c.line_size c.y_high st.lnum).length := by
      rw [assembleBand_length]
      split <;> omega
    by_cases hne : st.lnum.tmod 2 ≠ st.printer_lnum.tmod 2
    · rw [if_pos hne] at hd
      obtain ⟨res, hres, _⟩ := reconcile_correction_eval c st _ hc
        (reachable_lt_4 c fetch st hr hc) (st.printer_lnum + 1) (dot24_skip_lines 1 c.y_high)
        (by rw [if_pos hne]) d hd hd1 hlen
      exact ⟨_, hres⟩
    · rw [if_neg hne] at hd
      obtain ⟨res, hres, _⟩ := reconcile_correction_eval c st _ hc
        (reachable_lt_4 c fetch st hr hc) st.printer_lnum []
        (by rw [if_neg hne]) d hd hd1 hlen
      exact ⟨_, hres⟩
  · unfold reconcile
    rw [if_neg hc]
    by_cases he : st.printer_lnum ≠ st.lnum
    · rw [if_pos he, if_neg (by omega)]
      exact ⟨_, rfl⟩
    · rw [if_neg he]
      exact ⟨_, rfl⟩

/-- An iteration of the page loop entered in a reachable state ends without a
failed assertion. -/
theorem reachable_pageStep_ok (c : PageCfg) (fetch : Fetch)
    (hx : c.xres = 180 ∨ c.xres = 360) (hy : c.yres = 180 ∨ c.yres = 360) (st : PageState)
    (hr : Reachable c fetch st) : ∃ st1, pageStep c fetch st = .ok st1 := by
  cases hs : skipsBand c fetch st with
  | true => exact ⟨_, pageStep_of_skips c fetch st hs⟩
  | false =>
    obtain ⟨r, hrec⟩ := reachable_reconcile_ok c fetch hx hy st hr
    rw [pageStep_of_not_skips c fetch st hs, printBand_eq, hrec]
    exact ⟨_, rfl⟩

/-- The page loop started in a reachable state with enough fuel ends in a
state, without a failed assertion. -/
theorem reachable_pageLoop_ok (c : PageCfg) (fetch : Fetch)
    (hx : c.xres = 180 ∨ c.xres = 360) (hy : c.yres = 180 ∨ c.yres = 360) :
    ∀ (f : Nat) (st : PageState), Reachable c fetch st → (c.height - st.lnum).toNat ≤ f →
      ∃ st1, pageLoop c fetch f st = .ok st1 := by
  intro f
  induction f with
  | zero =>
    intro st _ hf
    have : ¬ st.lnum < c.height := by omega
    exact ⟨st, by simp [pageLoop, this]⟩
  | succ f ih =>
    intro st hr hf
    by_cases hlt : st.lnum < c.height
    · obtain ⟨st1, hs⟩ := reachable_pageStep_ok c fetch hx hy st hr
      simp only [pageLoop, hlt, if_true, hs]
      exact ih st1 (Reachable.step hr hlt hs)
        (by have := pageStep_lnum c fetch st st1 hs; omega)
    · exact ⟨st, by simp [pageLoop, hlt]⟩

/-- In the supported modes `dot24_print_page` returns 0 for every page: no
assertion of the page loop fails. -/
theorem dot24_print_page_ok (c : PageCfg) (fetch : Fetch)
    (hx : c.xres = 180 ∨ c.xres = 360) (hy : c.yres = 180 ∨ c.yres = 360) :
    ∃ bytes, dot24_print_page c fetch = .ok (bytes, 0) := by
  obtain ⟨st1, h⟩ := reachable_pageLoop_ok c fetch hx hy (c.height - initialLnum c).toNat
    { lnum := initialLnum c, printer_lnum := 0, cycle := 0, forward := true, out := [] }
    Reachable.init (le_refl _)
  unfold dot24_print_page
  rw [if_neg (by simp [hx, hy])]
  simp only [h]
  exact ⟨_, rfl⟩

/-- C21: in every reachable state of the page loop of every supported mode in
which the negative-position correction applies (`lnum < 0` or
`lnum < printer_lnum`), the value `pl` of `printer_lnum` after the optional
one-row skip has the parity of `lnum` under the truncating remainder of C:
`(pl - lnum) % 2 == 0` holds, for every `real_line` below 24 the assertions
`(document_line - pl) % 2 == 0` and `printhead_line < real_line` hold with
`document_line = lnum + real_line * 2` and
`printhead_line = (document_line - pl) / 2`, and the cursor reconciliation of
the code ends without a failed assertion, leaving `pl` in `printer_lnum`. -/
theorem correction_assertions_hold (c : PageCfg) (fetch : Fetch)
    (hx : c.xres = 180 ∨ c.xres = 360) (hy : c.yres = 180 ∨ c.yres = 360) (st : PageState)
    (hr : Reachable c fetch st) (hc : st.lnum < 0 ∨ st.lnum < st.printer_lnum) :
    ((if st.lnum.tmod 2 ≠ st.printer_lnum.tmod 2 then st.printer_lnum + 1
        else st.printer_lnum) - st.lnum).tmod 2 = 0
    ∧ (∀ real_line : Nat, real_line < 24 →
        (st.lnum + (real_line : Int) * 2
          - (if st.lnum.tmod 2 ≠ st.printer_lnum.tmod 2 then st.printer_lnum + 1
              else st.printer_lnum)).tmod 2 = 0
        ∧ (st.lnum + (real_line : Int) * 2
          - (if st.lnum.tmod 2 ≠ st.printer_lnum.tmod 2 then st.printer_lnum + 1
              else st.printer_lnum)).tdiv 2 < real_line)
    ∧ ∃ r, reconcile c st (assembleBand fetch c.line_size c.y_high st.lnum) = .ok r
        ∧ r.1 = (if st.lnum.tmod 2 ≠ st.printer_lnum.tmod 2 then st.printer_lnum + 1
            else st.printer_lnum) := by
  obtain ⟨d, hd1, hd⟩ := reachable_correction_distance c fetch hx hy st hr hc
  refine ⟨?_, ?_, ?_⟩
  · rw [hd]
    exact Int.mul_tmod_right 2 d
  · intro real_line _
    have he : st.lnum + (real_line : Int) * 2
        - (if st.lnum.tmod 2 ≠ st.printer_lnum.tmod 2 then st.printer_lnum + 1
            else st.printer_lnum) = 2 * ((real_line : Int) - d) := by omega
    rw [he]
    refine ⟨Int.mul_tmod_right 2 _, ?_⟩
    rw [Int.mul_tdiv_cancel_left _ (by decide)]
    omega
  · obtain ⟨r, hrec⟩ := reachable_reconcile_ok c fetch hx hy st hr
    refine ⟨r, hrec, ?_⟩
    obtain ⟨_, hcase, _⟩ := reconcile_correction c st _ r hc hrec
    rcases hcase with ⟨h1, h2, _⟩ | ⟨h1, h2, _⟩
    · rw [if_neg (by simpa using h1)]
      exact h2
    · rw [if_pos h1]
      exact h2

set_option maxRecDepth 1000000 in
/-- The assertions of the correction in the state that follows the first
band of a 360x360 page with one set pixel: `lnum = -25` is odd and
`printer_lnum = 0` even, so the one-row skip is taken. -/
theorem correction_assertions_hold_witness :
    Reachable ⟨360, 360, 1, 48, false⟩ (fun line => if line = 0 then some [128] else none)
      (PageState.mk (-25) 0 1 true [27, 36, 0, 0, 27, 42, 39, 1, 0, 128, 0, 0, 13])
    ∧ (((if (-25 : Int).tmod 2 ≠ (0 : Int).tmod 2 then (0 : Int) + 1 else 0) - (-25)).tmod 2 = 0
      ∧ (∀ real_line : Nat, real_line < 24 →
          ((-25 : Int) + (real_line : Int) * 2
            - (if (-25 : Int).tmod 2 ≠ (0 : Int).tmod 2 then (0 : Int) + 1 else 0)).tmod 2 = 0
          ∧ ((-25 : Int) + (real_line : Int) * 2
            - (if (-25 : Int).tmod 2 ≠ (0 : Int).tmod 2 then (0 : Int) + 1 else 0)).tdiv 2
              < real_line)
      ∧ ∃ r, reconcile ⟨360, 360, 1, 48, false⟩
            (PageState.mk (-25) 0 1 true [27, 36, 0, 0, 27, 42, 39, 1, 0, 128, 0, 0, 13])
            (assembleBand (fun line => if line = 0 then some [128] else none) 1 true (-25))
            = .ok r
          ∧ r.1 = (if (-25 : Int).tmod 2 ≠ (0 : Int).tmod 2 then (0 : Int) + 1 else 0)) :=
  ⟨Reachable.step Reachable.init (by decide) rfl,
    correction_assertions_hold ⟨360, 360, 1, 48, false⟩
      (fun line => if line = 0 then some [128] else none)
      (Or.inr rfl) (Or.inr rfl)
      (PageState.mk (-25) 0 1 true [27, 36, 0, 0, 27, 42, 39, 1, 0, 128, 0, 0, 13])
      (Reachable.step Reachable.init (by decide) rfl) (Or.inl (by decide))⟩


/-! ## Pixels of odd dot-columns under horizontal doubling -/

/-- An iteration that leaves through the blank-run seek prints no band. -/
theorem printedPass_of_skips (c : PageCfg) (fetch : Fetch) (st : PageState)
    (hs : skipsBand c fetch st = true) : printedPass c fetch st = none := by
  simp [printedPass, hs]

/-- An iteration that prints hands to the transposition the band recorded by
`printedPass`, in the phase recorded there: the bytes it writes are those of
the cursor reconciliation followed by the printed band. -/
theorem printedPass_of_prints (c : PageCfg) (fetch : Fetch) (st st1 : PageState)
    (hs : skipsBand c fetch st = false) (h : pageStep c fetch st = .ok st1) :
    ∃ r, reconcile c st (assembleBand fetch c.line_size c.y_high st.lnum) = .ok r
      ∧ printedPass c fetch st
          = some ⟨st.lnum, r.1, !c.x_high || decide (st.cycle < 2),
              (List.range 24).map fun k => slot r.2.2 c.line_size k⟩
      ∧ st1.printer_lnum = r.1
      ∧ st1.out = st.out ++ r.2.1 ++ printedBytes c st r.2.2 := by
  rcases pageStep_paths c fetch st st1 h with ⟨hs1, _⟩ | ⟨_, _, _, r, hrec, hpl, hout⟩
  · rw [hs] at hs1
    exact absurd hs1 (by simp)
  · refine ⟨r, hrec, ?_, hpl, hout⟩
    simp [printedPass, hs, hrec]

set_option maxRecDepth 1000000 in
/-- C22: evaluation of `dot24_print_page` on two pages whose only set pixel
lies in dot-column 1, one in each horizontal-doubling mode.  At 360x360 with
the pixel in row 0, four bands are printed: the two printed in the even phase
(`print_even_dots` set) start at `lnum = -36` and `lnum = -25`, and the two
printed in the odd phase start at `lnum = -12` and `lnum = -1` with
`printer_lnum` already at 2 and 3, so that the correction drops row 0 and
both hold only zero rows.  At 360x180 with the pixel in row 24, the two
bands that hold the row are both printed in the even phase.  In both cases no
printed band holds a row with the pixel set while the odd phase is printed,
and the bytes written for the page hold no graphics run: the pixel is
lost. -/
theorem odd_column_pixel_never_printed :
    (pixelSet (fetchRow (fun line => if line = 0 then some [64]
          else if 0 ≤ line ∧ line < 48 then some [0] else none) 1 0) 1 = true
      ∧ (printedPasses ⟨360, 360, 1, 48, false⟩
            (fun line => if line = 0 then some [64]
              else if 0 ≤ line ∧ line < 48 then some [0] else none))
          = [⟨-36, 0, true, [64] :: List.replicate 23 [0]⟩,
             ⟨-25, 1, true, List.replicate 24 [0]⟩,
             ⟨-12, 2, false, List.replicate 24 [0]⟩,
             ⟨-1, 3, false, List.replicate 24 [0]⟩]
      ∧ pixelPrinted ⟨360, 360, 1, 48, false⟩
          (fun line => if line = 0 then some [64]
            else if 0 ≤ line ∧ line < 48 then some [0] else none) 1 = false
      ∧ dot24_print_page ⟨360, 360, 1, 48, false⟩
          (fun line => if line = 0 then some [64]
            else if 0 ≤ line ∧ line < 48 then some [0] else none)
          = .ok ([27, 36, 0, 0, 13, 27, 43, 1, 10, 27, 43, 0, 27, 43, 1, 10, 27, 43, 0,
                  27, 43, 1, 10, 27, 43, 0, 12, 27, 64], 0)
      ∧ readPage 29 [27, 36, 0, 0, 13, 27, 43, 1, 10, 27, 43, 0, 27, 43, 1, 10, 27, 43, 0,
                  27, 43, 1, 10, 27, 43, 0, 12, 27, 64]
          = ([Op.pos 0, Op.cr, Op.micro, Op.micro, Op.micro, Op.eject], []))
    ∧ (pixelSet (fetchRow (fun line => if line = 24 then some [64]
          else if 0 ≤ line ∧ line < 60 then some [0] else none) 1 24) 1 = true
      ∧ (printedPasses ⟨360, 180, 1, 60, false⟩
            (fun line => if line = 24 then some [64]
              else if 0 ≤ line ∧ line < 60 then some [0] else none))
          = [⟨12, 12, true, List.replicate 12 [0] ++ [64] :: List.replicate 11 [0]⟩,
             ⟨24, 24, true, [64] :: List.replicate 23 [0]⟩]
      ∧ pixelPrinted ⟨360, 180, 1, 60, false⟩
          (fun line => if line = 24 then some [64]
            else if 0 ≤ line ∧ line < 60 then some [0] else none) 1 = false
      ∧ dot24_print_page ⟨360, 180, 1, 60, false⟩
          (fun line => if line = 24 then some [64]
            else if 0 ≤ line ∧ line < 60 then some [0] else none)
          = .ok ([27, 74, 12, 27, 36, 0, 0, 13, 27, 74, 12, 27, 36, 0, 0, 13, 12, 27, 64], 0)
      ∧ readPage 19 [27, 74, 12, 27, 36, 0, 0, 13, 27, 74, 12, 27, 36, 0, 0, 13, 12, 27, 64]
          = ([Op.feed 12, Op.pos 0, Op.cr, Op.feed 12, Op.pos 0, Op.cr, Op.eject], [])) :=
  ⟨⟨rfl, rfl, rfl, rfl, rfl⟩, ⟨rfl, rfl, rfl, rfl, rfl⟩⟩


/-! ## The output of a printed band and of a feed as commands -/

end Lq510
